import Mathlib

/-!
Verification of the PathMap prefix-trie serializer/reader (`src/prefix-trie.ts`,
exporting `PrefixTrieWriter`, `PrefixTrieReader`, `encodePathMapNode`,
`decodePathMapNode`) and of the Bloom filter (`src/bloom-filter.ts`).

Modelling conventions:
* Strings are modelled as `List Char` (`Str`).  All offsets are UTF-8 byte
  offsets, computed with `Char.utf8Size`; the source scans `Uint8Array`s, and
  on the valid-UTF-8 buffers manipulated here a byte equal to `0x0a` occurs
  exactly at the `'\n'` characters, so scanning characters while counting
  bytes is equivalent.
* JavaScript objects used as finite maps (`TrieNode`, `PathMapLine`,
  `seenLines`) are modelled as association lists; assignment to an existing
  key overwrites in place, assignment to a fresh key appends.
* The JSON encoder/decoder used for leaf payloads (`JSON.stringify` /
  `JSON.parse`) is an external collaborator per the specification; the
  development is parameterised by a codec `JsonCodec` and theorems assume the
  conformance facts they need about the payloads actually used
  (`GoodCodecAt`).  A concrete executable codec (`simpleCodec`) instantiates
  the theorems on sample data.
* Functions that the source writes with unbounded loops are written with an
  explicit fuel argument so that everything is executable and reduces in the
  kernel; lemmas show the fuel is irrelevant when large enough.
-/

namespace PathMap

/-- Strings as lists of characters. -/
abbrev Str := List Char

/-- Standard UTF-8 encoding of one scalar value (`TextEncoder`). -/
def charBytes (c : Char) : List Nat :=
  let n := c.toNat
  if n < 128 then [n]
  else if n < 2048 then [192 + n / 64, 128 + n % 64]
  else if n < 65536 then [224 + n / 4096, 128 + n / 64 % 64, 128 + n % 64]
  else [240 + n / 262144, 128 + n / 4096 % 64, 128 + n / 64 % 64, 128 + n % 64]

/-- UTF-8 byte length of one character. -/
def charSize (c : Char) : Nat := (charBytes c).length

/-- `TextEncoder().encode` of a whole string. -/
def utf8Bytes (s : Str) : List Nat := (s.map charBytes).flatten

/-- UTF-8 byte length of a string, as computed by `TextEncoder`. -/
def utf8Len (s : Str) : Nat := (s.map charSize).sum

/-- Drop `n` UTF-8 bytes from the front of a string.  Returns `none` when `n`
overruns the string or does not land on a character boundary (neither happens
on the offsets produced by the writer). -/
def dropBytes : Str → Nat → Option Str
  | s, 0 => some s
  | [], _ + 1 => none
  | c :: s, n + 1 =>
    if charSize c ≤ n + 1 then dropBytes s (n + 1 - charSize c) else none

/-! ### JSON payloads

`JSONValue` from the source; JavaScript numbers are modelled as integers
(claims do not depend on float formatting).  The JSON text codec itself is an
external collaborator (`JSON.stringify` / `JSON.parse`), modelled as a
parameter `JsonCodec` plus the per-value conformance predicate
`GoodCodecAt`. -/

inductive JsonValue where
  | null : JsonValue
  | bool (b : Bool) : JsonValue
  | num (n : Int) : JsonValue
  | str (s : Str) : JsonValue
  | arr (elems : List JsonValue) : JsonValue
  | obj (fields : List (Str × JsonValue)) : JsonValue

/-- External JSON codec (encoder and decoder). -/
structure JsonCodec where
  enc : JsonValue → Str
  dec : Str → Option JsonValue

/-- `isPmapDelimiter` from the source: the bytes that may start a node line. -/
def isPmapDelimiter (c : Char) : Bool :=
  c = '/' || c = ':' || c = '!' || c = '\n'

/-- A leaf line produced by a conformant JSON encoder: non-empty, not starting
with a node-line delimiter nor with the ANSI escape byte `0x1b` (which the
writer's `push` treats specially), and containing no newline. -/
def leafTextOk (s : Str) : Bool :=
  match s.head? with
  | some c => !isPmapDelimiter c && c != '\x1b' && s.all (fun d => d != '\n')
  | none => false

/-- Conformance of the external JSON codec at one value: the encoding is a
valid leaf line and decoding it back (with the trailing newline the reader
keeps, which `JSON.parse` ignores as whitespace) returns the value. -/
def GoodCodecAt (J : JsonCodec) (v : JsonValue) : Prop :=
  leafTextOk (J.enc v) = true ∧ J.dec (J.enc v ++ ['\n']) = some v

/-! ### Base-16 references (`encodeBase16`, `parseInt(val, 16) || 0`) -/

/-- Lowercase hex digit for a value below 16 (`Number.prototype.toString(16)`). -/
def hexDigitChar (n : Nat) : Char :=
  if n < 10 then Char.ofNat (48 + n) else Char.ofNat (87 + n)

/-- Big-endian hex digits of `n`, with explicit fuel (`n.toString(16)`). -/
def natHexF : Nat → Nat → Str
  | 0, _ => []
  | f + 1, n => if n = 0 then [] else natHexF f (n / 16) ++ [hexDigitChar (n % 16)]

/-- `encodeBase16`: lowercase hex digits, empty string for zero. -/
def hexStr (n : Nat) : Str := natHexF (n + 1) n

/-- Value of a hex digit, accepting both cases like `parseInt(_, 16)`. -/
def hexVal (c : Char) : Option Nat :=
  if 48 ≤ c.toNat ∧ c.toNat ≤ 57 then some (c.toNat - 48)
  else if 97 ≤ c.toNat ∧ c.toNat ≤ 102 then some (c.toNat - 87)
  else if 65 ≤ c.toNat ∧ c.toNat ≤ 70 then some (c.toNat - 55)
  else none

/-- Accumulate leading hex digits, stopping at the first non-digit, as
`parseInt(val, 16)` does on the digit-led strings that occur in node lines. -/
def parseHexLoop : Str → Nat → Nat
  | [], a => a
  | c :: r, a =>
    match hexVal c with
    | some d => parseHexLoop r (16 * a + d)
    | none => a

/-- `parseInt(val, 16) || 0`: no digits (`NaN`) and the value `0` both give 0.
(The exotic leading-junk handling of `parseInt` — whitespace, signs, `0x` —
cannot occur in the canonical lowercase-hex tokens read from node lines.) -/
def parseIntOr0 (s : Str) : Nat := parseHexLoop s 0

/-! ### Segment escaping (`escapeSegment`, `val.replace(/\\(.)/g, ...)`) -/

/-- The bytes `escapeSegment` prefixes with a backslash. -/
def isSegSpecial (c : Char) : Bool :=
  c = '\\' || c = '/' || c = ':' || c = '!'

/-- `escapeSegment`: prefix each of `\\ / : !` with a backslash. -/
def escapeSegment (s : Str) : Str :=
  (s.map (fun c => if isSegSpecial c then ['\\', c] else [c])).flatten

/-- `escapedSegment.replace(/\\(.)/g, (_, c) => c)`: drop each backslash that
has a following character; a lone trailing backslash is kept. -/
def unescapeSegment : Str → Str
  | [] => []
  | c :: rest =>
    if c = '\\' then
      match rest with
      | [] => ['\\']
      | c₂ :: rest₂ => c₂ :: unescapeSegment rest₂
    else c :: unescapeSegment rest

/-- One token of the node-line scanner: the maximal run matched by
`(?:\\[/:!]|[^/:!\n])*` — escaped delimiters are consumed in pairs, any other
character (including a backslash not followed by `/ : !`) singly, and the
token stops at an unescaped delimiter.  Returns the token and the rest. -/
def readToken : Str → Str × Str
  | [] => ([], [])
  | c :: rest =>
    if c = '\\' then
      match rest with
      | [] => (['\\'], [])
      | c₂ :: rest₂ =>
        if c₂ = '/' ∨ c₂ = ':' ∨ c₂ = '!' then
          let p := readToken rest₂
          ('\\' :: c₂ :: p.1, p.2)
        else
          let p := readToken (c₂ :: rest₂)
          ('\\' :: p.1, p.2)
    else if isPmapDelimiter c then ([], c :: rest)
    else
      let p := readToken rest
      (c :: p.1, p.2)

/-! ### Node lines (`PathMapLine`) -/

/-- A reference stored in a node line: the inline `!` marker (payload `true`)
or a byte offset. -/
inductive Ref where
  | inline : Ref
  | off (n : Nat) : Ref
deriving DecidableEq

/-- A decoded `PathMapLine`: the optional self reference (the symbol-keyed
`VALUE` slot) plus the segment-keyed entries in insertion order. -/
structure PMLine where
  self : Option Ref
  entries : List (Str × Ref)
deriving DecidableEq

/-- Assignment to a JS object key: overwrite in place or append. -/
def setEntry : List (Str × Ref) → Str → Ref → List (Str × Ref)
  | [], k, r => [(k, r)]
  | (k₁, r₁) :: rest, k, r =>
    if k₁ = k then (k, r) :: rest else (k₁, r₁) :: setEntry rest k r

/-- `line[key] = leaf` where `key` is the pending key (`none` = the `VALUE`
symbol). -/
def setVal (l : PMLine) (k : Option Str) (r : Ref) : PMLine :=
  match k with
  | none => ⟨some r, l.entries⟩
  | some key => ⟨l.self, setEntry l.entries key r⟩

/-- Property read `node[part]` (own entries only; see the note on JS objects
as finite maps in the header). -/
def lookupEntry : List (Str × Ref) → Str → Option Ref
  | [], _ => none
  | (k₁, r₁) :: rest, k => if k₁ = k then some r₁ else lookupEntry rest k

/-- The two failure modes of `decodePathMapNode`: the explicit
`MalformedLine` throw of the starter guard, and the `TypeError` JavaScript
raises inside the loop on `val.replace` when a trailing unescaped `/` has no
following token chunk (`parts[i + 1]` is `undefined`). -/
inductive DecErr where
  | malformed : DecErr
  | typeErr : DecErr
deriving DecidableEq

/-- The decoder loop of `decodePathMapNode`: alternately read one delimiter
and one token; `/tok` sets the pending key, `:tok` and `!` assign to it,
`\n` breaks.  A `/` that is the last character of the data has no token
chunk after it at all (not even an empty one), so `val` is `undefined` and
`val.replace` throws a `TypeError`, modelled as `none`; for a trailing `:`
the source's `parseInt(undefined, 16) || 0` yields `0` harmlessly, and `!`
never reads `val`.  Fuel bounds the number of iterations (each consumes at
least one character). -/
def decodeLoop : Nat → Str → Option Str → PMLine → Option PMLine
  | 0, _, _, acc => some acc
  | _ + 1, [], _, acc => some acc
  | f + 1, c :: rest, key, acc =>
    if c = '\n' then some acc
    else if c = '/' then
      if rest = [] then none
      else
        let p := readToken rest
        decodeLoop f p.2 (some (unescapeSegment p.1)) acc
    else if c = ':' then
      let p := readToken rest
      decodeLoop f p.2 key (setVal acc key (Ref.off (parseIntOr0 p.1)))
    else if c = '!' then
      let p := readToken rest
      decodeLoop f p.2 key (setVal acc key Ref.inline)
    else
      some acc

/-- `decodePathMapNode`: reject (the `MalformedLine` throw) unless the first
character is a node-line delimiter — in particular the empty string is
rejected — then run the scanner with the pending key initialised to the
`VALUE` slot; a scanner failure is the `TypeError` described at
`decodeLoop`. -/
def decodePathMapNode (data : Str) : Except DecErr PMLine :=
  match data.head? with
  | some c =>
    if isPmapDelimiter c then
      match decodeLoop (data.length + 1) data none ⟨none, []⟩ with
      | some pml => Except.ok pml
      | none => Except.error DecErr.typeErr
    else Except.error DecErr.malformed
  | none => Except.error DecErr.malformed

/-! ### JavaScript own-key ordering

`Object.entries` (used by `encodePathMapNode`) and `Object.keys` list keys
that are canonical array indices first, in ascending numeric order, then the
remaining string keys in insertion order. -/

/-- Numeric value of a digit string. -/
def strToNat (s : Str) : Nat := s.foldl (fun a c => 10 * a + (c.toNat - 48)) 0

/-- Canonical array-index key: a canonical decimal numeral below `2^32 - 1`. -/
def isArrayIndexKey (s : Str) : Bool :=
  !s.isEmpty && s.all (fun c => decide (48 ≤ c.toNat) && decide (c.toNat ≤ 57))
    && (s = ['0'] || s.head? != some '0') && decide (strToNat s < 4294967295)

/-- Insertion into a list sorted by numeric key value. -/
def insertByNum (x : Str × Ref) : List (Str × Ref) → List (Str × Ref)
  | [] => [x]
  | y :: ys =>
    if strToNat x.1 ≤ strToNat y.1 then x :: y :: ys else y :: insertByNum x ys

/-- Sort entries by numeric key value (array-index keys are pairwise distinct
numerals, so stability is irrelevant). -/
def sortByNum : List (Str × Ref) → List (Str × Ref)
  | [] => []
  | x :: xs => insertByNum x (sortByNum xs)

/-- Reorder an insertion-ordered entry list the way JavaScript enumerates own
string keys: array-index keys first in ascending numeric order, then the
rest in insertion order. -/
def jsOrderEntries (l : List (Str × Ref)) : List (Str × Ref) :=
  sortByNum (l.filter (fun e => isArrayIndexKey e.1))
    ++ l.filter (fun e => !isArrayIndexKey e.1)

/-- Encoding of one reference: `!` for the inline marker, `:` plus lowercase
hex (empty for zero) for an offset. -/
def encodeRef : Ref → Str
  | Ref.inline => ['!']
  | Ref.off n => ':' :: hexStr n

/-- `encodePathMapNode`: optional self field first, then one `/segment` field
per entry, enumerated in JavaScript own-key order. -/
def encodePathMapNode (l : PMLine) : Str :=
  (match l.self with
   | some r => encodeRef r
   | none => []) ++
  ((jsOrderEntries l.entries).map
    (fun e => '/' :: (escapeSegment e.1 ++ encodeRef e.2))).flatten

/-! ### Association lists (JavaScript objects as finite maps) -/

/-- Own-property read. -/
def alookup {α : Type} : List (Str × α) → Str → Option α
  | [], _ => none
  | (k₁, v₁) :: rest, k => if k₁ = k then some v₁ else alookup rest k

/-- Own-property write: overwrite in place or append a fresh key. -/
def aset {α : Type} : List (Str × α) → Str → α → List (Str × α)
  | [], k, v => [(k, v)]
  | (k₁, v₁) :: rest, k, v =>
    if k₁ = k then (k, v) :: rest else (k₁, v₁) :: aset rest k v

/-- UTF-16 code units of one character (JavaScript string elements). -/
def utf16Units (c : Char) : List Nat :=
  if c.toNat < 65536 then [c.toNat]
  else [55296 + (c.toNat - 65536) / 1024, 56320 + (c.toNat - 65536) % 1024]

/-- UTF-16 code-unit sequence of a string. -/
def u16Key (s : Str) : List Nat := (s.map utf16Units).flatten

/-- Lexicographic strict order on code-unit sequences. -/
def natListLt : List Nat → List Nat → Bool
  | _, [] => false
  | [], _ :: _ => true
  | a :: as, b :: bs => if a < b then true else if b < a then false else natListLt as bs

/-- JavaScript default sort comparator on strings: `s ≤ t` in UTF-16
code-unit lexicographic order. -/
def u16Le (s t : Str) : Bool := !natListLt (u16Key t) (u16Key s)

/-! ### The in-memory trie (`TrieNode`) -/

/-- A trie node: optional self payload (the symbol-keyed `VALUE`) and the
children in insertion order. -/
inductive Trie where
  | mk (val : Option JsonValue) (children : List (Str × Trie))

/-- The self payload. -/
def Trie.val : Trie → Option JsonValue
  | Trie.mk v _ => v

/-- The children list. -/
def Trie.children : Trie → List (Str × Trie)
  | Trie.mk _ cs => cs

/-- The empty root. -/
def emptyTrie : Trie := Trie.mk none []

/-- Keys every plain object (`{}`, the writer's trie nodes) and every
`PathMapLine` instance answer truthily through the prototype chain even when
no own key is present: the enumerable-accessible members of
`Object.prototype` plus the `__proto__` accessor (`PathMapLine` declares no
members of its own, so its instances inherit exactly these and
`constructor`). -/
def jsProtoKey (k : Str) : Bool :=
  ["constructor".toList, "hasOwnProperty".toList, "isPrototypeOf".toList,
   "propertyIsEnumerable".toList, "toLocaleString".toList, "toString".toList,
   "valueOf".toList, "__defineGetter__".toList, "__defineSetter__".toList,
   "__lookupGetter__".toList, "__lookupSetter__".toList,
   "__proto__".toList].contains k

/-- The own-key insertion walk: what `insert`'s loop computes when every
looked-up segment resolves to an own key or is freshly created (a proof-side
companion of `insertSegs` below, which additionally models the prototype
chain). -/
def insertSegsT : List Str → Trie → JsonValue → Trie
  | [], Trie.mk _ cs, v => Trie.mk (some v) cs
  | seg :: rest, Trie.mk val cs, v =>
    match alookup cs seg with
    | some sub => Trie.mk val (aset cs seg (insertSegsT rest sub v))
    | none => Trie.mk val (cs ++ [(seg, insertSegsT rest (Trie.mk none []) v)])

/-- Walk the decoded segments creating missing children, then set the
payload of the terminal node (`insert`, after path splitting and percent
decoding).  The guard is JavaScript truthiness of `current[part]`, which
consults the prototype chain: a segment with no own entry that names an
inherited key (`jsProtoKey`) is truthy anyway, so the source walks into the
inherited function object and all subsequent writes land outside the trie
(polluting shared prototypes); the walk then leaves the heap this model
covers, returned as `none`. -/
def insertSegs : List Str → Trie → JsonValue → Option Trie
  | [], Trie.mk _ cs, v => some (Trie.mk (some v) cs)
  | seg :: rest, Trie.mk val cs, v =>
    match alookup cs seg with
    | some sub =>
      (insertSegs rest sub v).map (fun t' => Trie.mk val (aset cs seg t'))
    | none =>
      if jsProtoKey seg then none
      else
        (insertSegs rest (Trie.mk none []) v).map
          (fun t' => Trie.mk val (cs ++ [(seg, t')]))

/-- The same walk without mutation: payload of the node reached by the
segments, or `none` (`PrefixTrieWriter.find`, after splitting/decoding). -/
def trieFindSegs : List Str → Trie → Option JsonValue
  | [], t => t.val
  | seg :: rest, t =>
    match alookup t.children seg with
    | some sub => trieFindSegs rest sub
    | none => none

/-! ### Path splitting and percent decoding -/

/-- `path.split('/')`. -/
def splitSlash : Str → List Str
  | [] => [[]]
  | c :: rest =>
    if c = '/' then [] :: splitSlash rest
    else
      match splitSlash rest with
      | s :: ss => (c :: s) :: ss
      | [] => [[c]]

/-- The physical lines of a serialized file: split on every newline (used to
state what a reader of the raw bytes sees, independently of the writer's own
line list). -/
def splitNl : Str → List Str
  | [] => [[]]
  | c :: rest =>
    if c = '\n' then [] :: splitNl rest
    else
      match splitNl rest with
      | s :: ss => (c :: s) :: ss
      | [] => [[c]]

/-- A maximal run of `%XX` escapes: the decoded bytes and the rest.  `none`
when a `%` is not followed by two hex digits (the `URIError` throw of
`decodeURIComponent`). -/
def pctRun : Str → Option (List Nat × Str)
  | '%' :: h₁ :: h₂ :: rest =>
    match hexVal h₁, hexVal h₂ with
    | some a, some b =>
      if rest.head? = some '%' then
        match pctRun rest with
        | some p => some ((16 * a + b) :: p.1, p.2)
        | none => none
      else some ([16 * a + b], rest)
    | _, _ => none
  | _ => none

/-- Strict UTF-8 decoding of a byte run (no overlong forms, no surrogates,
bounded by `0x10FFFF`), as `decodeURIComponent` requires of escape runs. -/
def utf8DecodeF : Nat → List Nat → Option Str
  | 0, _ => none
  | _ + 1, [] => some []
  | f + 1, b :: rest =>
    if b < 128 then
      match utf8DecodeF f rest with
      | some cs => some (Char.ofNat b :: cs)
      | none => none
    else if 194 ≤ b ∧ b ≤ 223 then
      match rest with
      | b₂ :: r₂ =>
        if 128 ≤ b₂ ∧ b₂ ≤ 191 then
          match utf8DecodeF f r₂ with
          | some cs => some (Char.ofNat ((b - 192) * 64 + (b₂ - 128)) :: cs)
          | none => none
        else none
      | [] => none
    else if 224 ≤ b ∧ b ≤ 239 then
      match rest with
      | b₂ :: b₃ :: r₃ =>
        let n := (b - 224) * 4096 + (b₂ - 128) * 64 + (b₃ - 128)
        if 128 ≤ b₂ ∧ b₂ ≤ 191 ∧ 128 ≤ b₃ ∧ b₃ ≤ 191 ∧ 2048 ≤ n ∧
            ¬ (55296 ≤ n ∧ n ≤ 57343) then
          match utf8DecodeF f r₃ with
          | some cs => some (Char.ofNat n :: cs)
          | none => none
        else none
      | _ => none
    else if 240 ≤ b ∧ b ≤ 244 then
      match rest with
      | b₂ :: b₃ :: b₄ :: r₄ =>
        let n := (b - 240) * 262144 + (b₂ - 128) * 4096 + (b₃ - 128) * 64 + (b₄ - 128)
        if 128 ≤ b₂ ∧ b₂ ≤ 191 ∧ 128 ≤ b₃ ∧ b₃ ≤ 191 ∧ 128 ≤ b₄ ∧ b₄ ≤ 191 ∧
            65536 ≤ n ∧ n ≤ 1114111 then
          match utf8DecodeF f r₄ with
          | some cs => some (Char.ofNat n :: cs)
          | none => none
        else none
      | _ => none
    else none

/-- Fueled body of `decodeURIComponent`: literal characters pass through,
each maximal `%` run must decode as valid UTF-8. -/
def pdecodeF : Nat → Str → Option Str
  | 0, _ => none
  | _ + 1, [] => some []
  | f + 1, c :: rest =>
    if c = '%' then
      match pctRun (c :: rest) with
      | some p =>
        match utf8DecodeF (p.1.length + 1) p.1, pdecodeF f p.2 with
        | some cs, some t => some (cs ++ t)
        | _, _ => none
      | none => none
    else
      match pdecodeF f rest with
      | some t => some (c :: t)
      | none => none

/-- `decodeURIComponent`; `none` models the `URIError` throw. -/
def pdecode (s : Str) : Option Str := pdecodeF (s.length + 1) s

/-- `PrefixTrieWriter.insert`: reject paths not starting with `/`, split on
`/`, percent-decode every segment, insert.  (The source decodes segments one
at a time while walking, so a failing `decodeURIComponent` can leave freshly
created empty nodes behind; all claims treated here quantify over successful
insertions, for which the two formulations agree.) -/
def insert (t : Trie) (path : Str) (v : JsonValue) : Option Trie :=
  if path.head? = some '/' then
    match (splitSlash path).mapM pdecode with
    | some segs => insertSegs segs t v
    | none => none
  else none

/-- `bulkInsert` over an association list of paths and payloads. -/
def insertAll (t : Trie) (pairs : List (Str × JsonValue)) : Option Trie :=
  pairs.foldlM (fun acc p => insert acc p.1 p.2) t

/-! ### The serializer (`PrefixTrieWriter.stringify`, non-debug) -/

/-- Writer state: emitted lines (each stored with its terminating newline),
the running byte offset, and the dedup table from line text to first offset. -/
structure WState where
  lines : List Str
  offset : Nat
  seen : List (Str × Nat)

/-- The initial writer state. -/
def initState : WState := ⟨[], 0, []⟩

/-- `push`: return the recorded offset of an already-seen line, else append
the line, record its offset and advance by its byte length plus one (the
ANSI-escape check only fires on debug colour lines, never on data). -/
def push (s : WState) (str : Str) : Nat × WState :=
  match alookup s.seen str with
  | some o => (o, s)
  | none =>
    (s.offset,
     ⟨s.lines ++ [str ++ ['\n']],
      s.offset + (if str.head? = some '\x1b' then 0 else utf8Len str + 1),
      s.seen ++ [(str, s.offset)]⟩)

/-- `pushLeaf`: the payload `true` becomes the inline marker without emitting
a line; any other payload is JSON-encoded and pushed. -/
def pushLeaf (J : JsonCodec) (s : WState) (v : JsonValue) : Ref × WState :=
  match v with
  | JsonValue.bool true => (Ref.inline, s)
  | _ =>
    let p := push s (J.enc v)
    (Ref.off p.1, p.2)

/-- Insertion into a list of children sorted by the JavaScript comparator. -/
def insChild (x : Str × Trie) : List (Str × Trie) → List (Str × Trie)
  | [] => [x]
  | y :: ys => if u16Le x.1 y.1 then x :: y :: ys else y :: insChild x ys

/-- `Object.keys(trieNode).sort()`: children in UTF-16 lexicographic order. -/
def sortChildren : List (Str × Trie) → List (Str × Trie)
  | [] => []
  | x :: xs => insChild x (sortChildren xs)

/-- `walkNode`: push the self leaf if present, walk the children in sorted
order — a childless child with a payload becomes a leaf reference, any other
child recurses — then push the encoded node line.  Fuel bounds the recursion
depth (strictly more than the subtree size is never needed). -/
def walkNode (J : JsonCodec) : Nat → Trie → WState → Nat × WState
  | 0, _, s => (0, s)
  | f + 1, t, s =>
    let s₁ : Option Ref × WState :=
      match t.val with
      | some v =>
        let p := pushLeaf J s v
        (some p.1, p.2)
      | none => (none, s)
    let s₂ : List (Str × Ref) × WState :=
      (sortChildren t.children).foldl
        (fun acc kc =>
          match kc.2 with
          | Trie.mk (some v) [] =>
            let p := pushLeaf J acc.2 v
            (acc.1 ++ [(kc.1, p.1)], p.2)
          | c =>
            let p := walkNode J f c acc.2
            (acc.1 ++ [(kc.1, Ref.off p.1)], p.2))
        (([], s₁.2) : List (Str × Ref) × WState)
    push s₂.2 (encodePathMapNode ⟨s₁.1, s₂.1⟩)

/-- Decidable depth bound: the trie's depth is strictly below `n`.  This is
the measure that justifies the fuel of `walkNode`; every theorem quantifies
over an arbitrary sufficient fuel. -/
def depthLeB : Nat → Trie → Bool
  | 0, _ => false
  | n + 1, t => t.children.all (fun kc => depthLeB n kc.2)

/-- `stringify` down to the final writer state and root offset: the walk
starts at the child of the root under the empty segment (the part of every
inserted path before the leading `/`); `none` models the `TypeError` the
source raises when nothing was ever inserted.  `fuel` must exceed the depth
of that child (`depthLeB`); it is a modelling device only. -/
def stringifyState (J : JsonCodec) (fuel : Nat) (t : Trie) : Option (Nat × WState) :=
  match alookup t.children ([] : Str) with
  | some t₀ => some (walkNode J fuel t₀ initState)
  | none => none

/-- `stringify`: the concatenated emitted lines. -/
def stringify (J : JsonCodec) (fuel : Nat) (t : Trie) : Option Str :=
  (stringifyState J fuel t).map (fun p => p.2.lines.flatten)

/-! ### The reader (`PrefixTrieReader`) -/

/-- Strip the trailing run of `0x0a` bytes (the constructor's first loop). -/
def trimNl (bs : List Nat) : List Nat :=
  (bs.reverse.dropWhile (fun b => b = 10)).reverse

/-- Closed form of the constructor's backward scan: the position just after
the last `0x0a` that precedes the trailing newline run.  `none` when no such
byte exists — in the source the scan then runs past index 0 forever (see
`ctorScan`); there is no fallback to offset 0 and no `UnexpectedEOF` throw. -/
def lastLineStart (bs : List Nat) : Option Nat :=
  match (trimNl bs).reverse.findIdx? (fun b => b = 10) with
  | some i => some ((trimNl bs).length - i)
  | none => none

/-- The constructor's second loop, fuel-indexed and faithful to the missing
bounds check: from offset 0 the JavaScript loop inspects `bytes[-1]`
(`undefined`), keeps decrementing and never terminates, which the model
renders as consuming fuel forever at offset 0. -/
def ctorScan (bs : List Nat) : Nat → Nat → Option Nat
  | 0, _ => none
  | f + 1, o =>
    match o with
    | 0 => ctorScan bs f 0
    | k + 1 => if bs.getD k 0 = 10 then some (k + 1) else ctorScan bs f k

/-- The constructor on raw bytes with explicit fuel. -/
def ctorFromBytes (f : Nat) (bs : List Nat) : Option Nat :=
  ctorScan bs f (trimNl bs).length

/-- Root offset of a reader over the UTF-8 bytes of a file, in closed form. -/
def readerRootOffset (file : Str) : Option Nat := lastLineStart (utf8Bytes file)

/-- Characters of the line beginning a string, up to and including the first
newline; `none` models the `UnexpectedEOF` throw of `getUTF8Line`. -/
def takeLine : Str → Option Str
  | [] => none
  | c :: rest =>
    if c = '\n' then some ['\n']
    else
      match takeLine rest with
      | some l => some (c :: l)
      | none => none

/-- `getUTF8Line`: the line starting at byte offset `o`. -/
def getUTF8Line (file : Str) (o : Nat) : Option Str :=
  (dropBytes file o).bind takeLine

/-- A parsed line: a node line or a JSON payload. -/
inductive LineVal where
  | node (l : PMLine) : LineVal
  | json (v : JsonValue) : LineVal

/-- Reader error conditions (`typeErr` is the decoder's `TypeError`
propagating out of `getLine`). -/
inductive RdErr where
  | eof : RdErr
  | malformed : RdErr
  | typeErr : RdErr
  | jsonBad : RdErr
  | pathShape : RdErr
  | payload : RdErr
  | uri : RdErr
deriving DecidableEq

/-- `getLine` of `PrefixTrieReader.find` (without the cache, which only
memoises this deterministic function): fetch the line at an offset and
dispatch on its first byte between the node-line decoder and the JSON
parser. -/
def getLineOf (J : JsonCodec) (file : Str) (o : Nat) : Except RdErr LineVal :=
  match getUTF8Line file o with
  | none => Except.error RdErr.eof
  | some line =>
    match line.head? with
    | none => Except.error RdErr.eof
    | some c =>
      if isPmapDelimiter c then
        match decodePathMapNode line with
        | Except.ok pml => Except.ok (LineVal.node pml)
        | Except.error DecErr.malformed => Except.error RdErr.malformed
        | Except.error DecErr.typeErr => Except.error RdErr.typeErr
      else
        match J.dec line with
        | some v => Except.ok (LineVal.json v)
        | none => Except.error RdErr.jsonBad

/-- The per-segment loop of `find`, with its two mutable slots `leaf` and
`node`; each raw segment is percent-decoded on entry to its iteration.
`entry = node?.[part]` is `undefined` when `node` is unset; otherwise it
consults own entries first and then the prototype chain of the
`PathMapLine` instance: a segment naming an inherited key yields the
inherited function, and `getLine` on it runs `getUTF8Line` at a `NaN`
offset, whose scan never terminates — the overall `Option` result is `none`
in that case (non-termination), `some` the returned value or thrown error.
After the loop: a resolved leaf is returned; otherwise the current node's
self reference, if any, is resolved. -/
def findLoop (J : JsonCodec) (file : Str) :
    List Str → Option LineVal → Option PMLine →
      Option (Except RdErr (Option LineVal))
  | [], leaf, nod =>
    some (match leaf with
    | some lv => Except.ok (some lv)
    | none =>
      match nod with
      | none => Except.ok none
      | some pml =>
        match pml.self with
        | none => Except.ok none
        | some Ref.inline => Except.ok (some (LineVal.json (JsonValue.bool true)))
        | some (Ref.off n) =>
          match getLineOf J file n with
          | Except.error e => Except.error e
          | Except.ok lv => Except.ok (some lv))
  | raw :: rest, leaf, nod =>
    match pdecode raw with
    | none => some (Except.error RdErr.uri)
    | some part =>
      match nod with
      | none => some (Except.ok none)
      | some pml =>
        match lookupEntry pml.entries part with
        | none =>
          if jsProtoKey part then none
          else some (Except.ok none)
        | some Ref.inline =>
          findLoop J file rest (some (LineVal.json (JsonValue.bool true))) none
        | some (Ref.off n) =>
          match getLineOf J file n with
          | Except.error e => some (Except.error e)
          | Except.ok (LineVal.node pml₁) => findLoop J file rest leaf (some pml₁)
          | Except.ok (LineVal.json v) =>
            findLoop J file rest (some (LineVal.json v)) none

/-- `PrefixTrieReader.find` given the root offset: reject paths not starting
with `/`, require the root line to be a node line (`ensurePathMapNode`), then
run the loop over the segments after the leading `/`; `none` marks the
non-terminating inherited-key lookup described at `findLoop`. -/
def prefixFind (J : JsonCodec) (file : Str) (rootOff : Nat) (path : Str) :
    Option (Except RdErr (Option LineVal)) :=
  if path.head? = some '/' then
    match getLineOf J file rootOff with
    | Except.error e => some (Except.error e)
    | Except.ok (LineVal.json _) => some (Except.error RdErr.payload)
    | Except.ok (LineVal.node pml) =>
      findLoop J file (splitSlash (path.drop 1)) none (some pml)
  else some (Except.error RdErr.pathShape)

/-! ### A concrete JSON codec for instantiating the theorems

The JSON text codec is out of scope for the specification ("assumed
conformant"); the theorems take it as a parameter.  `simpleCodec` is one
executable instance used by witnesses: it prints every payload shape and
parses back the scalar shapes (null, booleans, integers, escape-free
strings), which is all the sample data needs; `GoodCodecAt` is established
pointwise at the values a witness uses. -/

/-- Decimal digits of a positive number, fuel-structural. -/
def natDecF : Nat → Nat → Str
  | 0, _ => []
  | f + 1, n => if n = 0 then [] else natDecF f (n / 10) ++ [Char.ofNat (48 + n % 10)]

/-- Decimal numeral. -/
def natDec (n : Nat) : Str := if n = 0 then ['0'] else natDecF (n + 1) n

/-- Decimal numeral of an integer. -/
def intDec : Int → Str
  | Int.ofNat n => natDec n
  | Int.negSucc n => '-' :: natDec (n + 1)

/-- JSON string escaping as `JSON.stringify` performs it. -/
def escJsonChar (c : Char) : Str :=
  if c = '"' then ['\\', '"']
  else if c = '\\' then ['\\', '\\']
  else if c = '\n' then ['\\', 'n']
  else if c = '\r' then ['\\', 'r']
  else if c = '\t' then ['\\', 't']
  else if c = Char.ofNat 8 then ['\\', 'b']
  else if c = Char.ofNat 12 then ['\\', 'f']
  else if c.toNat < 32 then
    ['\\', 'u', '0', '0', hexDigitChar (c.toNat / 16), hexDigitChar (c.toNat % 16)]
  else [c]

/-- JSON string literal. -/
def strLit (s : Str) : Str := '"' :: (s.map escJsonChar).flatten ++ ['"']

/-- Comma-separated concatenation. -/
def commaSep : List Str → Str
  | [] => []
  | [x] => x
  | x :: y :: xs => x ++ ',' :: commaSep (y :: xs)

/-- JSON printer with fuel for the nesting depth. -/
def jsonEncF : Nat → JsonValue → Str
  | 0, _ => []
  | _ + 1, JsonValue.null => ['n', 'u', 'l', 'l']
  | _ + 1, JsonValue.bool true => ['t', 'r', 'u', 'e']
  | _ + 1, JsonValue.bool false => ['f', 'a', 'l', 's', 'e']
  | _ + 1, JsonValue.num n => intDec n
  | _ + 1, JsonValue.str s => strLit s
  | f + 1, JsonValue.arr xs => '[' :: commaSep (xs.map (jsonEncF f)) ++ [']']
  | f + 1, JsonValue.obj fs =>
    Char.ofNat 123 ::
      commaSep (fs.map (fun kv => strLit kv.1 ++ ':' :: jsonEncF f kv.2)) ++
      [Char.ofNat 125]

/-- Trailing JSON whitespace, which `JSON.parse` ignores. -/
def stripWs (s : Str) : Str :=
  (s.reverse.dropWhile (fun c => c == '\n' || c == ' ' || c == '\t' || c == '\r')).reverse

/-- Non-empty all-digit string. -/
def allDigits (s : Str) : Bool :=
  !s.isEmpty && s.all (fun c => decide (48 ≤ c.toNat) && decide (c.toNat ≤ 57))

/-- Scalar-shape JSON parser (sufficient for the sample payloads; everything
else is rejected, like any conformant parser rejects non-JSON text). -/
def jsonDecSimple (s₀ : Str) : Option JsonValue :=
  let s := stripWs s₀
  if s = ['n', 'u', 'l', 'l'] then some JsonValue.null
  else if s = ['t', 'r', 'u', 'e'] then some (JsonValue.bool true)
  else if s = ['f', 'a', 'l', 's', 'e'] then some (JsonValue.bool false)
  else
    match s with
    | '"' :: rest =>
      if rest.getLast? = some '"' ∧ rest.length ≥ 1 then
        let mid := rest.dropLast
        if mid.all (fun c => c != '"' && c != '\\' && !(decide (c.toNat < 32))) then
          some (JsonValue.str mid)
        else none
      else none
    | '-' :: ds => if allDigits ds then some (JsonValue.num (-(strToNat ds : Int))) else none
    | ds => if allDigits ds then some (JsonValue.num (strToNat ds)) else none

/-- The concrete codec (printer fuel 100 covers any sample nesting). -/
def simpleCodec : JsonCodec := ⟨jsonEncF 100, jsonDecSimple⟩

/-! ### The Bloom filter (`src/bloom-filter.ts`)

Modelled from the spec: the 64-bit hash `xxh64` lives in `xxhash64.ts`, which
is not part of the sources (only its tests are); following §4.F it is an
arbitrary function `H : List Nat → Nat → Nat` from input bytes and seed to a
hash, and every theorem about the filter holds for all `H`.  Likewise the
float formulas for the default `m` and `k` (`Math.log`-based) are parameters
`defM`, `defK`; validity of their outputs is an explicit hypothesis where
needed. -/

/-- Constructor configuration: `Partial<BloomFilterParameters>`, with `none`
for omitted fields.  (`NaN` inputs are outside the rational model; like `0`
they are falsy and would be replaced by defaults.) -/
structure BloomCfg where
  n : Option ℚ
  p : Option ℚ
  m : Option ℚ
  k : Option ℚ
  s : Option ℚ

/-- Validated parameters. -/
structure BloomParams where
  n : ℚ
  p : ℚ
  m : ℚ
  k : ℚ
  s : ℚ
deriving DecidableEq

/-- `config.x || d`: an omitted or falsy (zero) supplied value falls back to
the default. -/
def falsyOr (x : Option ℚ) (d : ℚ) : ℚ :=
  match x with
  | none => d
  | some q => if q = 0 then d else q

/-- The `BloomFilter` constructor's validation sequence; `Except.error`
models the `TypeError` throws. -/
def bloomCtor (defM : ℚ → ℚ → ℚ) (defK : ℚ → ℚ) (cfg : BloomCfg) :
    Except Unit BloomParams :=
  match cfg.n with
  | none => Except.error ()
  | some n =>
    if ¬ (n.den = 1 ∧ 0 < n) then Except.error ()
    else
      let p := falsyOr cfg.p (1 / 10000000)
      if ¬ (0 < p ∧ p < 1) then Except.error ()
      else
        let m := falsyOr cfg.m (defM n p)
        if ¬ (m.den = 1 ∧ 0 < m) then Except.error ()
        else
          let k := falsyOr cfg.k (defK p)
          if ¬ (k.den = 1 ∧ 0 < k) then Except.error ()
          else
            let s := falsyOr cfg.s 0
            if s < 0 ∨ (9007199254740991 : ℚ) < s then Except.error ()
            else Except.ok ⟨n, p, m, k, s⟩

/-- Filter state: the integer parameters actually used by hashing plus the
byte array of `⌈m/8⌉` zero-initialised bytes. -/
structure BloomState where
  m : Nat
  k : Nat
  s : Nat
  filter : List Nat

/-- A fresh filter. -/
def mkBloomState (m k s : Nat) : BloomState :=
  ⟨m, k, s, List.replicate ((m + 7) / 8) 0⟩

/-- `hashIterator`: double hashing `(h₁ + i·h₂) mod 2⁶⁴ mod m` over the UTF-8
bytes of the value, yielding byte index and (bit-order-inverted) bit index. -/
def hashPositions (H : List Nat → Nat → Nat) (m k s : Nat) (v : Str) :
    List (Nat × Nat) :=
  let input := utf8Bytes v
  let h₁ := H input s
  let h₂ := H input (s + 1)
  (List.range k).map (fun i =>
    let o := (h₁ + i * h₂) % 18446744073709551616 % m
    (o / 8, 7 - o % 8))

/-- `add`: set every hashed bit (`filter[byte] |= 1 << bit`). -/
def bloomAdd (H : List Nat → Nat → Nat) (b : BloomState) (v : Str) : BloomState :=
  ⟨b.m, b.k, b.s,
   (hashPositions H b.m b.k b.s v).foldl
     (fun arr pos => arr.set pos.1 ((arr.getD pos.1 0) ||| (1 <<< pos.2)))
     b.filter⟩

/-- `has`: true iff every hashed bit is set. -/
def bloomHas (H : List Nat → Nat → Nat) (b : BloomState) (v : Str) : Bool :=
  (hashPositions H b.m b.k b.s v).all
    (fun pos => (b.filter.getD pos.1 0) &&& (1 <<< pos.2) != 0)

/-- `add` over a list of values. -/
def bloomAddAll (H : List Nat → Nat → Nat) (b : BloomState) (vs : List Str) :
    BloomState :=
  vs.foldl (bloomAdd H) b

/-! ### Line addressing and writer invariants (proof infrastructure) -/

/-- Total byte length of a list of emitted lines. -/
def linesLen (ls : List Str) : Nat := (ls.map utf8Len).sum

/-- The text `txt` (without its newline) is the `i`-th emitted line and starts
at byte offset `o` of the concatenated file. -/
def LineAt (ls : List Str) (o : Nat) (txt : Str) : Prop :=
  ∃ i, i < ls.length ∧ o = linesLen (List.take i ls) ∧ ls[i]? = some (txt ++ ['\n'])

/-- Every emitted line is some newline-free text plus its terminator. -/
def linesShaped (ls : List Str) : Prop :=
  ∀ l ∈ ls, ∃ txt, l = txt ++ ['\n'] ∧ ∀ c ∈ txt, c ≠ '\n'

/-- Well-formed writer state: the offset is the byte count of the emitted
lines, lines are shaped, and the dedup table records true line locations. -/
structure WFS (s : WState) : Prop where
  offEq : s.offset = linesLen s.lines
  shaped : linesShaped s.lines
  seenSound : ∀ p ∈ s.seen, LineAt s.lines p.2 p.1
  linesSeen : ∀ l ∈ s.lines, ∃ txt o, (txt, o) ∈ s.seen ∧ l = txt ++ ['\n']

/-- The buffer is append-only. -/
def Extends (s t : WState) : Prop := ∃ ext, t.lines = s.lines ++ ext

/-- A segment that survives the node-line token scanner: no embedded newline
(escaping does not protect `\n`, which would split the line) and no trailing
backslash (whose escaped form `\\` would absorb the following delimiter). -/
def SegOk (k : Str) : Bool :=
  k.all (fun c => c != '\n') && k.getLast? != some '\\'

/-- Entry lists as built by the writer: distinct, scanner-safe keys. -/
def entriesWF (es : List (Str × Ref)) : Prop :=
  (es.map Prod.fst).Nodup ∧ ∀ e ∈ es, SegOk e.1 = true

/-- The payload of a node that is a leaf and nothing else (the guard
`childLeaf !== undefined && Object.keys(child).length === 0`). -/
def leafOnly : Trie → Option JsonValue
  | Trie.mk (some v) [] => some v
  | _ => none

/-- A reference points at the first byte of some emitted line. -/
def RefOk (ls : List Str) (r : Ref) : Prop :=
  match r with
  | Ref.inline => True
  | Ref.off n => ∃ txt, LineAt ls n txt

/-- Well-formed trie: conformant payloads, distinct scanner-safe child keys. -/
inductive TrieWF (J : JsonCodec) : Trie → Prop where
  | intro : ∀ (v : Option JsonValue) (cs : List (Str × Trie)),
      (∀ w, v = some w → GoodCodecAt J w) →
      (cs.map Prod.fst).Nodup →
      (∀ kc ∈ cs, SegOk kc.1 = true) →
      (∀ kc ∈ cs, TrieWF J kc.2) →
      TrieWF J (Trie.mk v cs)

/-- A node's self payload against the self slot of its node line. -/
inductive SelfRep (J : JsonCodec) (ls : List Str) : Option JsonValue → Option Ref → Prop where
  | none : SelfRep J ls none none
  | inline : SelfRep J ls (some (JsonValue.bool true)) (some Ref.inline)
  | leaf : ∀ v n, v ≠ JsonValue.bool true → GoodCodecAt J v → LineAt ls n (J.enc v) →
      SelfRep J ls (some v) (some (Ref.off n))

mutual
/-- The line at offset `o` is a node line representing trie node `t`: its
text encodes some `PMLine` whose self slot matches `t`'s payload and whose
entries match `t`'s children, child by child. -/
inductive NodeRep (J : JsonCodec) : List Str → Nat → Trie → Prop where
  | intro : ∀ (ls : List Str) (o : Nat) (t : Trie) (pml : PMLine),
      LineAt ls o (encodePathMapNode pml) →
      entriesWF pml.entries →
      SelfRep J ls t.val pml.self →
      (∀ k : Str, ChildRel J ls (alookup t.children k) (lookupEntry pml.entries k)) →
      NodeRep J ls o t

/-- One child of a trie node against the reference stored for it: missing on
both sides, the inline `true` marker for a leaf-only `true` child, a leaf
line offset for any other leaf-only child, or a node line offset. -/
inductive ChildRel (J : JsonCodec) : List Str → Option Trie → Option Ref → Prop where
  | none : ∀ ls, ChildRel J ls none none
  | inline : ∀ ls (c : Trie), leafOnly c = some (JsonValue.bool true) →
      ChildRel J ls (some c) (some Ref.inline)
  | leaf : ∀ ls (c : Trie) (v : JsonValue) (n : Nat), leafOnly c = some v →
      v ≠ JsonValue.bool true → GoodCodecAt J v → LineAt ls n (J.enc v) →
      ChildRel J ls (some c) (some (Ref.off n))
  | node : ∀ ls (c : Trie) (n : Nat), leafOnly c = none → NodeRep J ls n c →
      ChildRel J ls (some c) (some (Ref.off n))
end

/-- Classification of one dedup-table entry: either a leaf line of some
conformant non-`true` payload, or the node line of some well-formed
represented trie of size below the bound `B` (the bound is what makes the
final root push fresh). -/
def SeenEntryOk (J : JsonCodec) (ls : List Str) (B : Nat) (p : Str × Nat) : Prop :=
  (∃ v, p.1 = J.enc v ∧ GoodCodecAt J v ∧ v ≠ JsonValue.bool true) ∨
  (∃ t pml, p.1 = encodePathMapNode pml ∧ entriesWF pml.entries ∧
    List.Pairwise (fun a b => u16Le a.1 b.1 = true) pml.entries ∧
    (∀ e ∈ pml.entries, RefOk ls e.2) ∧
    (∀ r, pml.self = some r → RefOk ls r) ∧
    NodeRep J ls p.2 t ∧ TrieWF J t ∧ sizeOf t < B)

/-- What the dedup table may contain while walking a subtree. -/
def SeenBelow (J : JsonCodec) (s : WState) (B : Nat) : Prop :=
  ∀ p ∈ s.seen, SeenEntryOk J s.lines B p

/-- Decoded segment sequence of a path, shared by writer and reader. -/
def decodedSegs (path : Str) : Option (List Str) := (splitSlash path).mapM pdecode

/-- Payload of the last inserted pair whose decoded segments coincide with
those of `path` (insertion overwrites, so this is what the trie stores). -/
def lastVal (pairs : List (Str × JsonValue)) (path : Str) : Option JsonValue :=
  pairs.foldl
    (fun acc pr => if decodedSegs pr.1 = decodedSegs path then some pr.2 else acc) none


/-- Modelled from the spec: the corrected constructor contract for claim C10.
Defaults substitute for omitted or falsy (`0`) supplied values first, and the
domain checks apply to the effective values; `n` must be present. -/
def effectiveBloomParams (defM : ℚ → ℚ → ℚ) (defK : ℚ → ℚ) (cfg : BloomCfg) :
    Option BloomParams :=
  match cfg.n with
  | none => none
  | some n =>
    let p := falsyOr cfg.p (1 / 10000000)
    let m := falsyOr cfg.m (defM n p)
    let k := falsyOr cfg.k (defK p)
    let s := falsyOr cfg.s 0
    if (n.den = 1 ∧ 0 < n) ∧ (0 < p ∧ p < 1) ∧ (m.den = 1 ∧ 0 < m) ∧ (k.den = 1 ∧ 0 < k)
        ∧ ¬ (s < 0 ∨ (9007199254740991 : ℚ) < s)
    then some ⟨n, p, m, k, s⟩ else none


/-- A trie node matches a decoded node line: the self slots and, key by key,
the child references correspond (`NodeRep` without the line location). -/
def MatchesPml (J : JsonCodec) (ls : List Str) (pml : PMLine) (t : Trie) : Prop :=
  SelfRep J ls t.val pml.self ∧
    ∀ k : Str, ChildRel J ls (alookup t.children k) (lookupEntry pml.entries k)


/-- One step of the children fold of `walkNode` (same term as the lambda in
`walkNode`; `walkNode_unfold` below is `rfl`). -/
def walkStep (J : JsonCodec) (f : Nat) (acc : List (Str × Ref) × WState)
    (kc : Str × Trie) : List (Str × Ref) × WState :=
  match kc.2 with
  | Trie.mk (some v) [] =>
    let p := pushLeaf J acc.2 v
    (acc.1 ++ [(kc.1, p.1)], p.2)
  | c =>
    let p := walkNode J f c acc.2
    (acc.1 ++ [(kc.1, Ref.off p.1)], p.2)

/-- Ascending lexicographic order on byte sequences (the ordering the
specification asserts for emitted child fields; compare with the writer's
actual UTF-16 sort plus JS object key enumeration). -/
def bytesLexLeAux : List Nat → List Nat → Bool
  | [], _ => true
  | _ :: _, [] => false
  | a :: as, b :: bs => if a < b then true else if b < a then false else bytesLexLeAux as bs

/-- `bytesLexLeAux` on the UTF-8 encodings of two segment strings. -/
def bytesLexLe (a b : Str) : Bool := bytesLexLeAux (utf8Bytes a) (utf8Bytes b)

/-!
## Theorems
-/

/-- Two characters with the same code point are equal. -/
theorem charEqOfToNatEq {a b : Char} (h : a.toNat = b.toNat) : a = b :=
  Char.ext (UInt32.ext h)

theorem utf8Len_eq_utf8Bytes_length (s : Str) :
    utf8Len s = (utf8Bytes s).length := by
  induction s with
  | nil => rfl
  | cons c s ih =>
    simp only [utf8Len, utf8Bytes, List.map_cons, List.flatten_cons, List.sum_cons,
      List.length_append]
    exact congrArg (charSize c + ·) (by simpa [utf8Len, utf8Bytes] using ih)

/-- A character other than `'\n'` contributes no `0x0a` byte: ASCII encodes
as its own code point and every byte of a multi-byte sequence is at least
`0x80`. -/
theorem charBytes_no_newline {c : Char} (h : c ≠ '\n') :
    ∀ b ∈ charBytes c, b ≠ 10 := by
  intro b hb
  have hval : c.toNat ≠ 10 := fun he => h (charEqOfToNatEq he)
  simp only [charBytes] at hb
  rcases Nat.lt_or_ge c.toNat 128 with h1 | h1
  · simp [h1] at hb
    omega
  · have hn1 : ¬ c.toNat < 128 := by omega
    rcases Nat.lt_or_ge c.toNat 2048 with h2 | h2
    · simp [hn1, h2] at hb
      rcases hb with hb | hb <;> omega
    · have hn2 : ¬ c.toNat < 2048 := by omega
      rcases Nat.lt_or_ge c.toNat 65536 with h3 | h3
      · simp [hn1, hn2, h3] at hb
        rcases hb with hb | hb | hb <;> omega
      · have hn3 : ¬ c.toNat < 65536 := by omega
        simp [hn1, hn2, hn3] at hb
        rcases hb with hb | hb | hb | hb <;> omega

theorem utf8Len_nil : utf8Len [] = 0 := rfl

theorem utf8Len_cons (c : Char) (s : Str) :
    utf8Len (c :: s) = charSize c + utf8Len s := rfl

theorem utf8Len_append (s t : Str) :
    utf8Len (s ++ t) = utf8Len s + utf8Len t := by
  induction s with
  | nil => simp [utf8Len]
  | cons c s ih => simp [utf8Len_cons, ih]; omega

theorem one_le_charSize (c : Char) : 1 ≤ charSize c := by
  simp only [charSize, charBytes]
  split
  · simp
  · split
    · simp
    · split <;> simp

theorem dropBytes_zero (s : Str) : dropBytes s 0 = some s := by
  cases s <;> rfl

theorem dropBytes_append (s t : Str) : dropBytes (s ++ t) (utf8Len s) = some t := by
  induction s with
  | nil => simpa using dropBytes_zero t
  | cons c s ih =>
    have h1 : 1 ≤ charSize c := one_le_charSize c
    have hlen : utf8Len (c :: s) = charSize c + utf8Len s := utf8Len_cons c s
    rcases Nat.exists_eq_add_of_le h1 with ⟨k, hk⟩
    have : utf8Len (c :: s) = (utf8Len s + k) + 1 := by omega
    rw [List.cons_append]
    rw [this]
    show dropBytes (c :: (s ++ t)) ((utf8Len s + k) + 1) = some t
    unfold dropBytes
    have hle : charSize c ≤ utf8Len s + k + 1 := by omega
    simp only [hle, if_true]
    have : utf8Len s + k + 1 - charSize c = utf8Len s := by omega
    rw [this]
    exact ih

/-- Appending to the buffer does not disturb byte addressing of the prefix. -/
theorem dropBytes_append_of_dropBytes {s r : Str} {n : Nat} (t : Str)
    (h : dropBytes s n = some r) : dropBytes (s ++ t) n = some (r ++ t) := by
  induction s generalizing n with
  | nil =>
    cases n with
    | zero => simp [dropBytes] at h; subst h; simp [dropBytes_zero]
    | succ k => simp [dropBytes] at h
  | cons c s ih =>
    cases n with
    | zero => simp [dropBytes] at h; subst h; simp [dropBytes_zero]
    | succ k =>
      simp only [List.cons_append, dropBytes] at h ⊢
      by_cases hle : charSize c ≤ k + 1
      · simp only [hle, if_true] at h ⊢
        exact ih h
      · simp [hle] at h

theorem linesLen_append (a b : List Str) :
    linesLen (a ++ b) = linesLen a + linesLen b := by
  simp [linesLen]

theorem linesLen_nil : linesLen [] = 0 := rfl

theorem utf8Len_flatten (ls : List Str) : utf8Len ls.flatten = linesLen ls := by
  induction ls with
  | nil => rfl
  | cons l ls ih =>
    simp only [List.flatten_cons, utf8Len_append, linesLen, List.map_cons, List.sum_cons, ih]

theorem lineAt_mono {ls : List Str} {o : Nat} {txt : Str} (ext : List Str)
    (h : LineAt ls o txt) : LineAt (ls ++ ext) o txt := by
  obtain ⟨i, hi, ho, hg⟩ := h
  refine ⟨i, by simp only [List.length_append]; omega, ?_, ?_⟩
  · rw [List.take_append_of_le_length (Nat.le_of_lt hi)]
    exact ho
  · rw [List.getElem?_append_left hi]
    exact hg

theorem lineAt_fresh (ls : List Str) (txt : Str) :
    LineAt (ls ++ [txt ++ ['\n']]) (linesLen ls) txt := by
  refine ⟨ls.length, by simp, ?_, ?_⟩
  · rw [List.take_append_of_le_length (Nat.le_refl _)]
    simp
  · simp

theorem linesShaped_one_le {ls : List Str} (hs : linesShaped ls) :
    ∀ l ∈ ls, 1 ≤ utf8Len l := by
  intro l hl
  obtain ⟨txt, rfl, -⟩ := hs l hl
  rw [utf8Len_append]
  have : 1 ≤ utf8Len ['\n'] := by
    simp [utf8Len, charSize, charBytes]
  omega

theorem linesLen_take_lt {ls : List Str} (hs : linesShaped ls) {i j : Nat}
    (hij : i < j) (hj : j ≤ ls.length) :
    linesLen (List.take i ls) < linesLen (List.take j ls) := by
  induction ls generalizing i j with
  | nil => simp at hj; omega
  | cons l ls ih =>
    cases j with
    | zero => omega
    | succ j =>
      cases i with
      | zero =>
        simp only [List.take_zero, linesLen_nil, List.take_succ_cons]
        have h1 : 1 ≤ utf8Len l := linesShaped_one_le hs l (by simp)
        have : linesLen (l :: List.take j ls) = utf8Len l + linesLen (List.take j ls) := by
          simp [linesLen]
        omega
      | succ i =>
        have hs2 : linesShaped ls := fun x hx => hs x (by simp [hx])
        have := ih hs2 (Nat.lt_of_succ_lt_succ hij) (by simpa using hj)
        simp only [List.take_succ_cons]
        have e1 : linesLen (l :: List.take i ls) = utf8Len l + linesLen (List.take i ls) := by
          simp [linesLen]
        have e2 : linesLen (l :: List.take j ls) = utf8Len l + linesLen (List.take j ls) := by
          simp [linesLen]
        omega

theorem lineAt_unique {ls : List Str} (hs : linesShaped ls) {o : Nat} {t₁ t₂ : Str}
    (h₁ : LineAt ls o t₁) (h₂ : LineAt ls o t₂) : t₁ = t₂ := by
  obtain ⟨i, hi, hoi, hgi⟩ := h₁
  obtain ⟨j, hj, hoj, hgj⟩ := h₂
  have hij : i = j := by
    rcases Nat.lt_trichotomy i j with h | h | h
    · have := linesLen_take_lt hs h (Nat.le_of_lt hj)
      omega
    · exact h
    · have := linesLen_take_lt hs h (Nat.le_of_lt hi)
      omega
  subst hij
  rw [hgi] at hgj
  have := Option.some.inj hgj
  exact (List.append_cancel_right this.symm).symm

theorem takeLine_of_no_newline {txt : Str} (h : ∀ c ∈ txt, c ≠ '\n') (rest : Str) :
    takeLine (txt ++ '\n' :: rest) = some (txt ++ ['\n']) := by
  induction txt with
  | nil => simp [takeLine]
  | cons c txt ih =>
    have hc : c ≠ '\n' := h c (by simp)
    have ih2 := ih (fun d hd => h d (by simp [hd]))
    show takeLine (c :: (txt ++ '\n' :: rest)) = some (c :: (txt ++ ['\n']))
    simp only [takeLine, if_neg hc]
    rw [ih2]

theorem getUTF8Line_of_lineAt {ls : List Str} {o : Nat} {txt : Str}
    (hs : linesShaped ls) (h : LineAt ls o txt) :
    getUTF8Line ls.flatten o = some (txt ++ ['\n']) := by
  obtain ⟨i, hi, ho, hg⟩ := h
  have hdec : ls = List.take i ls ++ (txt ++ ['\n']) :: List.drop (i + 1) ls := by
    conv_lhs => rw [← List.take_append_drop i ls]
    congr 1
    rw [List.drop_eq_getElem_cons hi]
    congr 1
    have := List.getElem?_eq_getElem hi
    rw [this] at hg
    exact Option.some.inj hg
  have hflat : ls.flatten =
      (List.take i ls).flatten ++ ((txt ++ ['\n']) ++ (List.drop (i + 1) ls).flatten) := by
    conv_lhs => rw [hdec]
    simp
  have hlen : utf8Len (List.take i ls).flatten = o := by
    rw [utf8Len_flatten, ho]
  have hnl : ∀ c ∈ txt, c ≠ '\n' := by
    have hmem : (txt ++ ['\n']) ∈ ls := by
      rw [hdec]
      simp
    obtain ⟨t₂, ht₂, hno⟩ := hs _ hmem
    have : txt = t₂ := List.append_cancel_right ht₂
    subst this
    exact hno
  rw [getUTF8Line, hflat, ← hlen, dropBytes_append]
  show takeLine ((txt ++ ['\n']) ++ (List.drop (i + 1) ls).flatten) = some (txt ++ ['\n'])
  have e : (txt ++ ['\n']) ++ (List.drop (i + 1) ls).flatten
      = txt ++ '\n' :: (List.drop (i + 1) ls).flatten := by
    simp
  rw [e]
  exact takeLine_of_no_newline hnl _

/-! ### Hex digits and scanner tokens -/

theorem char_ne_of_toNat_ne {c d : Char} (h : c.toNat ≠ d.toNat) : c ≠ d :=
  fun he => h (by rw [he])

theorem not_delim_of_toNat {c : Char}
    (h : c.toNat ≠ 47 ∧ c.toNat ≠ 58 ∧ c.toNat ≠ 33 ∧ c.toNat ≠ 10) :
    isPmapDelimiter c = false := by
  obtain ⟨h1, h2, h3, h4⟩ := h
  simp only [isPmapDelimiter, Bool.or_eq_false_iff, decide_eq_false_iff_not]
  refine ⟨⟨⟨?_, ?_⟩, ?_⟩, ?_⟩ <;> intro he <;> subst he
  · exact h1 rfl
  · exact h2 rfl
  · exact h3 rfl
  · exact h4 rfl

theorem hexVal_toNat_range {c : Char} {d : Nat} (h : hexVal c = some d) :
    (48 ≤ c.toNat ∧ c.toNat ≤ 57) ∨ (97 ≤ c.toNat ∧ c.toNat ≤ 102) ∨
      (65 ≤ c.toNat ∧ c.toNat ≤ 70) := by
  simp only [hexVal] at h
  split_ifs at h with h1 h2 h3
  · exact Or.inl h1
  · exact Or.inr (Or.inl h2)
  · exact Or.inr (Or.inr h3)

theorem hexVal_not_special {c : Char} {d : Nat} (h : hexVal c = some d) :
    isPmapDelimiter c = false ∧ c ≠ '\\' := by
  have hr := hexVal_toNat_range h
  constructor
  · apply not_delim_of_toNat
    rcases hr with ⟨a, b⟩ | ⟨a, b⟩ | ⟨a, b⟩ <;> omega
  · apply char_ne_of_toNat_ne
    have : ('\\' : Char).toNat = 92 := rfl
    rcases hr with ⟨a, b⟩ | ⟨a, b⟩ | ⟨a, b⟩ <;> omega

theorem hexVal_hexDigitChar {d : Nat} (h : d < 16) :
    hexVal (hexDigitChar d) = some d := by
  interval_cases d <;> rfl

theorem natHexF_digits (f : Nat) :
    ∀ n, ∀ c ∈ natHexF f n, ∃ d, d < 16 ∧ hexVal c = some d := by
  induction f with
  | zero => intro n c hc; simp [natHexF] at hc
  | succ f ih =>
    intro n c hc
    simp only [natHexF] at hc
    by_cases hn : n = 0
    · simp [hn] at hc
    · rw [if_neg hn] at hc
      rcases List.mem_append.mp hc with hc | hc
      · exact ih _ c hc
      · simp at hc
        subst hc
        exact ⟨n % 16, Nat.mod_lt _ (by norm_num), hexVal_hexDigitChar (Nat.mod_lt _ (by norm_num))⟩

theorem hexStr_digits {n : Nat} : ∀ c ∈ hexStr n, ∃ d, d < 16 ∧ hexVal c = some d :=
  natHexF_digits (n + 1) n

theorem parseHexLoop_append {s t : Str} (hs : ∀ c ∈ s, (hexVal c).isSome = true) :
    ∀ a, parseHexLoop (s ++ t) a = parseHexLoop t (parseHexLoop s a) := by
  induction s with
  | nil => intro a; rfl
  | cons c s ih =>
    intro a
    have hc := hs c (by simp)
    rcases ho : hexVal c with - | d
    · rw [ho] at hc; simp at hc
    · simp only [List.cons_append, parseHexLoop, ho]
      exact ih (fun x hx => hs x (by simp [hx])) _

theorem natHexF_parse (f : Nat) :
    ∀ n, n < f → ∀ a, parseHexLoop (natHexF f n) a = a * 16 ^ (natHexF f n).length + n := by
  induction f with
  | zero => intro n hn; omega
  | succ f ih =>
    intro n hn a
    by_cases h0 : n = 0
    · subst h0; simp [natHexF, parseHexLoop]
    · have hrec : n / 16 < f := by
        have h1 : n / 16 < n := Nat.div_lt_self (by omega) (by norm_num)
        omega
      have hdig : ∀ c ∈ natHexF f (n / 16), (hexVal c).isSome = true := by
        intro c hc
        obtain ⟨d, -, hd⟩ := natHexF_digits f _ c hc
        simp [hd]
      simp only [natHexF, if_neg h0]
      rw [parseHexLoop_append hdig]
      rw [ih _ hrec a]
      have hmod : n % 16 < 16 := Nat.mod_lt _ (by norm_num)
      simp only [parseHexLoop, hexVal_hexDigitChar hmod]
      rw [List.length_append]
      simp only [List.length_singleton]
      have hpow : 16 ^ ((natHexF f (n / 16)).length + 1)
          = 16 ^ (natHexF f (n / 16)).length * 16 := by ring
      rw [hpow]
      have hassoc : a * (16 ^ (natHexF f (n / 16)).length * 16)
          = a * 16 ^ (natHexF f (n / 16)).length * 16 := by ring
      rw [hassoc]
      have hdm := Nat.div_add_mod n 16
      generalize a * 16 ^ (natHexF f (n / 16)).length = Q
      omega

theorem parse_hexStr (n : Nat) : parseIntOr0 (hexStr n) = n := by
  have := natHexF_parse (n + 1) n (by omega) 0
  simpa [parseIntOr0, hexStr] using this

/-! ### `readToken` against encoder output -/

theorem readToken_delim {c : Char} (rest : Str) (h : isPmapDelimiter c = true) :
    readToken (c :: rest) = ([], c :: rest) := by
  have hc : c ≠ '\\' := by
    intro he; subst he; exact absurd h (by decide)
  rw [readToken.eq_def]
  simp [hc, h]

theorem readToken_start (s : Str)
    (hr : ∀ c, s.head? = some c → isPmapDelimiter c = true) :
    readToken s = ([], s) := by
  cases s with
  | nil => rfl
  | cons c rest => exact readToken_delim rest (hr c rfl)

theorem readToken_plain {s : Str} (r : Str)
    (hs : ∀ c ∈ s, isPmapDelimiter c = false ∧ c ≠ '\\')
    (hr : ∀ c, r.head? = some c → isPmapDelimiter c = true) :
    readToken (s ++ r) = (s, r) := by
  induction s with
  | nil => simpa using readToken_start r hr
  | cons c s ih =>
    obtain ⟨hd, hb⟩ := hs c (by simp)
    have ih2 := ih (fun x hx => hs x (by simp [hx]))
    show readToken (c :: (s ++ r)) = (c :: s, r)
    rw [readToken.eq_def]
    simp [hb, hd, ih2]

theorem escapeSegment_ne_nil {k : Str} (h : k ≠ []) : escapeSegment k ≠ [] := by
  cases k with
  | nil => exact absurd rfl h
  | cons c k =>
    simp only [escapeSegment, List.map_cons, List.flatten_cons]
    by_cases hc : isSegSpecial c = true <;> simp [hc]

theorem escapeSegment_head {k : Str} {c : Char}
    (h : (escapeSegment k).head? = some c) : c = '\\' ∨ isSegSpecial c = false := by
  cases k with
  | nil => simp [escapeSegment] at h
  | cons d k =>
    simp only [escapeSegment, List.map_cons, List.flatten_cons] at h
    by_cases hd : isSegSpecial d = true
    · rw [hd] at h
      simp at h
      exact Or.inl h.symm
    · simp only [Bool.not_eq_true] at hd
      rw [hd] at h
      simp at h
      subst h
      exact Or.inr hd

theorem segOk_tail {c : Char} {k : Str} (hk : SegOk (c :: k) = true) (hne : k ≠ []) :
    SegOk k = true := by
  simp only [SegOk, Bool.and_eq_true, List.all_cons] at hk ⊢
  obtain ⟨⟨-, h2⟩, h3⟩ := hk
  refine ⟨h2, ?_⟩
  cases k with
  | nil => exact absurd rfl hne
  | cons d k₂ => rwa [List.getLast?_cons_cons] at h3

theorem segOk_no_newline {c : Char} {k : Str} (hk : SegOk (c :: k) = true) : c ≠ '\n' := by
  simp only [SegOk, Bool.and_eq_true, List.all_cons] at hk
  intro he; subst he
  simp at hk

theorem readToken_escaped {k : Str} (r : Str)
    (hk : SegOk k = true)
    (hr : ∀ c, r.head? = some c → isPmapDelimiter c = true) :
    readToken (escapeSegment k ++ r) = (escapeSegment k, r) := by
  induction k with
  | nil => simpa [escapeSegment] using readToken_start r hr
  | cons c k ih =>
    have hnlc : c ≠ '\n' := segOk_no_newline hk
    rw [show escapeSegment (c :: k) = (if isSegSpecial c = true then ['\\', c] else [c]) ++ escapeSegment k from rfl]
    by_cases hs : isSegSpecial c = true
    · rw [if_pos hs]
      by_cases hc : c = '\\'
      · subst hc
        have hkne : k ≠ [] := by
          intro he; subst he; simp [SegOk] at hk
        have hkOk : SegOk k = true := segOk_tail hk hkne
        have hnonnil : escapeSegment k ≠ [] := escapeSegment_ne_nil hkne
        obtain ⟨e, es, hE⟩ : ∃ e es, escapeSegment k = e :: es := by
          cases hEE : escapeSegment k with
          | nil => exact absurd hEE hnonnil
          | cons a b => exact ⟨a, b, rfl⟩
        have hhead : e = '\\' ∨ isSegSpecial e = false := by
          apply escapeSegment_head (k := k)
          rw [hE]; rfl
        have hesc : ¬ (e = '/' ∨ e = ':' ∨ e = '!') := by
          rcases hhead with he | he
          · subst he; intro hcon; rcases hcon with h | h | h <;> simp_all
          · intro hcon
            rcases hcon with h | h | h <;> subst h <;> simp [isSegSpecial] at he
        have ihe := ih hkOk
        rw [hE] at ihe ⊢
        simp only [List.cons_append] at ihe
        have inner : readToken ('\\' :: (e :: (es ++ r))) = ('\\' :: e :: es, r) := by
          rw [readToken.eq_def]
          simp [hesc, ihe]
        show readToken ('\\' :: '\\' :: (e :: (es ++ r))) = ('\\' :: '\\' :: (e :: es), r)
        rw [readToken.eq_def]
        simp [inner]
      · have hmem : c = '/' ∨ c = ':' ∨ c = '!' := by
          simp only [isSegSpecial, Bool.or_eq_true, decide_eq_true_eq] at hs
          tauto
        have hkOk : SegOk k = true := by
          by_cases hke : k = []
          · subst hke; rfl
          · exact segOk_tail hk hke
        have ihe := ih hkOk
        show readToken ('\\' :: c :: (escapeSegment k ++ r)) = ('\\' :: c :: escapeSegment k, r)
        rw [readToken.eq_def]
        simp [hmem, ihe]
    · rw [if_neg hs]
      have hkOk : SegOk k = true := by
        by_cases hke : k = []
        · subst hke; rfl
        · exact segOk_tail hk hke
      have hb : c ≠ '\\' := by
        intro he; subst he; simp [isSegSpecial] at hs
      have hd : isPmapDelimiter c = false := by
        have hsf : isSegSpecial c = false := by
          simpa using hs
        simp only [isSegSpecial, Bool.or_eq_false_iff, decide_eq_false_iff_not] at hsf
        simp only [isPmapDelimiter, Bool.or_eq_false_iff, decide_eq_false_iff_not]
        exact ⟨⟨⟨hsf.1.1.2, hsf.1.2⟩, hsf.2⟩, hnlc⟩
      have ihe := ih hkOk
      show readToken (c :: (escapeSegment k ++ r)) = (c :: escapeSegment k, r)
      rw [readToken.eq_def]
      simp [hb, hd, ihe]

theorem unescape_escape (k : Str) : unescapeSegment (escapeSegment k) = k := by
  induction k with
  | nil => rfl
  | cons c k ih =>
    rw [show escapeSegment (c :: k) = (if isSegSpecial c = true then ['\\', c] else [c]) ++ escapeSegment k from rfl]
    by_cases hs : isSegSpecial c = true
    · rw [if_pos hs]
      show unescapeSegment ('\\' :: c :: escapeSegment k) = c :: k
      rw [unescapeSegment.eq_def]
      simp [ih]
    · rw [if_neg hs]
      have hb : c ≠ '\\' := by
        intro he; subst he; simp [isSegSpecial] at hs
      show unescapeSegment (c :: escapeSegment k) = c :: k
      rw [unescapeSegment.eq_def]
      simp [hb, ih]

/-! ### Association lists -/

theorem lookupEntry_eq_alookup (es : List (Str × Ref)) (k : Str) :
    lookupEntry es k = alookup es k := by
  induction es with
  | nil => rfl
  | cons e es ih =>
    obtain ⟨k₁, r₁⟩ := e
    simp only [lookupEntry, alookup]
    split <;> simp [ih]

theorem setEntry_eq_aset (es : List (Str × Ref)) (k : Str) (r : Ref) :
    setEntry es k r = aset es k r := by
  induction es with
  | nil => rfl
  | cons e es ih =>
    obtain ⟨k₁, r₁⟩ := e
    simp only [setEntry, aset]
    split <;> simp [ih]

theorem alookup_append_left {α : Type} {es : List (Str × α)} {k : Str} {v : α}
    (h : alookup es k = some v) (es₂ : List (Str × α)) :
    alookup (es ++ es₂) k = some v := by
  induction es with
  | nil => simp [alookup] at h
  | cons e es ih =>
    obtain ⟨k₁, v₁⟩ := e
    simp only [alookup, List.cons_append] at h ⊢
    split at h
    · simp_all
    · simp only [*, if_false]
      exact ih h

theorem alookup_append_none {α : Type} {es : List (Str × α)} {k : Str}
    (h : alookup es k = none) (es₂ : List (Str × α)) :
    alookup (es ++ es₂) k = alookup es₂ k := by
  induction es with
  | nil => simp
  | cons e es ih =>
    obtain ⟨k₁, v₁⟩ := e
    simp only [alookup, List.cons_append] at h ⊢
    split at h
    · simp at h
    · simp only [*, if_false]
      exact ih h

theorem aset_of_alookup_none {α : Type} {es : List (Str × α)} {k : Str}
    (h : alookup es k = none) (v : α) : aset es k v = es ++ [(k, v)] := by
  induction es with
  | nil => rfl
  | cons e es ih =>
    obtain ⟨k₁, v₁⟩ := e
    simp only [alookup] at h
    split at h
    · simp at h
    · simp only [aset, if_neg (by assumption), List.cons_append]
      rw [ih h]

theorem alookup_mem {α : Type} {es : List (Str × α)} {k : Str} {v : α}
    (h : alookup es k = some v) : (k, v) ∈ es := by
  induction es with
  | nil => simp [alookup] at h
  | cons e es ih =>
    obtain ⟨k₁, v₁⟩ := e
    simp only [alookup] at h
    split at h
    · obtain ⟨rfl⟩ := Option.some.inj h
      subst ‹k₁ = k›
      simp
    · simp [ih h]

theorem alookup_none_iff {α : Type} (es : List (Str × α)) (k : Str) :
    alookup es k = none ↔ k ∉ es.map Prod.fst := by
  induction es with
  | nil => simp [alookup]
  | cons e es ih =>
    obtain ⟨k₁, v₁⟩ := e
    simp only [alookup, List.map_cons, List.mem_cons]
    split
    · have hkk : k₁ = k := by assumption
      subst hkk
      constructor
      · intro hcon
        exact absurd hcon (by simp)
      · intro hcon
        exact absurd (Or.inl rfl) hcon
    · simp only [ih]
      constructor
      · intro h hc
        rcases hc with hc | hc
        · exact ‹¬ k₁ = k› hc.symm
        · exact h hc
      · intro h hc
        exact h (Or.inr hc)

theorem mem_alookup {α : Type} {es : List (Str × α)} {k : Str} {v : α}
    (hnd : (es.map Prod.fst).Nodup) (h : (k, v) ∈ es) : alookup es k = some v := by
  induction es with
  | nil => simp at h
  | cons e es ih =>
    obtain ⟨k₁, v₁⟩ := e
    simp only [List.map_cons, List.nodup_cons] at hnd
    rcases List.mem_cons.mp h with he | he
    · injection he with h1 h2
      subst h1
      subst h2
      simp [alookup]
    · have hk : k₁ ≠ k := by
        intro hc
        subst hc
        exact hnd.1 (List.mem_map_of_mem Prod.fst he)
      simp only [alookup, if_neg hk]
      exact ih hnd.2 he

theorem alookup_eq_of_perm {α : Type} {es₁ es₂ : List (Str × α)}
    (hp : es₁.Perm es₂) (hnd : (es₁.map Prod.fst).Nodup) (k : Str) :
    alookup es₁ k = alookup es₂ k := by
  have hnd₂ : (es₂.map Prod.fst).Nodup := ((hp.map Prod.fst).nodup_iff).mp hnd
  cases h₁ : alookup es₁ k with
  | some v => exact (mem_alookup hnd₂ (hp.mem_iff.mp (alookup_mem h₁))).symm
  | none =>
    cases h₂ : alookup es₂ k with
    | none => rfl
    | some v =>
      have := hp.mem_iff.mpr (alookup_mem h₂)
      rw [mem_alookup hnd this] at h₁
      exact h₁.symm

/-! ### JavaScript key-order permutation -/

theorem insertByNum_perm (x : Str × Ref) (l : List (Str × Ref)) :
    (insertByNum x l).Perm (x :: l) := by
  induction l with
  | nil => simp [insertByNum]
  | cons y ys ih =>
    simp only [insertByNum]
    split
    · exact List.Perm.refl _
    · exact (List.Perm.cons y ih).trans (List.Perm.swap x y ys)

theorem sortByNum_perm (l : List (Str × Ref)) : (sortByNum l).Perm l := by
  induction l with
  | nil => simp [sortByNum]
  | cons x xs ih =>
    exact (insertByNum_perm x (sortByNum xs)).trans (List.Perm.cons x ih)

theorem jsOrderEntries_perm (l : List (Str × Ref)) : (jsOrderEntries l).Perm l := by
  have h1 := sortByNum_perm (l.filter (fun e => isArrayIndexKey e.1))
  have h2 := List.filter_append_perm (fun e => isArrayIndexKey e.1) l
  exact (h1.append_right _).trans h2

/-! ### Decoding an encoded node line -/

theorem encodeRef_head (r : Ref) (X : Str) :
    ∀ c, (encodeRef r ++ X).head? = some c → isPmapDelimiter c = true := by
  intro c h
  cases r with
  | inline =>
    simp only [encodeRef, List.cons_append, List.head?_cons] at h
    obtain rfl := Option.some.inj h
    rfl
  | off n =>
    simp only [encodeRef, List.cons_append, List.head?_cons] at h
    obtain rfl := Option.some.inj h
    rfl

theorem entStream_head (es : List (Str × Ref)) :
    ∀ c,
      ((es.map (fun e => '/' :: (escapeSegment e.1 ++ encodeRef e.2))).flatten
          ++ ['\n']).head? = some c →
      isPmapDelimiter c = true := by
  intro c h
  cases es with
  | nil =>
    simp only [List.map_nil, List.flatten_nil, List.nil_append, List.head?_cons] at h
    obtain rfl := Option.some.inj h
    rfl
  | cons e es =>
    simp only [List.map_cons, List.flatten_cons, List.cons_append, List.append_assoc,
      List.head?_cons] at h
    obtain rfl := Option.some.inj h
    rfl

theorem hexStr_plain (n : Nat) :
    ∀ c ∈ hexStr n, isPmapDelimiter c = false ∧ c ≠ '\\' := by
  intro c hc
  obtain ⟨d, -, hd⟩ := hexStr_digits c hc
  exact hexVal_not_special hd

theorem decodeLoop_step (f : Nat) (c : Char) (rest : Str) (key : Option Str) (acc : PMLine) :
    decodeLoop (f + 1) (c :: rest) key acc =
      if c = '\n' then some acc
      else if c = '/' then
        if rest = [] then none
        else decodeLoop f (readToken rest).2 (some (unescapeSegment (readToken rest).1)) acc
      else if c = ':' then
        decodeLoop f (readToken rest).2 key (setVal acc key (Ref.off (parseIntOr0 (readToken rest).1)))
      else if c = '!' then
        decodeLoop f (readToken rest).2 key (setVal acc key Ref.inline)
      else some acc := rfl

theorem decodeLoop_entries (es : List (Str × Ref)) :
    ∀ (f : Nat) (acc : PMLine) (key : Option Str),
      2 * es.length < f →
      (∀ e ∈ es, SegOk e.1 = true) →
      (es.map Prod.fst).Nodup →
      (∀ e ∈ es, alookup acc.entries e.1 = none) →
      decodeLoop f
        ((es.map (fun e => '/' :: (escapeSegment e.1 ++ encodeRef e.2))).flatten ++ ['\n'])
        key acc
        = some ⟨acc.self, acc.entries ++ es⟩ := by
  induction es with
  | nil =>
    intro f acc key hf _ _ _
    obtain ⟨f₁, rfl⟩ : ∃ f₁, f = f₁ + 1 := ⟨f - 1, by omega⟩
    simp [decodeLoop]
  | cons e es ih =>
    obtain ⟨k, r⟩ := e
    intro f acc key hf hseg hnd hfresh
    obtain ⟨f₁, rfl⟩ : ∃ f₁, f = f₁ + 1 := ⟨f - 1, by omega⟩
    have hkSeg : SegOk k = true := hseg (k, r) (by simp)
    have hkNotMem : k ∉ es.map Prod.fst := by
      simp only [List.map_cons, List.nodup_cons] at hnd
      exact hnd.1
    have hndTail : (es.map Prod.fst).Nodup := by
      simp only [List.map_cons, List.nodup_cons] at hnd
      exact hnd.2
    set rest := (es.map (fun e => '/' :: (escapeSegment e.1 ++ encodeRef e.2))).flatten ++ ['\n']
      with hrest
    have hstream :
        (((k, r) :: es).map (fun e => '/' :: (escapeSegment e.1 ++ encodeRef e.2))).flatten
            ++ ['\n']
          = '/' :: (escapeSegment k ++ (encodeRef r ++ rest)) := by
      simp [hrest]
    rw [hstream]
    have hread : readToken (escapeSegment k ++ (encodeRef r ++ rest)) =
        (escapeSegment k, encodeRef r ++ rest) :=
      readToken_escaped _ hkSeg (encodeRef_head r rest)
    rw [decodeLoop_step, if_neg (by decide : ¬ ('/' = '\n')), if_pos rfl,
      if_neg (show ¬ escapeSegment k ++ (encodeRef r ++ rest) = [] by
        cases r <;> simp [encodeRef]),
      hread, unescape_escape]
    have haccFresh : alookup acc.entries k = none := hfresh (k, r) (by simp)
    have hsetadd : ∀ rr : Ref, setEntry acc.entries k rr = acc.entries ++ [(k, rr)] := by
      intro rr
      rw [setEntry_eq_aset]
      exact aset_of_alookup_none haccFresh rr
    have hfresh₂ : ∀ rr : Ref, ∀ e ∈ es, alookup (acc.entries ++ [(k, rr)]) e.1 = none := by
      intro rr e he
      rw [alookup_append_none (hfresh e (by simp [he]))]
      have hek : e.1 ≠ k := by
        intro hc
        exact hkNotMem (hc ▸ List.mem_map_of_mem Prod.fst he)
      simp only [alookup, if_neg (show ¬ k = e.1 from fun h => hek h.symm)]
    have hrestHead := entStream_head es
    rw [← hrest] at hrestHead
    have hfinal : ∀ rr : Ref,
        decodeLoop f₁ (encodeRef rr ++ rest) (some k) acc
          = some ⟨acc.self, acc.entries ++ (k, rr) :: es⟩ := by
      intro rr
      cases rr with
      | inline =>
        obtain ⟨f₂, rfl⟩ : ∃ f₂, f₁ = f₂ + 1 := ⟨f₁ - 1, by simp at hf; omega⟩
        have hread₂ : readToken rest = ([], rest) := readToken_start rest hrestHead
        have h1 : encodeRef Ref.inline ++ rest = '!' :: rest := rfl
        rw [h1, decodeLoop_step, if_neg (by decide : ¬ ('!' = '\n')),
          if_neg (by decide : ¬ ('!' = '/')), if_neg (by decide : ¬ ('!' = ':')),
          if_pos rfl, hread₂]
        have h2 : setVal acc (some k) Ref.inline
            = ⟨acc.self, acc.entries ++ [(k, Ref.inline)]⟩ := by
          simp only [setVal]
          rw [hsetadd]
        rw [h2, ih f₂ ⟨acc.self, acc.entries ++ [(k, Ref.inline)]⟩ (some k)
          (by simp at hf ⊢; omega) (fun e he => hseg e (by simp [he])) hndTail
          (hfresh₂ Ref.inline)]
        simp
      | off n =>
        obtain ⟨f₂, rfl⟩ : ∃ f₂, f₁ = f₂ + 1 := ⟨f₁ - 1, by simp at hf; omega⟩
        have hread₂ : readToken (hexStr n ++ rest) = (hexStr n, rest) :=
          readToken_plain rest (hexStr_plain n) hrestHead
        have h1 : encodeRef (Ref.off n) ++ rest = ':' :: (hexStr n ++ rest) := rfl
        rw [h1, decodeLoop_step, if_neg (by decide : ¬ (':' = '\n')),
          if_neg (by decide : ¬ (':' = '/')), if_pos rfl, hread₂]
        have h2 : setVal acc (some k) (Ref.off (parseIntOr0 (hexStr n)))
            = ⟨acc.self, acc.entries ++ [(k, Ref.off n)]⟩ := by
          simp only [setVal, parse_hexStr]
          rw [hsetadd]
        rw [h2, ih f₂ ⟨acc.self, acc.entries ++ [(k, Ref.off n)]⟩ (some k)
          (by simp at hf ⊢; omega) (fun e he => hseg e (by simp [he])) hndTail
          (hfresh₂ (Ref.off n))]
        simp
    exact hfinal r

theorem entStream_len_ge (es : List (Str × Ref)) :
    2 * es.length
      ≤ ((es.map (fun e => '/' :: (escapeSegment e.1 ++ encodeRef e.2))).flatten).length := by
  induction es with
  | nil => simp
  | cons e es ih =>
    have h1 : 1 ≤ (encodeRef e.2).length := by
      cases h : e.2 <;> simp [encodeRef]
    simp only [List.map_cons, List.flatten_cons, List.length_append, List.length_cons]
    omega

theorem decodePathMapNode_delim {data : Str} {c : Char} (hc : data.head? = some c)
    (hdel : isPmapDelimiter c = true) :
    decodePathMapNode data
      = match decodeLoop (data.length + 1) data none ⟨none, []⟩ with
        | some pml => Except.ok pml
        | none => Except.error DecErr.typeErr := by
  simp [decodePathMapNode, hc, hdel]

theorem decodePathMapNode_cons (c : Char) (rest : Str) (hdel : isPmapDelimiter c = true) :
    decodePathMapNode (c :: rest)
      = match decodeLoop (rest.length + 1 + 1) (c :: rest) none ⟨none, []⟩ with
        | some pml => Except.ok pml
        | none => Except.error DecErr.typeErr := by
  simp [decodePathMapNode, hdel]

/-- Round trip: a node line produced by `encodePathMapNode` (with its trailing
newline) decodes back to the same self reference and the entries in
JavaScript own-key order. -/
theorem decode_encode (pml : PMLine)
    (hseg : ∀ e ∈ pml.entries, SegOk e.1 = true)
    (hnd : (pml.entries.map Prod.fst).Nodup) :
    decodePathMapNode (encodePathMapNode pml ++ ['\n'])
      = Except.ok ⟨pml.self, jsOrderEntries pml.entries⟩ := by
  have hperm : (jsOrderEntries pml.entries).Perm pml.entries := jsOrderEntries_perm _
  have hseg2 : ∀ e ∈ jsOrderEntries pml.entries, SegOk e.1 = true :=
    fun e he => hseg e (hperm.mem_iff.mp he)
  have hnd2 : ((jsOrderEntries pml.entries).map Prod.fst).Nodup :=
    ((hperm.map Prod.fst).nodup_iff).mpr hnd
  have hlen := entStream_len_ge (jsOrderEntries pml.entries)
  have hhead := entStream_head (jsOrderEntries pml.entries)
  cases hself : pml.self with
  | none =>
    have hfresh : ∀ e ∈ jsOrderEntries pml.entries,
        alookup (PMLine.entries ⟨none, []⟩) e.1 = none := fun _ _ => rfl
    obtain ⟨c0, hc0⟩ : ∃ c,
        (((jsOrderEntries pml.entries).map (fun e => '/' :: (escapeSegment e.1 ++ encodeRef e.2))).flatten ++ ['\n']).head? = some c := by
      cases h : ((jsOrderEntries pml.entries).map (fun e => '/' :: (escapeSegment e.1 ++ encodeRef e.2))).flatten with
      | nil => exact ⟨'\n', rfl⟩
      | cons a l => exact ⟨a, rfl⟩
    have hdata : encodePathMapNode pml ++ ['\n']
        = ((jsOrderEntries pml.entries).map (fun e => '/' :: (escapeSegment e.1 ++ encodeRef e.2))).flatten ++ ['\n'] := by
      simp [encodePathMapNode, hself]
    have hf : 2 * (jsOrderEntries pml.entries).length
        < (((jsOrderEntries pml.entries).map (fun e => '/' :: (escapeSegment e.1 ++ encodeRef e.2))).flatten ++ ['\n']).length + 1 := by
      simp only [List.length_append, List.length_cons, List.length_nil]
      omega
    rw [hdata, decodePathMapNode_delim hc0 (hhead c0 hc0),
      decodeLoop_entries _ _ _ _ hf hseg2 hnd2 hfresh]
    simp
  | some r =>
    cases r with
    | inline =>
      have hfresh : ∀ e ∈ jsOrderEntries pml.entries,
          alookup (PMLine.entries ⟨some Ref.inline, []⟩) e.1 = none := fun _ _ => rfl
      have hdata : encodePathMapNode pml ++ ['\n']
          = '!' :: (((jsOrderEntries pml.entries).map (fun e => '/' :: (escapeSegment e.1 ++ encodeRef e.2))).flatten ++ ['\n']) := by
        simp [encodePathMapNode, hself, encodeRef]
      have hf : 2 * (jsOrderEntries pml.entries).length
          < (((jsOrderEntries pml.entries).map (fun e => '/' :: (escapeSegment e.1 ++ encodeRef e.2))).flatten ++ ['\n']).length + 1 := by
        simp only [List.length_append, List.length_cons, List.length_nil]
        omega
      rw [hdata, decodePathMapNode_cons '!' _ (by rfl), decodeLoop_step,
        if_neg (by decide : ¬ ('!' = '\n')), if_neg (by decide : ¬ ('!' = '/')),
        if_neg (by decide : ¬ ('!' = ':')), if_pos rfl, readToken_start _ hhead]
      have hsv : setVal (⟨none, []⟩ : PMLine) none Ref.inline
          = ⟨some Ref.inline, []⟩ := rfl
      rw [hsv]
      rw [show ((([] : Str), ((jsOrderEntries pml.entries).map (fun e => '/' :: (escapeSegment e.1 ++ encodeRef e.2))).flatten ++ ['\n'])).2 = ((jsOrderEntries pml.entries).map (fun e => '/' :: (escapeSegment e.1 ++ encodeRef e.2))).flatten ++ ['\n'] from rfl]
      rw [decodeLoop_entries _ _ _ _ hf hseg2 hnd2 hfresh]
      simp
    | off n =>
      have hfresh : ∀ e ∈ jsOrderEntries pml.entries,
          alookup (PMLine.entries ⟨some (Ref.off n), []⟩) e.1 = none := fun _ _ => rfl
      have hdata : encodePathMapNode pml ++ ['\n']
          = ':' :: (hexStr n ++ (((jsOrderEntries pml.entries).map (fun e => '/' :: (escapeSegment e.1 ++ encodeRef e.2))).flatten ++ ['\n'])) := by
        simp [encodePathMapNode, hself, encodeRef]
      have hf : 2 * (jsOrderEntries pml.entries).length
          < (hexStr n ++ (((jsOrderEntries pml.entries).map (fun e => '/' :: (escapeSegment e.1 ++ encodeRef e.2))).flatten ++ ['\n'])).length + 1 := by
        simp only [List.length_append, List.length_cons, List.length_nil]
        omega
      rw [hdata, decodePathMapNode_cons ':' _ (by rfl), decodeLoop_step,
        if_neg (by decide : ¬ (':' = '\n')), if_neg (by decide : ¬ (':' = '/')),
        if_pos rfl, readToken_plain _ (hexStr_plain n) hhead]
      have hsv : setVal (⟨none, []⟩ : PMLine) none
            (Ref.off (parseIntOr0 ((hexStr n, ((jsOrderEntries pml.entries).map (fun e => '/' :: (escapeSegment e.1 ++ encodeRef e.2))).flatten ++ ['\n'])).1))
          = ⟨some (Ref.off n), []⟩ := by
        simp only [setVal, parse_hexStr]
      rw [hsv]
      rw [show ((hexStr n, ((jsOrderEntries pml.entries).map (fun e => '/' :: (escapeSegment e.1 ++ encodeRef e.2))).flatten ++ ['\n'])).2 = ((jsOrderEntries pml.entries).map (fun e => '/' :: (escapeSegment e.1 ++ encodeRef e.2))).flatten ++ ['\n'] from rfl]
      rw [decodeLoop_entries _ _ _ _ hf hseg2 hnd2 hfresh]
      simp

/-! ## The reader constructor's missing bounds check (claim C4) -/

/-- Once the backward scan reaches offset 0 it never stops: `bytes[-1]` is
`undefined`, never `0x0a`. -/
theorem ctorScan_zero (bs : List Nat) : ∀ f, ctorScan bs f 0 = none := by
  intro f
  induction f with
  | zero => rfl
  | succ f ih => simpa [ctorScan] using ih

/-- C4: refuted as stated — on the two-byte buffer `"a\n"` (bytes `[97, 10]`),
which contains one full line and no newline before it, the constructor's
backward scan runs past index 0 and never terminates: the fuelled model
returns `none` for every fuel, instead of the root offset 0 the claim
promises (and no `UnexpectedEOF` is thrown either). -/
theorem reader_ctor_diverges_on_single_line :
    ∀ f, ctorFromBytes f [97, 10] = none := by
  intro f
  cases f with
  | zero => rfl
  | succ f =>
    show ctorScan [97, 10] (f + 1) 1 = none
    simp only [ctorScan, List.getD]
    simpa using ctorScan_zero [97, 10] f

/-! ## Decoder error behaviour (claims C7 and C8) -/

/-- The starter guard: a missing or non-delimiter first byte is the
`MalformedLine` throw (helper shared by the decoder claims and the
classification of emitted lines). -/
theorem decode_bad_head {data : Str}
    (h : ∀ c, data.head? = some c → isPmapDelimiter c = false) :
    decodePathMapNode data = Except.error DecErr.malformed := by
  cases data with
  | nil => rfl
  | cons c rest =>
    have hc := h c rfl
    simp [decodePathMapNode, hc]

/-- C7 (amended): the node-line decoder fails with `MalformedLine` exactly
when the input's first character is missing or is not a delimiter byte.
Dangling `!`/`:` markers and unterminated escapes are accepted silently, and
the one remaining failure is not a `MalformedLine` at all: an input ending
in an unescaped `/` throws a `TypeError` from `val.replace` (see the
counterexample). -/
theorem decode_malformed_iff_bad_starter (data : Str) :
    decodePathMapNode data = Except.error DecErr.malformed
      ↔ ∀ c, data.head? = some c → isPmapDelimiter c = false := by
  constructor
  · intro h c hc
    cases data with
    | nil => exact absurd hc (by simp)
    | cons c₀ rest =>
      have hcc : c = c₀ := (Option.some.inj hc).symm
      subst hcc
      cases hdel : isPmapDelimiter c with
      | false => rfl
      | true =>
        rw [decodePathMapNode_cons c rest hdel] at h
        cases hl : decodeLoop (rest.length + 1 + 1) (c :: rest) none ⟨none, []⟩ with
        | some pml => rw [hl] at h; exact absurd h (by simp)
        | none => rw [hl] at h; exact absurd h (by simp)
  · exact decode_bad_head

/-- The non-`MalformedLine` behaviours claim C7 predicts to be
`MalformedLine`: an unterminated escape (`"/a\"`) is accepted with the
pending key silently dropped, a dangling `:` marker with no pending key is
accepted into the `VALUE` slot, and a line ending in an unescaped `/` fails
with a JavaScript `TypeError` instead. -/
theorem decode_unterminated_escape_accepted :
    decodePathMapNode ['/', 'a', '\\'] = Except.ok ⟨none, []⟩ ∧
    decodePathMapNode [':'] = Except.ok ⟨some (Ref.off 0), []⟩ ∧
    decodePathMapNode ['/'] = Except.error DecErr.typeErr :=
  ⟨rfl, rfl, rfl⟩

/-- C8 (amended): decoding the empty string fails (`MalformedLine` — the
guard rejects a first character that is not a delimiter, and there is none),
while the one-character string `"\n"` decodes to the empty node. -/
theorem decode_empty_and_lone_newline :
    decodePathMapNode ([] : Str) = Except.error DecErr.malformed
      ∧ decodePathMapNode ['\n'] = Except.ok ⟨none, []⟩ :=
  ⟨rfl, rfl⟩

/-- Decoding the empty string does not succeed with the empty node: it is
rejected outright, contradicting claim C8 as stated. -/
theorem decode_empty_string_rejected :
    decodePathMapNode ([] : Str) = Except.error DecErr.malformed := rfl

/-! ## The Bloom filter (claims C9 and C10) -/

/-- The source's bit test `(byte & (1 << bit)) !== 0` is `Nat.testBit`. -/
theorem bit_and_shift (x j : Nat) : (x &&& (1 <<< j) != 0) = x.testBit j := by
  rw [Nat.one_shiftLeft, Nat.and_two_pow]
  cases h : x.testBit j <;> simp [h]

/-- Setting bits never changes the array's length. -/
theorem foldl_set_length (ps : List (Nat × Nat)) :
    ∀ arr : List Nat,
      (ps.foldl (fun a pos => a.set pos.1 ((a.getD pos.1 0) ||| (1 <<< pos.2))) arr).length
        = arr.length := by
  induction ps with
  | nil => intro arr; rfl
  | cons p ps ih => intro arr; rw [List.foldl_cons, ih, List.length_set]

/-- One `|=` step preserves every set bit. -/
theorem set_bit_mono {arr : List Nat} {i j : Nat} (p : Nat × Nat)
    (h : (arr.getD i 0).testBit j = true) :
    ((arr.set p.1 ((arr.getD p.1 0) ||| (1 <<< p.2))).getD i 0).testBit j = true := by
  by_cases hij : p.1 = i
  · subst hij
    by_cases hlt : p.1 < arr.length
    · rw [List.getD_eq_getElem?_getD, List.getElem?_set, if_pos rfl, if_pos hlt,
        Option.getD_some, Nat.testBit_or]
      rw [h, Bool.true_or]
    · rw [List.set_eq_of_length_le (le_of_not_lt hlt)]
      exact h
  · rw [List.getD_eq_getElem?_getD, List.getElem?_set, if_neg hij,
      ← List.getD_eq_getElem?_getD]
    exact h

/-- A whole pass of `|=` steps preserves every set bit. -/
theorem foldl_set_mono (ps : List (Nat × Nat)) :
    ∀ {arr : List Nat} {i j : Nat},
      (arr.getD i 0).testBit j = true →
      ((ps.foldl (fun a pos => a.set pos.1 ((a.getD pos.1 0) ||| (1 <<< pos.2))) arr).getD
          i 0).testBit j = true := by
  induction ps with
  | nil => intro arr i j h; exact h
  | cons p ps ih => intro arr i j h; exact ih (set_bit_mono p h)

/-- After the pass, every position in range has its bit set. -/
theorem foldl_set_establishes (ps : List (Nat × Nat)) :
    ∀ (arr : List Nat), ∀ pos ∈ ps, pos.1 < arr.length →
      ((ps.foldl (fun a q => a.set q.1 ((a.getD q.1 0) ||| (1 <<< q.2))) arr).getD
          pos.1 0).testBit pos.2 = true := by
  induction ps with
  | nil => intro arr pos h; exact absurd h (List.not_mem_nil pos)
  | cons p ps ih =>
    intro arr pos hmem hlt
    rw [List.foldl_cons]
    rcases List.mem_cons.mp hmem with rfl | hmem₂
    · apply foldl_set_mono
      rw [List.getD_eq_getElem?_getD, List.getElem?_set, if_pos rfl, if_pos hlt,
        Option.getD_some, Nat.testBit_or, Nat.one_shiftLeft]
      simp [Nat.testBit_two_pow_self]
    · exact ih (arr.set p.1 ((arr.getD p.1 0) ||| (1 <<< p.2))) pos hmem₂
        (by rw [List.length_set]; exact hlt)

/-- Every hashed byte index lands inside the `⌈m/8⌉`-byte array. -/
theorem hashPositions_byte_lt (H : List Nat → Nat → Nat) {m : Nat} (k s : Nat)
    (v : Str) (hm : 0 < m) :
    ∀ pos ∈ hashPositions H m k s v, pos.1 < (m + 7) / 8 := by
  intro pos hpos
  unfold hashPositions at hpos
  simp only [List.mem_map, List.mem_range] at hpos
  obtain ⟨i, hi, rfl⟩ := hpos
  have ho : (H (utf8Bytes v) s + i * H (utf8Bytes v) (s + 1))
      % 18446744073709551616 % m < m := Nat.mod_lt _ hm
  rw [Nat.div_lt_iff_lt_mul (by norm_num : (0 : Nat) < 8)]
  have h8 := Nat.div_add_mod (m + 7) 8
  have h7 : (m + 7) % 8 < 8 := Nat.mod_lt _ (by norm_num)
  omega

/-- `add` keeps the hashing parameters and the array length. -/
theorem bloomAdd_shape (H : List Nat → Nat → Nat) (b : BloomState) (v : Str) :
    (bloomAdd H b v).m = b.m ∧ (bloomAdd H b v).k = b.k ∧ (bloomAdd H b v).s = b.s ∧
      (bloomAdd H b v).filter.length = b.filter.length :=
  ⟨rfl, rfl, rfl, foldl_set_length _ b.filter⟩

/-- `add v` makes `has v` true when the array has its nominal size. -/
theorem bloomHas_bloomAdd_self (H : List Nat → Nat → Nat) (b : BloomState) (v : Str)
    (hm : 0 < b.m) (hlen : b.filter.length = (b.m + 7) / 8) :
    bloomHas H (bloomAdd H b v) v = true := by
  unfold bloomHas bloomAdd
  simp only [List.all_eq_true]
  intro pos hpos
  rw [bit_and_shift]
  apply foldl_set_establishes _ _ pos hpos
  rw [hlen]
  exact hashPositions_byte_lt H b.k b.s v hm pos hpos

/-- `add w` never clears a bit `has v` looks at. -/
theorem bloomHas_bloomAdd_mono (H : List Nat → Nat → Nat) (b : BloomState)
    (v w : Str) (h : bloomHas H b v = true) :
    bloomHas H (bloomAdd H b w) v = true := by
  unfold bloomHas at h
  unfold bloomHas bloomAdd
  simp only [List.all_eq_true] at h ⊢
  intro pos hpos
  rw [bit_and_shift]
  exact foldl_set_mono _ ((bit_and_shift _ _) ▸ h pos hpos)

/-- Bulk insertion preserves `has`. -/
theorem bloomHas_addAll_mono (H : List Nat → Nat → Nat) (vs : List Str) :
    ∀ (b : BloomState) (v : Str), bloomHas H b v = true →
      bloomHas H (bloomAddAll H b vs) v = true := by
  induction vs with
  | nil => intro b v h; exact h
  | cons w ws ih =>
    intro b v h
    exact ih (bloomAdd H b w) v (bloomHas_bloomAdd_mono H b v w h)

/-- After bulk insertion every inserted value tests positive. -/
theorem bloomHas_addAll (H : List Nat → Nat → Nat) (vs : List Str) :
    ∀ (b : BloomState), 0 < b.m → b.filter.length = (b.m + 7) / 8 →
      ∀ v ∈ vs, bloomHas H (bloomAddAll H b vs) v = true := by
  induction vs with
  | nil => intro b _ _ v hv; exact absurd hv (List.not_mem_nil v)
  | cons w ws ih =>
    intro b hm hlen v hv
    rcases List.mem_cons.mp hv with rfl | hv₂
    · exact bloomHas_addAll_mono H ws (bloomAdd H b v) v
        (bloomHas_bloomAdd_self H b v hm hlen)
    · exact ih (bloomAdd H b w)
        ((bloomAdd_shape H b w).1 ▸ hm)
        (by rw [(bloomAdd_shape H b w).2.2.2, (bloomAdd_shape H b w).1]; exact hlen)
        v hv₂

/-- A successful construction validated `m`: a positive integer rational. -/
theorem bloomCtor_ok_m {defM : ℚ → ℚ → ℚ} {defK : ℚ → ℚ} {cfg : BloomCfg}
    {ps : BloomParams} (h : bloomCtor defM defK cfg = Except.ok ps) :
    ps.m.den = 1 ∧ 0 < ps.m := by
  rcases hcn : cfg.n with _ | n <;> simp only [bloomCtor, hcn] at h
  · exact absurd h (by simp)
  · split_ifs at h with h1 h2 h3 h4 h5 <;>
      first
      | exact Except.noConfusion h
      | (obtain rfl := Except.ok.inj h
         exact h3)

/-- C9: for every hash function, every configuration the constructor accepts
(in particular `{n, p, s}` with defaulted `m` and `k`), and every finite list
of values added to the fresh filter, `has` answers `true` for each added
value — the Bloom filter has no false negatives. -/
theorem bloom_no_false_negatives
    (H : List Nat → Nat → Nat) (defM : ℚ → ℚ → ℚ) (defK : ℚ → ℚ)
    (cfg : BloomCfg) (ps : BloomParams)
    (hok : bloomCtor defM defK cfg = Except.ok ps)
    (vs : List Str) (v : Str) (hv : v ∈ vs) :
    bloomHas H
      (bloomAddAll H (mkBloomState ps.m.num.toNat ps.k.num.toNat ps.s.num.toNat) vs)
      v = true := by
  obtain ⟨hden, hpos⟩ := bloomCtor_ok_m hok
  have hm : 0 < ps.m.num.toNat := by
    have : 0 < ps.m.num := Rat.num_pos.mpr hpos
    omega
  exact bloomHas_addAll H vs _ hm (by simp [mkBloomState]) v hv

/-- Instantiation of `bloom_no_false_negatives`: a concrete hash, the
configuration `{n := 1, p := 1/2}` (so `m`, `k` are the defaults `24` and
`2`), and the one-element value set `["a"]`. -/
theorem bloom_no_false_negatives_witness :
    bloomHas (fun bs s => bs.sum + s)
      (bloomAddAll (fun bs s => bs.sum + s)
        (mkBloomState (24 : ℚ).num.toNat (2 : ℚ).num.toNat (0 : ℚ).num.toNat)
        [['a']])
      ['a'] = true :=
  bloom_no_false_negatives (fun bs s => bs.sum + s) (fun _ _ => 24) (fun _ => 2)
    ⟨some 1, some (1 / 2), none, none, none⟩ ⟨1, 1 / 2, 24, 2, 0⟩
    (by norm_num [bloomCtor, falsyOr]) [['a']] ['a'] (by decide)

/-- C10 (amended): the constructor succeeds exactly on the effective
parameters — `n` present and, after `||`-substituting defaults for omitted
*or falsy (zero)* supplied values, every effective value inside its domain —
and then carries those effective values, not necessarily the supplied ones. -/
theorem bloom_ctor_effective_params (defM : ℚ → ℚ → ℚ) (defK : ℚ → ℚ)
    (cfg : BloomCfg) :
    (bloomCtor defM defK cfg).toOption = effectiveBloomParams defM defK cfg := by
  unfold bloomCtor effectiveBloomParams
  rcases cfg.n with _ | n
  · rfl
  · dsimp only
    split_ifs <;> first | rfl | tauto

/-- A configuration supplying `p = 0` — outside the domain `0 < p < 1` — is
accepted: `0` is falsy, so the constructor silently replaces it with the
default `10⁻⁷` instead of failing, contradicting claim C10 as stated. -/
theorem bloom_ctor_zero_p_accepted :
    bloomCtor (fun _ _ => 24) (fun _ => 1)
        ⟨some 1, some 0, some 24, some 1, some 0⟩
      = Except.ok ⟨1, 1 / 10000000, 24, 1, 0⟩ := by
  norm_num [bloomCtor, falsyOr]

/-! ## Sizes, permutations and association lists (freshness toolkit) -/

/-- `sizeOf` of a list is invariant under permutation. -/
theorem sizeOf_eq_of_perm {α : Type} [SizeOf α] {l₁ l₂ : List α}
    (h : l₁.Perm l₂) : sizeOf l₁ = sizeOf l₂ := by
  induction h with
  | nil => rfl
  | cons x _ ih => simp only [List.cons.sizeOf_spec]; omega
  | swap x y l => simp only [List.cons.sizeOf_spec]; omega
  | trans _ _ ih₁ ih₂ => omega

/-- A map with no entries under any key is empty. -/
theorem eq_nil_of_alookup_none {α : Type} {l : List (Str × α)}
    (h : ∀ k, alookup l k = none) : l = [] := by
  cases l with
  | nil => rfl
  | cons e es =>
    have := h e.1
    simp [alookup] at this

/-- Locating the entry a successful lookup found. -/
theorem alookup_split {α : Type} :
    ∀ {l : List (Str × α)} {k : Str} {v : α}, alookup l k = some v →
      ∃ l₁ l₂, l = l₁ ++ (k, v) :: l₂ ∧ alookup l₁ k = none := by
  intro l
  induction l with
  | nil => intro k v h; exact absurd h (by simp [alookup])
  | cons e es ih =>
    intro k v h
    obtain ⟨k₁, v₁⟩ := e
    by_cases hk : k₁ = k
    · subst hk
      rw [alookup, if_pos rfl] at h
      obtain rfl := Option.some.inj h
      exact ⟨[], es, rfl, rfl⟩
    · rw [alookup, if_neg hk] at h
      obtain ⟨l₁, l₂, rfl, hl₁⟩ := ih h
      refine ⟨(k₁, v₁) :: l₁, l₂, rfl, ?_⟩
      rw [alookup, if_neg hk]
      exact hl₁

/-- Removing the found entry: the remainder loses key `k` and keeps every
other key's binding. -/
theorem alookup_remove {α : Type} {l₁ l₂ : List (Str × α)} {k : Str} {v : α}
    (hnd : (((l₁ ++ (k, v) :: l₂).map Prod.fst)).Nodup)
    (hl₁ : alookup l₁ k = none) :
    alookup (l₁ ++ l₂) k = none ∧
      ∀ k₂, k₂ ≠ k → alookup (l₁ ++ l₂) k₂ = alookup (l₁ ++ (k, v) :: l₂) k₂ := by
  have hk₂ : alookup l₂ k = none := by
    rw [alookup_none_iff]
    simp only [List.map_append, List.map_cons, List.nodup_append,
      List.nodup_cons] at hnd
    exact hnd.2.1.1
  constructor
  · rw [alookup_append_none hl₁]
    exact hk₂
  · intro k₂ hne
    cases hq : alookup l₁ k₂ with
    | some w => rw [alookup_append_left hq, alookup_append_left hq]
    | none =>
      rw [alookup_append_none hq, alookup_append_none hq, alookup, if_neg ?_]
      exact fun he => hne he.symm

/-- Two maps with the same keys and pointwise related values: the second is a
permutation of a list pointwise related to the first. -/
theorem assoc_perm_pointwise {α : Type} (R : α → α → Prop) :
    ∀ (cs cs' : List (Str × α)),
      ((cs.map Prod.fst)).Nodup → ((cs'.map Prod.fst)).Nodup →
      (∀ k, (alookup cs k = none ∧ alookup cs' k = none) ∨
            (∃ c c', alookup cs k = some c ∧ alookup cs' k = some c' ∧ R c c')) →
      ∃ cs₂, cs'.Perm cs₂ ∧ List.Forall₂ (fun a b => a.1 = b.1 ∧ R a.2 b.2) cs cs₂ := by
  intro cs
  induction cs with
  | nil =>
    intro cs' _ _ hrel
    have : cs' = [] := by
      apply eq_nil_of_alookup_none
      intro k
      rcases hrel k with ⟨_, h⟩ | ⟨c, c', hc, _, _⟩
      · exact h
      · exact absurd hc (by simp [alookup])
    exact ⟨[], this ▸ List.Perm.refl _, List.Forall₂.nil⟩
  | cons e es ih =>
    intro cs' hnd hnd' hrel
    obtain ⟨k, c⟩ := e
    have hkes : alookup ((k, c) :: es) k = some c := by rw [alookup, if_pos rfl]
    have hc' : ∃ c', alookup cs' k = some c' ∧ R c c' := by
      rcases hrel k with ⟨h₁, _⟩ | ⟨d, c', hd, hc', hR⟩
      · exact absurd hkes (h₁ ▸ by simp)
      · obtain rfl := Option.some.inj (hkes ▸ hd)
        exact ⟨c', hc', hR⟩
    obtain ⟨c', hc', hR⟩ := hc'
    obtain ⟨l₁, l₂, rfl, hl₁⟩ := alookup_split hc'
    obtain ⟨hres, hkeep⟩ := alookup_remove hnd' hl₁
    have hndes : (es.map Prod.fst).Nodup := by
      rw [List.map_cons, List.nodup_cons] at hnd
      exact hnd.2
    have hkes2 : k ∉ es.map Prod.fst := by
      rw [List.map_cons, List.nodup_cons] at hnd
      exact hnd.1
    have hnd₂ : (((l₁ ++ l₂).map Prod.fst)).Nodup := by
      simp only [List.map_append, List.map_cons, List.nodup_append] at hnd' ⊢
      obtain ⟨ha, hb, hab⟩ := hnd'
      rw [List.nodup_cons] at hb
      exact ⟨ha, hb.2, fun _ hbb hcc => hab hbb (List.mem_cons_of_mem _ hcc)⟩
    have hrel₂ : ∀ k₂, (alookup es k₂ = none ∧ alookup (l₁ ++ l₂) k₂ = none) ∨
        (∃ d d', alookup es k₂ = some d ∧ alookup (l₁ ++ l₂) k₂ = some d' ∧ R d d') := by
      intro k₂
      by_cases hk₂ : k₂ = k
      · subst hk₂
        exact Or.inl ⟨(alookup_none_iff es _).mpr hkes2, hres⟩
      · rw [show alookup es k₂ = alookup ((k, c) :: es) k₂ from
            (by rw [alookup, if_neg (fun he => hk₂ he.symm)]),
          hkeep k₂ hk₂]
        exact hrel k₂
    obtain ⟨cs₂, hperm, hf⟩ := ih (l₁ ++ l₂) hndes hnd₂ hrel₂
    refine ⟨(k, c') :: cs₂, ?_, List.Forall₂.cons ⟨rfl, hR⟩ hf⟩
    exact List.perm_middle.trans (hperm.cons _)

/-- Pointwise equal keys and sizes give equal list sizes. -/
theorem forall₂_sizeOf {cs cs₂ : List (Str × Trie)}
    (h : List.Forall₂ (fun a b => a.1 = b.1 ∧ sizeOf a.2 = sizeOf b.2) cs cs₂) :
    sizeOf cs = sizeOf cs₂ := by
  induction h with
  | nil => rfl
  | cons hab _ ih =>
    simp only [List.cons.sizeOf_spec, Prod.mk.sizeOf_spec]
    obtain ⟨a, b⟩ := hab
    rename_i x y l₁ l₂ _
    have hx : sizeOf x = 1 + sizeOf x.1 + sizeOf x.2 := by
      obtain ⟨x₁, x₂⟩ := x; rfl
    have hy : sizeOf y = 1 + sizeOf y.1 + sizeOf y.2 := by
      obtain ⟨y₁, y₂⟩ := y; rfl
    rw [hx, hy, a]
    omega

/-! ## Shape of encoded node lines -/

/-- Characters of an escaped segment: the inserted backslashes and the
original characters. -/
theorem escapeSegment_mem {c : Char} {k : Str} (h : c ∈ escapeSegment k) :
    c = '\\' ∨ c ∈ k := by
  unfold escapeSegment at h
  simp only [List.mem_flatten, List.mem_map] at h
  obtain ⟨l, ⟨d, hd, rfl⟩, hc⟩ := h
  by_cases hs : isSegSpecial d = true
  · rw [if_pos hs] at hc
    simp only [List.mem_cons, List.mem_singleton, List.not_mem_nil, or_false] at hc
    rcases hc with rfl | rfl
    · exact Or.inl rfl
    · exact Or.inr hd
  · rw [if_neg hs] at hc
    simp only [List.mem_singleton] at hc
    subst hc
    exact Or.inr hd

/-- An encoded node line starts with a delimiter byte when non-empty. -/
theorem encode_head {pml : PMLine} :
    ∀ c, (encodePathMapNode pml).head? = some c → isPmapDelimiter c = true := by
  intro c h
  unfold encodePathMapNode at h
  cases hs : pml.self with
  | some r =>
    rw [hs] at h
    cases r with
    | inline =>
      simp only [encodeRef, List.cons_append, List.head?_cons,
        Option.some.injEq] at h
      subst h
      rfl
    | off n =>
      simp only [encodeRef, List.cons_append, List.head?_cons,
        Option.some.injEq] at h
      subst h
      rfl
  | none =>
    rw [hs] at h
    simp only [List.nil_append] at h
    cases he : jsOrderEntries pml.entries with
    | nil => rw [he] at h; simp at h
    | cons e es =>
      rw [he] at h
      simp only [List.map_cons, List.flatten_cons, List.cons_append,
        List.head?_cons, Option.some.injEq] at h
      subst h
      rfl

/-- Encoded node lines contain no newline when every key is scanner-safe. -/
theorem encode_no_newline {pml : PMLine}
    (hseg : ∀ e ∈ pml.entries, SegOk e.1 = true) :
    ∀ c ∈ encodePathMapNode pml, c ≠ '\n' := by
  intro c hc
  have href : ∀ (r : Ref), c ∈ encodeRef r → c ≠ '\n' := by
    intro r hr
    cases r with
    | inline =>
      simp only [encodeRef, List.mem_singleton] at hr
      subst hr; decide
    | off n =>
      simp only [encodeRef, List.mem_cons] at hr
      rcases hr with rfl | hr
      · decide
      · intro he
        subst he
        obtain ⟨hdel, -⟩ := hexStr_plain n '\n' hr
        exact absurd hdel (by decide)
  unfold encodePathMapNode at hc
  rw [List.mem_append] at hc
  rcases hc with hc | hc
  · cases hs : pml.self with
    | some r => rw [hs] at hc; exact href r hc
    | none => rw [hs] at hc; simp at hc
  · simp only [List.mem_flatten, List.mem_map] at hc
    obtain ⟨l, ⟨e, he, rfl⟩, hc⟩ := hc
    have heseg : SegOk e.1 = true :=
      hseg e ((jsOrderEntries_perm pml.entries).mem_iff.mp he)
    rcases List.mem_cons.mp hc with rfl | hc
    · decide
    · rw [List.mem_append] at hc
      rcases hc with hc | hc
      · rcases escapeSegment_mem hc with rfl | hc
        · decide
        · intro he'
          subst he'
          rw [SegOk, Bool.and_eq_true, List.all_eq_true] at heseg
          exact absurd (heseg.1 '\n' hc) (by decide)
      · exact href e.2 hc

/-- A line passing `leafTextOk` is never an encoded node line. -/
theorem encode_ne_leafText {pml : PMLine} {L : Str} (hL : leafTextOk L = true) :
    encodePathMapNode pml ≠ L := by
  intro he
  unfold leafTextOk at hL
  cases hh : L.head? with
  | none => rw [hh] at hL; exact absurd hL (by simp)
  | some c =>
    rw [hh] at hL
    simp only [Bool.and_eq_true, Bool.not_eq_true'] at hL
    exact absurd (encode_head c (he ▸ hh)) (by simp [hL.1.1])

/-! ## Monotonicity of the representation predicates under appended lines -/

theorem refOk_mono {ls : List Str} {r : Ref} (ext : List Str) (h : RefOk ls r) :
    RefOk (ls ++ ext) r := by
  cases r with
  | inline => trivial
  | off n =>
    obtain ⟨txt, hla⟩ := h
    exact ⟨txt, lineAt_mono ext hla⟩

theorem selfRep_mono {J : JsonCodec} {ls : List Str} {v : Option JsonValue}
    {r : Option Ref} (ext : List Str) (h : SelfRep J ls v r) :
    SelfRep J (ls ++ ext) v r := by
  cases h with
  | none => exact SelfRep.none
  | inline => exact SelfRep.inline
  | leaf v n hne hg hla => exact SelfRep.leaf v n hne hg (lineAt_mono ext hla)

theorem sizeOf_child_lt {t : Trie} {k : Str} {c : Trie}
    (h : alookup t.children k = some c) : sizeOf c < sizeOf t := by
  obtain ⟨v, cs⟩ := t
  have hm : (k, c) ∈ cs := alookup_mem h
  have h1 : sizeOf (k, c) < sizeOf cs := List.sizeOf_lt_of_mem hm
  have h2 : sizeOf (k, c) = 1 + sizeOf k + sizeOf c := rfl
  have h3 : sizeOf (Trie.mk v cs) = 1 + sizeOf v + sizeOf cs := by
    simp [Trie.mk.sizeOf_spec]
  omega

theorem nodeRep_mono_aux : ∀ (B : Nat) (J : JsonCodec) (ls ext : List Str)
    (o : Nat) (t : Trie), sizeOf t < B → NodeRep J ls o t →
    NodeRep J (ls ++ ext) o t := by
  intro B
  induction B with
  | zero => intro J ls ext o t h _; omega
  | succ B ih =>
    intro J ls ext o t hB h
    cases h with
    | intro _ _ pml hla hwf hself hch =>
      refine NodeRep.intro _ _ _ pml (lineAt_mono ext hla) hwf
        (selfRep_mono ext hself) ?_
      intro k
      have hc := hch k
      cases halk : alookup t.children k with
      | none =>
        cases hlk : lookupEntry pml.entries k with
        | none => exact ChildRel.none _
        | some r => rw [halk, hlk] at hc; cases hc
      | some c =>
        cases hlk : lookupEntry pml.entries k with
        | none => rw [halk, hlk] at hc; cases hc
        | some r =>
          rw [halk, hlk] at hc
          have hlt : sizeOf c < sizeOf t := sizeOf_child_lt halk
          cases hc with
          | inline c hleaf => exact ChildRel.inline _ _ hleaf
          | leaf c v n hleaf hne hg hla₂ =>
            exact ChildRel.leaf _ _ v n hleaf hne hg (lineAt_mono ext hla₂)
          | node c n hleaf hnr =>
            exact ChildRel.node _ _ n hleaf (ih J ls ext n c (by omega) hnr)

theorem nodeRep_mono {J : JsonCodec} {ls : List Str} {o : Nat} {t : Trie}
    (ext : List Str) (h : NodeRep J ls o t) : NodeRep J (ls ++ ext) o t :=
  nodeRep_mono_aux (sizeOf t + 1) J ls ext o t (by omega) h

theorem childRel_mono {J : JsonCodec} {ls : List Str} {oc : Option Trie}
    {oref : Option Ref} (ext : List Str) (h : ChildRel J ls oc oref) :
    ChildRel J (ls ++ ext) oc oref := by
  cases h with
  | none => exact ChildRel.none _
  | inline c hleaf => exact ChildRel.inline _ c hleaf
  | leaf c v n hleaf hne hg hla =>
    exact ChildRel.leaf _ c v n hleaf hne hg (lineAt_mono ext hla)
  | node c n hleaf hnr => exact ChildRel.node _ c n hleaf (nodeRep_mono ext hnr)

theorem matchesPml_mono {J : JsonCodec} {ls : List Str} {pml : PMLine} {t : Trie}
    (ext : List Str) (h : MatchesPml J ls pml t) : MatchesPml J (ls ++ ext) pml t :=
  ⟨selfRep_mono ext h.1, fun k => childRel_mono ext (h.2 k)⟩

/-! ## Equal node lines represent equal-sized tries (root-push freshness) -/

theorem leafOnly_some {c : Trie} {v : JsonValue} (h : leafOnly c = some v) :
    c = Trie.mk (some v) [] := by
  obtain ⟨val, cs⟩ := c
  cases val with
  | none => cases cs <;> simp [leafOnly] at h
  | some w =>
    cases cs with
    | nil =>
      simp only [leafOnly, Option.some.injEq] at h
      rw [h]
    | cons e es => simp [leafOnly] at h

theorem enc_inj_at {J : JsonCodec} {w w' : JsonValue} (hg : GoodCodecAt J w)
    (hg' : GoodCodecAt J w') (he : J.enc w = J.enc w') : w = w' := by
  have h1 := hg.2
  have h2 := hg'.2
  rw [he] at h1
  rw [h1] at h2
  exact Option.some.inj h2

/-- Equal encoded texts give equal self slots and equal lookups. -/
theorem encode_eq_lookup_eq {pml pml' : PMLine}
    (hwf : entriesWF pml.entries) (hwf' : entriesWF pml'.entries)
    (he : encodePathMapNode pml = encodePathMapNode pml') :
    pml.self = pml'.self ∧
      ∀ k, lookupEntry pml.entries k = lookupEntry pml'.entries k := by
  have hd := decode_encode pml hwf.2 hwf.1
  have hd' := decode_encode pml' hwf'.2 hwf'.1
  rw [he, hd'] at hd
  obtain ⟨hself, hents⟩ : pml'.self = pml.self ∧
      jsOrderEntries pml'.entries = jsOrderEntries pml.entries :=
    PMLine.mk.inj (Except.ok.inj hd)
  refine ⟨hself.symm, fun k => ?_⟩
  rw [lookupEntry_eq_alookup, lookupEntry_eq_alookup,
    alookup_eq_of_perm (jsOrderEntries_perm pml.entries).symm hwf.1 k,
    alookup_eq_of_perm (jsOrderEntries_perm pml'.entries).symm hwf'.1 k,
    hents]

/-- Two well-formed tries matching node lines with the same self slot and the
same lookups (for the same emitted lines) have the same size. -/
theorem matches_size_eq : ∀ (B : Nat) (J : JsonCodec) (ls : List Str),
    linesShaped ls →
    ∀ (t t' : Trie) (pml pml' : PMLine), sizeOf t < B →
      TrieWF J t → TrieWF J t' →
      MatchesPml J ls pml t → MatchesPml J ls pml' t' →
      pml.self = pml'.self →
      (∀ k, lookupEntry pml.entries k = lookupEntry pml'.entries k) →
      sizeOf t = sizeOf t' := by
  intro B
  induction B with
  | zero => intro J ls _ t t' pml pml' h; omega
  | succ B ih =>
    intro J ls hsh t t' pml pml' hB hwf hwf' hm hm' hself hlk
    obtain ⟨v, cs⟩ := t
    obtain ⟨v', cs'⟩ := t'
    have hndcs : (cs.map Prod.fst).Nodup := by
      cases hwf with | intro _ _ _ h _ _ => exact h
    have hndcs' : (cs'.map Prod.fst).Nodup := by
      cases hwf' with | intro _ _ _ h _ _ => exact h
    have hwfc : ∀ kc ∈ cs, TrieWF J kc.2 := by
      cases hwf with | intro _ _ _ _ _ h => exact h
    have hwfc' : ∀ kc ∈ cs', TrieWF J kc.2 := by
      cases hwf' with | intro _ _ _ _ _ h => exact h
    have hveq : v = v' := by
      have h1 := hm.1
      have h2 := hm'.1
      rw [hself] at h1
      simp only [Trie.val] at h1 h2
      cases hps : pml'.self with
      | none =>
        rw [hps] at h1 h2
        cases h1
        cases h2
        rfl
      | some r =>
        rw [hps] at h1 h2
        cases r with
        | inline =>
          cases h1
          cases h2
          rfl
        | off n =>
          cases h1 with
          | leaf w _ hne hg hla =>
            cases h2 with
            | leaf w' _ hne' hg' hla' =>
              have := lineAt_unique hsh hla hla'
              rw [enc_inj_at hg hg' this]
    have hrel : ∀ k, (alookup cs k = none ∧ alookup cs' k = none) ∨
        (∃ c c', alookup cs k = some c ∧ alookup cs' k = some c' ∧
          sizeOf c = sizeOf c') := by
      intro k
      have hc := hm.2 k
      have hc' := hm'.2 k
      rw [hlk k] at hc
      simp only [Trie.children] at hc hc'
      cases hlke : lookupEntry pml'.entries k with
      | none =>
        rw [hlke] at hc hc'
        cases halk : alookup cs k with
        | some c => rw [halk] at hc; cases hc
        | none =>
          cases halk' : alookup cs' k with
          | some c => rw [halk'] at hc'; cases hc'
          | none => exact Or.inl ⟨rfl, rfl⟩
      | some r =>
        rw [hlke] at hc hc'
        cases halk : alookup cs k with
        | none => rw [halk] at hc; cases hc
        | some c =>
          cases halk' : alookup cs' k with
          | none => rw [halk'] at hc'; cases hc'
          | some c' =>
            rw [halk] at hc
            rw [halk'] at hc'
            refine Or.inr ⟨c, c', rfl, rfl, ?_⟩
            have hclt : sizeOf c < sizeOf (Trie.mk v cs) := sizeOf_child_lt halk
            have hcwf : TrieWF J c := hwfc _ (alookup_mem halk)
            have hcwf' : TrieWF J c' := hwfc' _ (alookup_mem halk')
            cases hc with
            | inline c hleaf =>
              cases hc' with
              | inline c' hleaf' =>
                rw [leafOnly_some hleaf, leafOnly_some hleaf']
            | leaf c w n hleaf hne hg hla =>
              cases hc' with
              | leaf c' w' n hleaf' hne' hg' hla' =>
                have := lineAt_unique hsh hla hla'
                rw [leafOnly_some hleaf, leafOnly_some hleaf',
                  enc_inj_at hg hg' this]
              | node c' n hleaf' hnr' =>
                cases hnr' with
                | intro _ _ pml₂ hla' hwf₂ _ _ =>
                  exact absurd (lineAt_unique hsh hla' hla)
                    (encode_ne_leafText hg.1)
            | node c n hleaf hnr =>
              cases hc' with
              | leaf c' w' n hleaf' hne' hg' hla' =>
                cases hnr with
                | intro _ _ pml₂ hla₂ hwf₂ _ _ =>
                  exact absurd (lineAt_unique hsh hla₂ hla')
                    (encode_ne_leafText hg'.1)
              | node c' n hleaf' hnr' =>
                cases hnr with
                | intro _ _ pml₂ hla₂ hwf₂ hself₂ hch₂ =>
                  cases hnr' with
                  | intro _ _ pml₃ hla₃ hwf₃ hself₃ hch₃ =>
                    have htxt := lineAt_unique hsh hla₂ hla₃
                    obtain ⟨hs₂, hl₂⟩ := encode_eq_lookup_eq hwf₂ hwf₃ htxt
                    exact ih J ls hsh c c' pml₂ pml₃ (by omega) hcwf hcwf'
                      ⟨hself₂, hch₂⟩ ⟨hself₃, hch₃⟩ hs₂ hl₂
    obtain ⟨cs₂, hperm, hf⟩ :=
      assoc_perm_pointwise (fun c c' => sizeOf c = sizeOf c') cs cs' hndcs hndcs' hrel
    have h1 : sizeOf cs = sizeOf cs₂ := forall₂_sizeOf hf
    have h2 : sizeOf cs' = sizeOf cs₂ := sizeOf_eq_of_perm hperm
    have h3 : sizeOf (Trie.mk v cs) = 1 + sizeOf v + sizeOf cs := by
      simp [Trie.mk.sizeOf_spec]
    have h4 : sizeOf (Trie.mk v' cs') = 1 + sizeOf v' + sizeOf cs' := by
      simp [Trie.mk.sizeOf_spec]
    rw [h3, h4, hveq, h1, h2]

/-! ## The writer's `push` -/

theorem leafTextOk_parts {s : Str} (h : leafTextOk s = true) :
    (∀ c, s.head? = some c → isPmapDelimiter c = false ∧ c ≠ '\x1b') ∧
      (∀ c ∈ s, c ≠ '\n') ∧ s ≠ [] := by
  unfold leafTextOk at h
  cases hh : s.head? with
  | none => rw [hh] at h; exact absurd h (by simp)
  | some c =>
    rw [hh] at h
    simp only [Bool.and_eq_true, Bool.not_eq_true', bne_iff_ne, ne_eq,
      List.all_eq_true] at h
    refine ⟨?_, ?_, ?_⟩
    · intro d hd
      obtain rfl := Option.some.inj hd
      exact ⟨h.1.1, h.1.2⟩
    · intro d hd he
      subst he
      have := h.2 '\n' hd
      simp at this
    · intro he
      rw [he] at hh
      exact absurd hh (by simp)

theorem encode_head_ne_esc (pml : PMLine) :
    (encodePathMapNode pml).head? ≠ some '\x1b' := by
  intro h
  have := encode_head _ h
  exact absurd this (by decide)

theorem seenEntryOk_mono {J : JsonCodec} {ls : List Str} {B : Nat}
    {p : Str × Nat} (ext : List Str) (h : SeenEntryOk J ls B p) :
    SeenEntryOk J (ls ++ ext) B p := by
  rcases h with h | ⟨t, pml, h1, h2, h3, h4, h5, h6, h7, h8⟩
  · exact Or.inl h
  · exact Or.inr ⟨t, pml, h1, h2, h3,
      fun e he => refOk_mono ext (h4 e he),
      fun r hr => refOk_mono ext (h5 r hr),
      nodeRep_mono ext h6, h7, h8⟩

theorem push_spec {s : WState} {str : Str} {o : Nat} {s' : WState}
    (hp : push s str = (o, s')) (hW : WFS s)
    (hesc : str.head? ≠ some '\x1b') (hnn : ∀ c ∈ str, c ≠ '\n') :
    WFS s' ∧ Extends s s' ∧ LineAt s'.lines o str ∧
      (s'.seen = s.seen ∨ s'.seen = s.seen ++ [(str, o)]) := by
  unfold push at hp
  cases halk : alookup s.seen str with
  | some o₀ =>
    rw [halk] at hp
    obtain ⟨rfl, rfl⟩ := Prod.mk.inj hp.symm
    exact ⟨hW, ⟨[], by simp⟩, hW.seenSound (str, _) (alookup_mem halk),
      Or.inl rfl⟩
  | none =>
    rw [halk] at hp
    rw [if_neg (by exact hesc)] at hp
    obtain ⟨rfl, rfl⟩ := Prod.mk.inj hp
    have hle : utf8Len (str ++ ['\n']) = utf8Len str + 1 := by
      rw [utf8Len_append]; rfl
    refine ⟨?_, ⟨[str ++ ['\n']], rfl⟩, ?_, Or.inr rfl⟩
    · refine ⟨?_, ?_, ?_, ?_⟩
      · show s.offset + (utf8Len str + 1) = linesLen (s.lines ++ [str ++ ['\n']])
        rw [linesLen_append, hW.offEq]
        simp [linesLen, hle]
      · intro l hl
        rw [List.mem_append] at hl
        rcases hl with hl | hl
        · exact hW.shaped l hl
        · rw [List.mem_singleton] at hl
          exact ⟨str, hl, hnn⟩
      · intro p hp₂
        rw [List.mem_append] at hp₂
        rcases hp₂ with hp₂ | hp₂
        · exact lineAt_mono _ (hW.seenSound p hp₂)
        · rw [List.mem_singleton] at hp₂
          subst hp₂
          rw [hW.offEq]
          exact lineAt_fresh s.lines str
      · intro l hl
        rw [List.mem_append] at hl
        rcases hl with hl | hl
        · obtain ⟨txt, o₂, hm, he⟩ := hW.linesSeen l hl
          exact ⟨txt, o₂, List.mem_append_left _ hm, he⟩
        · rw [List.mem_singleton] at hl
          exact ⟨str, s.offset, List.mem_append_right _ (by simp), hl⟩
    · rw [hW.offEq]
      exact lineAt_fresh s.lines str

theorem seenBelow_push {J : JsonCodec} {s s' : WState} {B : Nat} {str : Str}
    {o : Nat} (hp : push s str = (o, s')) (hsb : SeenBelow J s B)
    (hnew : SeenEntryOk J s'.lines B (str, o)) : SeenBelow J s' B := by
  unfold push at hp
  cases halk : alookup s.seen str with
  | some o₀ =>
    rw [halk] at hp
    obtain ⟨rfl, rfl⟩ := Prod.mk.inj hp
    exact hsb
  | none =>
    rw [halk] at hp
    obtain ⟨rfl, rfl⟩ := Prod.mk.inj hp.symm
    intro p hp₂
    rcases List.mem_append.mp hp₂ with hp₃ | hp₃
    · exact seenEntryOk_mono [str ++ ['\n']] (hsb p hp₃)
    · rw [List.mem_singleton] at hp₃
      subst hp₃
      exact hnew

theorem pushLeaf_spec {J : JsonCodec} {s : WState} {v : JsonValue} {r : Ref}
    {s' : WState} {B : Nat} (hp : pushLeaf J s v = (r, s'))
    (hW : WFS s) (hsb : SeenBelow J s B) (hg : GoodCodecAt J v) :
    WFS s' ∧ Extends s s' ∧ SeenBelow J s' B ∧
      SelfRep J s'.lines (some v) (some r) := by
  by_cases hv : v = JsonValue.bool true
  · subst hv
    unfold pushLeaf at hp
    obtain ⟨rfl, rfl⟩ := Prod.mk.inj hp
    exact ⟨hW, ⟨[], by simp⟩, hsb, SelfRep.inline⟩
  · have hparts := leafTextOk_parts hg.1
    have hesc : (J.enc v).head? ≠ some '\x1b' := by
      intro hh
      exact absurd (hparts.1 _ hh).2 (by simp)
    have hp₂ : ∃ n, push s (J.enc v) = (n, s') ∧ r = Ref.off n := by
      cases v with
      | bool b =>
        cases b with
        | true => exact absurd rfl hv
        | false =>
          obtain ⟨rfl, rfl⟩ := Prod.mk.inj hp.symm
          exact ⟨_, rfl, rfl⟩
      | null =>
        obtain ⟨rfl, rfl⟩ := Prod.mk.inj hp.symm
        exact ⟨_, rfl, rfl⟩
      | str a =>
        obtain ⟨rfl, rfl⟩ := Prod.mk.inj hp.symm
        exact ⟨_, rfl, rfl⟩
      | num a =>
        obtain ⟨rfl, rfl⟩ := Prod.mk.inj hp.symm
        exact ⟨_, rfl, rfl⟩
      | arr a =>
        obtain ⟨rfl, rfl⟩ := Prod.mk.inj hp.symm
        exact ⟨_, rfl, rfl⟩
      | obj a =>
        obtain ⟨rfl, rfl⟩ := Prod.mk.inj hp.symm
        exact ⟨_, rfl, rfl⟩
    obtain ⟨n, hpush, rfl⟩ := hp₂
    obtain ⟨hW', hext, hla, -⟩ := push_spec hpush hW hesc hparts.2.1
    refine ⟨hW', hext, ?_, SelfRep.leaf v n hv hg hla⟩
    exact seenBelow_push hpush hsb (Or.inl ⟨v, rfl, hg, hv⟩)

/-! ## `Object.keys(...).sort()` -/

theorem natListLt_asymm : ∀ {a b : List Nat}, natListLt a b = true →
    natListLt b a = false := by
  intro a
  induction a with
  | nil =>
    intro b h
    cases b with
    | nil => exact absurd h (by simp [natListLt])
    | cons x xs => rfl
  | cons x xs ih =>
    intro b h
    cases b with
    | nil => exact absurd h (by simp [natListLt])
    | cons y ys =>
      simp only [natListLt] at h ⊢
      by_cases hxy : x < y
      · rw [if_neg (by omega), if_pos (by omega)]
      · rw [if_neg hxy] at h
        by_cases hyx : y < x
        · rw [if_pos hyx] at h
          exact absurd h (by simp)
        · rw [if_neg hyx, if_neg hxy]
          rw [if_neg hyx] at h
          exact ih h

theorem natListLt_neg_trans : ∀ {a b c : List Nat}, natListLt b a = false →
    natListLt c b = false → natListLt c a = false := by
  intro a
  induction a with
  | nil => intro b c _ _; cases c <;> rfl
  | cons x xs ih =>
    intro b c h1 h2
    cases b with
    | nil => exact absurd h1 (by simp [natListLt])
    | cons y ys =>
      cases c with
      | nil => exact absurd h2 (by simp [natListLt])
      | cons z zs =>
        simp only [natListLt] at h1 h2 ⊢
        have hyx : ¬ y < x := by
          intro hlt
          rw [if_pos hlt] at h1
          exact absurd h1 (by simp)
        have hzy : ¬ z < y := by
          intro hlt
          rw [if_pos hlt] at h2
          exact absurd h2 (by simp)
        rw [if_neg hyx] at h1
        rw [if_neg hzy] at h2
        rw [if_neg (by omega : ¬ z < x)]
        by_cases hxz : x < z
        · rw [if_pos hxz]
        · rw [if_neg hxz]
          have hxy : ¬ x < y := by omega
          have hyz : ¬ y < z := by omega
          rw [if_neg hxy] at h1
          rw [if_neg hyz] at h2
          exact ih h1 h2

theorem u16Le_trans {a b c : Str} (h1 : u16Le a b = true) (h2 : u16Le b c = true) :
    u16Le a c = true := by
  unfold u16Le at h1 h2 ⊢
  rw [Bool.not_eq_true'] at h1 h2 ⊢
  exact natListLt_neg_trans h1 h2

theorem u16Le_total (s t : Str) : u16Le s t = true ∨ u16Le t s = true := by
  unfold u16Le
  cases h : natListLt (u16Key t) (u16Key s) with
  | false => exact Or.inl rfl
  | true => exact Or.inr (by rw [natListLt_asymm h]; rfl)

theorem insChild_perm (x : Str × Trie) :
    ∀ l : List (Str × Trie), (insChild x l).Perm (x :: l) := by
  intro l
  induction l with
  | nil => exact List.Perm.refl _
  | cons y ys ih =>
    unfold insChild
    split
    · exact List.Perm.refl _
    · exact (ih.cons y).trans (List.Perm.swap x y ys)

theorem sortChildren_perm : ∀ l : List (Str × Trie), (sortChildren l).Perm l := by
  intro l
  induction l with
  | nil => exact List.Perm.refl _
  | cons x xs ih => exact (insChild_perm x (sortChildren xs)).trans (ih.cons x)

theorem insChild_mem_keyLe {x : Str × Trie} :
    ∀ {l : List (Str × Trie)} {y : Str × Trie}, y ∈ insChild x l →
      y = x ∨ y ∈ l := by
  intro l
  induction l with
  | nil =>
    intro y hy
    simp only [insChild, List.mem_singleton] at hy
    exact Or.inl hy
  | cons z zs ih =>
    intro y hy
    unfold insChild at hy
    split at hy
    · rcases List.mem_cons.mp hy with rfl | hy₂
      · exact Or.inl rfl
      · exact Or.inr hy₂
    · rcases List.mem_cons.mp hy with rfl | hy₂
      · exact Or.inr (List.mem_cons_self _ _)
      · rcases ih hy₂ with rfl | hy₃
        · exact Or.inl rfl
        · exact Or.inr (List.mem_cons_of_mem _ hy₃)

theorem insChild_sorted (x : Str × Trie) :
    ∀ {l : List (Str × Trie)},
      List.Pairwise (fun a b => u16Le a.1 b.1 = true) l →
      List.Pairwise (fun a b => u16Le a.1 b.1 = true) (insChild x l) := by
  intro l
  induction l with
  | nil => intro _; exact List.pairwise_singleton _ x
  | cons y ys ih =>
    intro hp
    rw [List.pairwise_cons] at hp
    unfold insChild
    split
    · rw [List.pairwise_cons]
      constructor
      · intro z hz
        rcases List.mem_cons.mp hz with rfl | hz₂
        · assumption
        · rename_i hle
          exact u16Le_trans hle (hp.1 z hz₂)
      · exact List.pairwise_cons.mpr hp
    · rw [List.pairwise_cons]
      refine ⟨?_, ih hp.2⟩
      intro z hz
      rcases insChild_mem_keyLe hz with rfl | hz₂
      · rename_i hnle
        rcases u16Le_total z.1 y.1 with h | h
        · exact absurd h (by simpa using hnle)
        · exact h
      · exact hp.1 z hz₂

theorem sortChildren_sorted : ∀ l : List (Str × Trie),
    List.Pairwise (fun a b => u16Le a.1 b.1 = true) (sortChildren l) := by
  intro l
  induction l with
  | nil => exact List.Pairwise.nil
  | cons x xs ih => exact insChild_sorted x ih

theorem sizeOf_mem_child_lt {t : Trie} {k : Str} {c : Trie}
    (h : (k, c) ∈ t.children) : sizeOf c < sizeOf t := by
  obtain ⟨v, cs⟩ := t
  have h1 : sizeOf (k, c) < sizeOf cs := List.sizeOf_lt_of_mem h
  have h2 : sizeOf (k, c) = 1 + sizeOf k + sizeOf c := rfl
  have h3 : sizeOf (Trie.mk v cs) = 1 + sizeOf v + sizeOf cs := by
    simp [Trie.mk.sizeOf_spec]
  omega

/-! ## The walk over a node's children -/

theorem extends_trans {a b c : WState} (h₁ : Extends a b) (h₂ : Extends b c) :
    Extends a c := by
  obtain ⟨e₁, he₁⟩ := h₁
  obtain ⟨e₂, he₂⟩ := h₂
  exact ⟨e₁ ++ e₂, by rw [he₂, he₁, List.append_assoc]⟩

theorem selfRep_to_childRel {J : JsonCodec} {ls : List Str} {v : JsonValue}
    {r : Ref} (h : SelfRep J ls (some v) (some r)) :
    ChildRel J ls (some (Trie.mk (some v) [])) (some r) := by
  cases h with
  | inline => exact ChildRel.inline _ _ rfl
  | leaf _ n hne hg hla => exact ChildRel.leaf _ _ v n rfl hne hg hla

theorem selfRep_refOk {J : JsonCodec} {ls : List Str} {v : Option JsonValue}
    {r : Ref} (h : SelfRep J ls v (some r)) : RefOk ls r := by
  cases h with
  | inline => trivial
  | leaf w _ hne hg hla => exact ⟨J.enc w, hla⟩

theorem nodeRep_lineAt {J : JsonCodec} {ls : List Str} {o : Nat} {t : Trie}
    (h : NodeRep J ls o t) : ∃ txt, LineAt ls o txt := by
  cases h with
  | intro _ _ pml hla _ _ _ => exact ⟨encodePathMapNode pml, hla⟩

theorem childRel_refOk {J : JsonCodec} {ls : List Str} {c : Trie} {r : Ref}
    (h : ChildRel J ls (some c) (some r)) : RefOk ls r := by
  cases h with
  | inline _ _ => trivial
  | leaf _ v n hleaf hne hg hla => exact ⟨J.enc v, hla⟩
  | node _ n hleaf hnr => exact nodeRep_lineAt hnr

theorem walkNode_unfold (J : JsonCodec) (f : Nat) (t : Trie) (s : WState) :
    walkNode J (f + 1) t s =
      (let s₁ : Option Ref × WState :=
        match t.val with
        | some v =>
          let p := pushLeaf J s v
          (some p.1, p.2)
        | none => (none, s)
      let s₂ := (sortChildren t.children).foldl (walkStep J f) ([], s₁.2)
      push s₂.2 (encodePathMapNode ⟨s₁.1, s₂.1⟩)) := rfl

theorem walkFold_spec (J : JsonCodec) (B f : Nat)
    (IH : ∀ (c : Trie) (s : WState), TrieWF J c → depthLeB f c = true →
      WFS s → SeenBelow J s B → sizeOf c < B →
      WFS (walkNode J f c s).2 ∧ Extends s (walkNode J f c s).2 ∧
        SeenBelow J (walkNode J f c s).2 B ∧
        NodeRep J (walkNode J f c s).2.lines (walkNode J f c s).1 c) :
    ∀ (cl prev : List (Str × Trie)) (es₀ : List (Str × Ref)) (s : WState),
      (∀ kc ∈ cl, TrieWF J kc.2) →
      (∀ kc ∈ cl, depthLeB f kc.2 = true) →
      (∀ kc ∈ cl, sizeOf kc.2 < B) →
      WFS s → SeenBelow J s B →
      ((prev.map Prod.fst ++ cl.map Prod.fst)).Nodup →
      es₀.map Prod.fst = prev.map Prod.fst →
      (∀ e ∈ es₀, RefOk s.lines e.2) →
      (∀ k, (alookup prev k = none ∧ alookup es₀ k = none) ∨
        (∃ c r, alookup prev k = some c ∧ alookup es₀ k = some r ∧
          ChildRel J s.lines (some c) (some r))) →
      WFS (cl.foldl (walkStep J f) (es₀, s)).2 ∧
      Extends s (cl.foldl (walkStep J f) (es₀, s)).2 ∧
      SeenBelow J (cl.foldl (walkStep J f) (es₀, s)).2 B ∧
      (cl.foldl (walkStep J f) (es₀, s)).1.map Prod.fst
        = es₀.map Prod.fst ++ cl.map Prod.fst ∧
      (∀ e ∈ (cl.foldl (walkStep J f) (es₀, s)).1,
        RefOk (cl.foldl (walkStep J f) (es₀, s)).2.lines e.2) ∧
      (∀ k, (alookup (prev ++ cl) k = none ∧
          alookup (cl.foldl (walkStep J f) (es₀, s)).1 k = none) ∨
        (∃ c r, alookup (prev ++ cl) k = some c ∧
          alookup (cl.foldl (walkStep J f) (es₀, s)).1 k = some r ∧
          ChildRel J (cl.foldl (walkStep J f) (es₀, s)).2.lines
            (some c) (some r))) := by
  intro cl
  induction cl with
  | nil =>
    intro prev es₀ s _ _ _ hW hsb hkeys hkeq hrefok hcorr
    refine ⟨hW, ⟨[], (List.append_nil _).symm⟩, hsb,
      by simp only [List.foldl_nil, List.map_nil, List.append_nil], hrefok, ?_⟩
    intro k
    rw [List.append_nil]
    exact hcorr k
  | cons kc cl ih =>
    intro prev es₀ s hwf hdep hsz hW hsb hkeys hkeq hrefok hcorr
    obtain ⟨k, c⟩ := kc
    have hkprev : k ∉ prev.map Prod.fst := by
      rw [List.nodup_append] at hkeys
      intro hin
      exact hkeys.2.2 hin (by rw [List.map_cons]; exact List.mem_cons_self _ _)
    have hkes₀ : alookup es₀ k = none := by
      rw [alookup_none_iff, hkeq]
      exact hkprev
    obtain ⟨r, s₁, hstep, hext₁, hW₁, hsb₁, hcr, hrfk⟩ :
        ∃ r s₁, walkStep J f (es₀, s) (k, c) = (es₀ ++ [(k, r)], s₁) ∧
          Extends s s₁ ∧ WFS s₁ ∧ SeenBelow J s₁ B ∧
          ChildRel J s₁.lines (some c) (some r) ∧ RefOk s₁.lines r := by
      obtain ⟨cv, cc⟩ := c
      have hwfc : TrieWF J (Trie.mk cv cc) := hwf (k, Trie.mk cv cc) (by simp)
      cases cv with
      | some v =>
        cases cc with
        | nil =>
          have hg : GoodCodecAt J v := by
            cases hwfc with
            | intro _ _ h _ _ _ => exact h v rfl
          obtain ⟨hW₁, hext₁, hsb₁, hsr⟩ :=
            pushLeaf_spec (Prod.mk.eta (p := pushLeaf J s v)).symm hW hsb hg
          exact ⟨(pushLeaf J s v).1, (pushLeaf J s v).2, rfl, hext₁, hW₁, hsb₁,
            selfRep_to_childRel hsr, selfRep_refOk hsr⟩
        | cons e cc' =>
          have hlf : leafOnly (Trie.mk (some v) (e :: cc')) = none := rfl
          obtain ⟨hW₁, hext₁, hsb₁, hnr⟩ :=
            IH (Trie.mk (some v) (e :: cc')) s hwfc
              (hdep (k, Trie.mk (some v) (e :: cc')) (by simp)) hW hsb
              (hsz (k, Trie.mk (some v) (e :: cc')) (by simp))
          refine ⟨Ref.off (walkNode J f (Trie.mk (some v) (e :: cc')) s).1,
            (walkNode J f (Trie.mk (some v) (e :: cc')) s).2, rfl, hext₁, hW₁,
            hsb₁, ChildRel.node _ _ _ hlf hnr, nodeRep_lineAt hnr⟩
      | none =>
        have hlf : leafOnly (Trie.mk none cc) = none := by
          cases cc <;> rfl
        obtain ⟨hW₁, hext₁, hsb₁, hnr⟩ :=
          IH (Trie.mk none cc) s hwfc
            (hdep (k, Trie.mk none cc) (by simp)) hW hsb
            (hsz (k, Trie.mk none cc) (by simp))
        cases cc with
        | nil =>
          exact ⟨Ref.off (walkNode J f (Trie.mk none []) s).1,
            (walkNode J f (Trie.mk none []) s).2, rfl, hext₁, hW₁,
            hsb₁, ChildRel.node _ _ _ hlf hnr, nodeRep_lineAt hnr⟩
        | cons e cc' =>
          exact ⟨Ref.off (walkNode J f (Trie.mk none (e :: cc')) s).1,
            (walkNode J f (Trie.mk none (e :: cc')) s).2, rfl, hext₁, hW₁,
            hsb₁, ChildRel.node _ _ _ hlf hnr, nodeRep_lineAt hnr⟩
    rw [List.foldl_cons, hstep]
    obtain ⟨hWo, hexto, hsbo, hkeyso, hrefoko, hcorro⟩ :=
      ih (prev ++ [(k, c)]) (es₀ ++ [(k, r)]) s₁
        (fun kc h => hwf kc (List.mem_cons_of_mem _ h))
        (fun kc h => hdep kc (List.mem_cons_of_mem _ h))
        (fun kc h => hsz kc (List.mem_cons_of_mem _ h))
        hW₁ hsb₁
        (by simpa using hkeys)
        (by simp [hkeq])
        (by
          intro e he
          rcases List.mem_append.mp he with he | he
          · obtain ⟨ext, hext⟩ := hext₁
            exact hext ▸ refOk_mono ext (hrefok e he)
          · rw [List.mem_singleton] at he
            subst he
            exact hrfk)
        (by
          intro k₂
          by_cases hk₂ : k₂ = k
          · subst hk₂
            refine Or.inr ⟨c, r, ?_, ?_, hcr⟩
            · rw [alookup_append_none
                ((alookup_none_iff prev k₂).mpr hkprev)]
              simp [alookup]
            · rw [alookup_append_none hkes₀]
              simp [alookup]
          · have h₁ : alookup (prev ++ [(k, c)]) k₂ = alookup prev k₂ := by
              cases hq : alookup prev k₂ with
              | some w => rw [alookup_append_left hq]
              | none =>
                rw [alookup_append_none hq]
                simp only [alookup, if_neg (show ¬ (k = k₂) from fun h => hk₂ h.symm)]
            have h₂ : alookup (es₀ ++ [(k, r)]) k₂ = alookup es₀ k₂ := by
              cases hq : alookup es₀ k₂ with
              | some w => rw [alookup_append_left hq]
              | none =>
                rw [alookup_append_none hq]
                simp only [alookup, if_neg (show ¬ (k = k₂) from fun h => hk₂ h.symm)]
            rw [h₁, h₂]
            rcases hcorr k₂ with ⟨ha, hb⟩ | ⟨c₂, r₂, ha, hb, hc⟩
            · exact Or.inl ⟨ha, hb⟩
            · obtain ⟨ext, hext⟩ := hext₁
              exact Or.inr ⟨c₂, r₂, ha, hb, hext ▸ childRel_mono ext hc⟩)
    refine ⟨hWo, extends_trans hext₁ hexto, hsbo, ?_, hrefoko, ?_⟩
    · rw [hkeyso]
      simp
    · intro k₂
      have := hcorro k₂
      rwa [List.append_assoc, List.singleton_append] at this

theorem selfRep_extends {J : JsonCodec} {a b : WState} {v : Option JsonValue}
    {r : Option Ref} (h : Extends a b) (hs : SelfRep J a.lines v r) :
    SelfRep J b.lines v r := by
  obtain ⟨ext, he⟩ := h
  rw [he]
  exact selfRep_mono ext hs

theorem childRel_extends {J : JsonCodec} {a b : WState} {oc : Option Trie}
    {oref : Option Ref} (h : Extends a b) (hcc : ChildRel J a.lines oc oref) :
    ChildRel J b.lines oc oref := by
  obtain ⟨ext, he⟩ := h
  rw [he]
  exact childRel_mono ext hcc

theorem refOk_extends {a b : WState} {r : Ref} (h : Extends a b)
    (hr : RefOk a.lines r) : RefOk b.lines r := by
  obtain ⟨ext, he⟩ := h
  rw [he]
  exact refOk_mono ext hr

theorem nodeRep_extends {J : JsonCodec} {a b : WState} {o : Nat} {t : Trie}
    (h : Extends a b) (hn : NodeRep J a.lines o t) : NodeRep J b.lines o t := by
  obtain ⟨ext, he⟩ := h
  rw [he]
  exact nodeRep_mono ext hn

theorem walk_push_spec (J : JsonCodec) (B f : Nat)
    (IH : ∀ (c : Trie) (s : WState), TrieWF J c → depthLeB f c = true →
      WFS s → SeenBelow J s B → sizeOf c < B →
      WFS (walkNode J f c s).2 ∧ Extends s (walkNode J f c s).2 ∧
        SeenBelow J (walkNode J f c s).2 B ∧
        NodeRep J (walkNode J f c s).2.lines (walkNode J f c s).1 c)
    (tv : Option JsonValue) (cs : List (Str × Trie)) (s s₁ : WState)
    (selfr : Option Ref)
    (hwf : TrieWF J (Trie.mk tv cs))
    (hdep : depthLeB (f + 1) (Trie.mk tv cs) = true)
    (hsz : sizeOf (Trie.mk tv cs) < B)
    (hW₁ : WFS s₁) (hext₁ : Extends s s₁) (hsb₁ : SeenBelow J s₁ B)
    (hself : SelfRep J s₁.lines tv selfr) :
    WFS (push ((sortChildren cs).foldl (walkStep J f) ([], s₁)).2
        (encodePathMapNode
          ⟨selfr, ((sortChildren cs).foldl (walkStep J f) ([], s₁)).1⟩)).2 ∧
    Extends s (push ((sortChildren cs).foldl (walkStep J f) ([], s₁)).2
        (encodePathMapNode
          ⟨selfr, ((sortChildren cs).foldl (walkStep J f) ([], s₁)).1⟩)).2 ∧
    SeenBelow J (push ((sortChildren cs).foldl (walkStep J f) ([], s₁)).2
        (encodePathMapNode
          ⟨selfr, ((sortChildren cs).foldl (walkStep J f) ([], s₁)).1⟩)).2 B ∧
    NodeRep J (push ((sortChildren cs).foldl (walkStep J f) ([], s₁)).2
        (encodePathMapNode
          ⟨selfr, ((sortChildren cs).foldl (walkStep J f) ([], s₁)).1⟩)).2.lines
      (push ((sortChildren cs).foldl (walkStep J f) ([], s₁)).2
        (encodePathMapNode
          ⟨selfr, ((sortChildren cs).foldl (walkStep J f) ([], s₁)).1⟩)).1
      (Trie.mk tv cs) := by
  have hndcs : (cs.map Prod.fst).Nodup := by
    cases hwf with | intro _ _ _ h _ _ => exact h
  have hsegcs : ∀ kc ∈ cs, SegOk kc.1 = true := by
    cases hwf with | intro _ _ _ _ h _ => exact h
  have hwfkid : ∀ kc ∈ cs, TrieWF J kc.2 := by
    cases hwf with | intro _ _ _ _ _ h => exact h
  have hdepkid : ∀ kc ∈ cs, depthLeB f kc.2 = true := by
    have : ((Trie.mk tv cs).children.all (fun kc => depthLeB f kc.2)) = true := hdep
    rw [show (Trie.mk tv cs).children = cs from rfl, List.all_eq_true] at this
    exact this
  obtain ⟨hWo, hexto, hsbo, hkeyso, hrefoko, hcorro⟩ :=
    walkFold_spec J B f IH (sortChildren cs) [] [] s₁
      (fun kc h => hwfkid kc ((sortChildren_perm cs).mem_iff.mp h))
      (fun kc h => hdepkid kc ((sortChildren_perm cs).mem_iff.mp h))
      (fun kc h =>
        lt_trans
          (sizeOf_mem_child_lt
            (show (kc.1, kc.2) ∈ (Trie.mk tv cs).children from
              (sortChildren_perm cs).mem_iff.mp h))
          hsz)
      hW₁ hsb₁
      (by
        rw [List.map_nil, List.nil_append]
        exact (((sortChildren_perm cs).map Prod.fst).nodup_iff).mpr hndcs)
      rfl
      (fun e he => absurd he (List.not_mem_nil e))
      (fun k => Or.inl ⟨rfl, rfl⟩)
  have hESkeys : ((sortChildren cs).foldl (walkStep J f) ([], s₁)).1.map Prod.fst
      = (sortChildren cs).map Prod.fst := by
    rw [hkeyso, List.map_nil, List.nil_append]
  have hndES : (((sortChildren cs).foldl (walkStep J f) ([], s₁)).1.map
      Prod.fst).Nodup := by
    rw [hESkeys]
    exact (((sortChildren_perm cs).map Prod.fst).nodup_iff).mpr hndcs
  have hsegES : ∀ e ∈ ((sortChildren cs).foldl (walkStep J f) ([], s₁)).1,
      SegOk e.1 = true := by
    intro e he
    have h1 : e.1 ∈ (sortChildren cs).map Prod.fst := by
      rw [← hESkeys]
      exact List.mem_map_of_mem Prod.fst he
    obtain ⟨kc, hkc, hkc₂⟩ := List.mem_map.mp h1
    exact hkc₂ ▸ hsegcs kc ((sortChildren_perm cs).mem_iff.mp hkc)
  have hwfES : entriesWF ((sortChildren cs).foldl (walkStep J f) ([], s₁)).1 :=
    ⟨hndES, hsegES⟩
  have hpw : List.Pairwise (fun a b => u16Le a.1 b.1 = true)
      ((sortChildren cs).foldl (walkStep J f) ([], s₁)).1 := by
    have h1 : ((sortChildren cs).map Prod.fst).Pairwise
        (fun a b => u16Le a b = true) :=
      List.pairwise_map.mpr (sortChildren_sorted cs)
    rw [← hESkeys] at h1
    exact List.pairwise_map.mp h1
  obtain ⟨hW₂, hext₂, hla₂, -⟩ :=
    push_spec
      (Prod.mk.eta (p := push ((sortChildren cs).foldl (walkStep J f) ([], s₁)).2
        (encodePathMapNode
          ⟨selfr, ((sortChildren cs).foldl (walkStep J f) ([], s₁)).1⟩))).symm
      hWo
      (encode_head_ne_esc _)
      (@encode_no_newline
        ⟨selfr, ((sortChildren cs).foldl (walkStep J f) ([], s₁)).1⟩ hsegES)
  have hch : ∀ k, ChildRel J
      (push ((sortChildren cs).foldl (walkStep J f) ([], s₁)).2
        (encodePathMapNode
          ⟨selfr, ((sortChildren cs).foldl (walkStep J f) ([], s₁)).1⟩)).2.lines
      (alookup (Trie.mk tv cs).children k)
      (lookupEntry ((sortChildren cs).foldl (walkStep J f) ([], s₁)).1 k) := by
    intro k
    rw [lookupEntry_eq_alookup,
      show (Trie.mk tv cs).children = cs from rfl,
      alookup_eq_of_perm (sortChildren_perm cs).symm hndcs k]
    have := hcorro k
    rw [List.nil_append] at this
    rcases this with ⟨ha, hb⟩ | ⟨c, r, ha, hb, hc⟩
    · rw [ha, hb]
      exact ChildRel.none _
    · rw [ha, hb]
      exact childRel_extends hext₂ hc
  have hnr : NodeRep J
      (push ((sortChildren cs).foldl (walkStep J f) ([], s₁)).2
        (encodePathMapNode
          ⟨selfr, ((sortChildren cs).foldl (walkStep J f) ([], s₁)).1⟩)).2.lines
      (push ((sortChildren cs).foldl (walkStep J f) ([], s₁)).2
        (encodePathMapNode
          ⟨selfr, ((sortChildren cs).foldl (walkStep J f) ([], s₁)).1⟩)).1
      (Trie.mk tv cs) :=
    NodeRep.intro _ _ _
      ⟨selfr, ((sortChildren cs).foldl (walkStep J f) ([], s₁)).1⟩
      hla₂ hwfES
      (selfRep_extends hext₂ (selfRep_extends hexto hself)) hch
  refine ⟨hW₂, extends_trans hext₁ (extends_trans hexto hext₂), ?_, hnr⟩
  refine seenBelow_push
    (Prod.mk.eta (p := push ((sortChildren cs).foldl (walkStep J f) ([], s₁)).2
      (encodePathMapNode
        ⟨selfr, ((sortChildren cs).foldl (walkStep J f) ([], s₁)).1⟩))).symm
    hsbo (Or.inr ⟨Trie.mk tv cs,
      ⟨selfr, ((sortChildren cs).foldl (walkStep J f) ([], s₁)).1⟩,
      rfl, hwfES, hpw, ?_, ?_, hnr, hwf, hsz⟩)
  · intro e he
    exact refOk_extends hext₂ (hrefoko e he)
  · intro r hr
    subst hr
    exact selfRep_refOk (selfRep_extends hext₂ (selfRep_extends hexto hself))

theorem walk_spec (J : JsonCodec) (B : Nat) :
    ∀ (f : Nat) (t : Trie) (s : WState), TrieWF J t → depthLeB f t = true →
      WFS s → SeenBelow J s B → sizeOf t < B →
      WFS (walkNode J f t s).2 ∧ Extends s (walkNode J f t s).2 ∧
        SeenBelow J (walkNode J f t s).2 B ∧
        NodeRep J (walkNode J f t s).2.lines (walkNode J f t s).1 t := by
  intro f
  induction f with
  | zero =>
    intro t s _ hdep
    exact absurd hdep (by simp [depthLeB])
  | succ f IH =>
    intro t s hwf hdep hW hsb hsz
    obtain ⟨tv, cs⟩ := t
    cases tv with
    | some v =>
      have hg : GoodCodecAt J v := by
        cases hwf with
        | intro _ _ h _ _ _ => exact h v rfl
      obtain ⟨hW₁, hext₁, hsb₁, hsr⟩ :=
        pushLeaf_spec (Prod.mk.eta (p := pushLeaf J s v)).symm hW hsb hg
      have hwalk : walkNode J (f + 1) (Trie.mk (some v) cs) s =
          push ((sortChildren cs).foldl (walkStep J f)
              ([], (pushLeaf J s v).2)).2
            (encodePathMapNode ⟨some (pushLeaf J s v).1,
              ((sortChildren cs).foldl (walkStep J f)
                ([], (pushLeaf J s v).2)).1⟩) := rfl
      rw [hwalk]
      exact walk_push_spec J B f IH (some v) cs s (pushLeaf J s v).2
        (some (pushLeaf J s v).1) hwf hdep hsz hW₁ hext₁ hsb₁ hsr
    | none =>
      have hwalk : walkNode J (f + 1) (Trie.mk none cs) s =
          push ((sortChildren cs).foldl (walkStep J f) ([], s)).2
            (encodePathMapNode ⟨none,
              ((sortChildren cs).foldl (walkStep J f) ([], s)).1⟩) := rfl
      rw [hwalk]
      exact walk_push_spec J B f IH none cs s s none hwf hdep hsz hW
        ⟨[], (List.append_nil _).symm⟩ hsb SelfRep.none

/-! ## The reader's root offset on writer output -/

theorem utf8Bytes_append (s t : Str) :
    utf8Bytes (s ++ t) = utf8Bytes s ++ utf8Bytes t := by
  simp [utf8Bytes]

theorem utf8Bytes_no10 {s : Str} (h : ∀ c ∈ s, c ≠ '\n') :
    ∀ b ∈ utf8Bytes s, b ≠ 10 := by
  intro b hb
  simp only [utf8Bytes, List.mem_flatten, List.mem_map] at hb
  obtain ⟨l, ⟨c, hc, rfl⟩, hbl⟩ := hb
  exact charBytes_no_newline (h c hc) b hbl

theorem utf8Bytes_ne_nil {s : Str} (h : s ≠ []) : utf8Bytes s ≠ [] := by
  cases s with
  | nil => exact absurd rfl h
  | cons c rest =>
    intro he
    have h1 : 1 ≤ charSize c := one_le_charSize c
    have h2 : utf8Bytes (c :: rest) = charBytes c ++ utf8Bytes rest := rfl
    rw [h2] at he
    have := List.append_eq_nil.mp he
    rw [charSize] at h1
    rw [this.1] at h1
    simp at h1

theorem trimNl_append_newline (xs : List Nat) : trimNl (xs ++ [10]) = trimNl xs := by
  simp [trimNl, List.reverse_append, List.dropWhile_cons]

theorem trimNl_append_no10 {xs : List Nat} {b : Nat} (hb : b ≠ 10) :
    trimNl (xs ++ [b]) = xs ++ [b] := by
  simp [trimNl, List.reverse_append, List.dropWhile_cons, hb]

/-- `lastLineStart` of a shaped buffer: the start of its last line, or `none`
when the last line is the only line (the constructor divergence case). -/
theorem lastLineStart_concat {pre : List Str} {root : Str}
    (hsh : linesShaped pre) (hroot : ∀ c ∈ root, c ≠ '\n') (hne : root ≠ []) :
    lastLineStart (utf8Bytes ((pre ++ [root ++ ['\n']]).flatten))
      = if pre = [] then none else some (linesLen pre) := by
  have hfl : (pre ++ [root ++ ['\n']]).flatten
      = pre.flatten ++ (root ++ ['\n']) := by
    rw [List.flatten_append]
    simp
  rw [hfl]
  have hbytes : utf8Bytes (pre.flatten ++ (root ++ ['\n']))
      = (utf8Bytes pre.flatten ++ utf8Bytes root) ++ [10] := by
    rw [utf8Bytes_append, utf8Bytes_append, List.append_assoc]
    rfl
  rw [hbytes]
  obtain ⟨R', bR, hR⟩ : ∃ R' bR, utf8Bytes root = R' ++ [bR] := by
    rcases List.eq_nil_or_concat (utf8Bytes root) with h | ⟨L, b, h⟩
    · exact absurd h (utf8Bytes_ne_nil hne)
    · exact ⟨L, b, by rw [h, List.concat_eq_append]⟩
  have hbR : bR ≠ 10 := utf8Bytes_no10 hroot bR (by rw [hR]; simp)
  have htrim : trimNl ((utf8Bytes pre.flatten ++ utf8Bytes root) ++ [10])
      = utf8Bytes pre.flatten ++ utf8Bytes root := by
    rw [trimNl_append_newline, hR, ← List.append_assoc, trimNl_append_no10 hbR]
  unfold lastLineStart
  rw [htrim]
  have hnoR : ∀ b ∈ (utf8Bytes root).reverse, (decide (b = 10)) = false := by
    intro b hb
    simp only [List.mem_reverse] at hb
    simp [utf8Bytes_no10 hroot b hb]
  rcases List.eq_nil_or_concat pre with rfl | ⟨L, lastL, hpre⟩
  · rw [if_pos rfl]
    rw [show utf8Bytes (List.flatten ([] : List Str)) = [] from rfl,
      List.nil_append]
    rw [List.findIdx?_eq_none_iff.mpr (by
      intro x hx
      exact hnoR x hx)]
  · subst hpre
    rw [if_neg (by simp)]
    obtain ⟨txt, htxt, hnltxt⟩ := hsh lastL (by simp [List.concat_eq_append])
    have hA : utf8Bytes ((L.concat lastL).flatten)
        = (utf8Bytes L.flatten ++ utf8Bytes txt) ++ [10] := by
      rw [List.concat_eq_append, List.flatten_append]
      simp only [List.flatten_cons, List.flatten_nil, List.append_nil]
      rw [utf8Bytes_append, htxt, utf8Bytes_append, List.append_assoc]
      rfl
    rw [hA, List.reverse_append, List.reverse_append]
    rw [List.findIdx?_append]
    rw [List.findIdx?_eq_none_iff.mpr (by
      intro x hx
      exact hnoR x hx)]
    have h10 : List.findIdx? (fun b => decide (b = 10))
        ([10].reverse ++ (utf8Bytes L.flatten ++ utf8Bytes txt).reverse)
        = some 0 := by
      rw [show ([10] : List Nat).reverse = [10] from rfl, List.singleton_append,
        List.findIdx?_cons]
      simp
    rw [h10]
    simp only [Option.none_or, Option.map_some']
    congr 1
    rw [show utf8Bytes L.flatten ++ utf8Bytes txt ++ [10] ++ utf8Bytes root
        = (utf8Bytes L.flatten ++ utf8Bytes txt ++ [10]) ++ utf8Bytes root from by
      simp [List.append_assoc]]
    rw [← hA]
    simp only [List.length_append, List.length_reverse]
    rw [← utf8Len_eq_utf8Bytes_length, ← utf8Len_eq_utf8Bytes_length,
      utf8Len_flatten]
    omega

/-! ## `stringify` down to the final state: the root line is last and fresh -/

theorem WFS_init : WFS initState :=
  ⟨rfl, fun l hl => absurd hl (List.not_mem_nil l),
    fun p hp => absurd hp (List.not_mem_nil p),
    fun l hl => absurd hl (List.not_mem_nil l)⟩

theorem seenBelow_init (J : JsonCodec) (B : Nat) : SeenBelow J initState B :=
  fun p hp => absurd hp (List.not_mem_nil p)

theorem seenEntryOk_weaken {J : JsonCodec} {ls : List Str} {B B' : Nat}
    {p : Str × Nat} (h : B ≤ B') (hp : SeenEntryOk J ls B p) :
    SeenEntryOk J ls B' p := by
  rcases hp with hp | ⟨t, pml, h1, h2, h3, h4, h5, h6, h7, h8⟩
  · exact Or.inl hp
  · exact Or.inr ⟨t, pml, h1, h2, h3, h4, h5, h6, h7, by omega⟩

theorem seenBelow_weaken {J : JsonCodec} {s : WState} {B B' : Nat}
    (h : B ≤ B') (hs : SeenBelow J s B) : SeenBelow J s B' :=
  fun p hp => seenEntryOk_weaken h (hs p hp)

theorem stringify_push_spec (J : JsonCodec) (f : Nat)
    (tv : Option JsonValue) (cs : List (Str × Trie)) (s s₁ : WState)
    (selfr : Option Ref)
    (hwf : TrieWF J (Trie.mk tv cs))
    (hdep : depthLeB (f + 1) (Trie.mk tv cs) = true)
    (hW₁ : WFS s₁) (hext₁ : Extends s s₁)
    (hsb₁ : SeenBelow J s₁ (sizeOf (Trie.mk tv cs)))
    (hself : SelfRep J s₁.lines tv selfr) :
    (push ((sortChildren cs).foldl (walkStep J f) ([], s₁)).2
        (encodePathMapNode
          ⟨selfr, ((sortChildren cs).foldl (walkStep J f) ([], s₁)).1⟩)).2.lines
      = ((sortChildren cs).foldl (walkStep J f) ([], s₁)).2.lines
        ++ [encodePathMapNode
            ⟨selfr, ((sortChildren cs).foldl (walkStep J f) ([], s₁)).1⟩ ++ ['\n']] ∧
    (push ((sortChildren cs).foldl (walkStep J f) ([], s₁)).2
        (encodePathMapNode
          ⟨selfr, ((sortChildren cs).foldl (walkStep J f) ([], s₁)).1⟩)).1
      = linesLen ((sortChildren cs).foldl (walkStep J f) ([], s₁)).2.lines ∧
    entriesWF ((sortChildren cs).foldl (walkStep J f) ([], s₁)).1 ∧
    ((sortChildren cs).foldl (walkStep J f) ([], s₁)).1.map Prod.fst
      = (sortChildren cs).map Prod.fst := by
  have hndcs : (cs.map Prod.fst).Nodup := by
    cases hwf with | intro _ _ _ h _ _ => exact h
  have hsegcs : ∀ kc ∈ cs, SegOk kc.1 = true := by
    cases hwf with | intro _ _ _ _ h _ => exact h
  have hwfkid : ∀ kc ∈ cs, TrieWF J kc.2 := by
    cases hwf with | intro _ _ _ _ _ h => exact h
  have hdepkid : ∀ kc ∈ cs, depthLeB f kc.2 = true := by
    have : ((Trie.mk tv cs).children.all (fun kc => depthLeB f kc.2)) = true := hdep
    rw [show (Trie.mk tv cs).children = cs from rfl, List.all_eq_true] at this
    exact this
  obtain ⟨hWo, hexto, hsbo, hkeyso, hrefoko, hcorro⟩ :=
    walkFold_spec J (sizeOf (Trie.mk tv cs)) f
      (fun c s h1 h2 h3 h4 h5 => walk_spec J (sizeOf (Trie.mk tv cs)) f c s h1 h2 h3 h4 h5)
      (sortChildren cs) [] [] s₁
      (fun kc h => hwfkid kc ((sortChildren_perm cs).mem_iff.mp h))
      (fun kc h => hdepkid kc ((sortChildren_perm cs).mem_iff.mp h))
      (fun kc h =>
        sizeOf_mem_child_lt
          (show (kc.1, kc.2) ∈ (Trie.mk tv cs).children from
            (sortChildren_perm cs).mem_iff.mp h))
      hW₁ hsb₁
      (by
        rw [List.map_nil, List.nil_append]
        exact (((sortChildren_perm cs).map Prod.fst).nodup_iff).mpr hndcs)
      rfl
      (fun e he => absurd he (List.not_mem_nil e))
      (fun k => Or.inl ⟨rfl, rfl⟩)
  have hESkeys : ((sortChildren cs).foldl (walkStep J f) ([], s₁)).1.map Prod.fst
      = (sortChildren cs).map Prod.fst := by
    rw [hkeyso, List.map_nil, List.nil_append]
  have hndES : (((sortChildren cs).foldl (walkStep J f) ([], s₁)).1.map
      Prod.fst).Nodup := by
    rw [hESkeys]
    exact (((sortChildren_perm cs).map Prod.fst).nodup_iff).mpr hndcs
  have hsegES : ∀ e ∈ ((sortChildren cs).foldl (walkStep J f) ([], s₁)).1,
      SegOk e.1 = true := by
    intro e he
    have h1 : e.1 ∈ (sortChildren cs).map Prod.fst := by
      rw [← hESkeys]
      exact List.mem_map_of_mem Prod.fst he
    obtain ⟨kc, hkc, hkc₂⟩ := List.mem_map.mp h1
    exact hkc₂ ▸ hsegcs kc ((sortChildren_perm cs).mem_iff.mp hkc)
  have hmatchT : MatchesPml J
      ((sortChildren cs).foldl (walkStep J f) ([], s₁)).2.lines
      ⟨selfr, ((sortChildren cs).foldl (walkStep J f) ([], s₁)).1⟩
      (Trie.mk tv cs) := by
    refine ⟨selfRep_extends hexto hself, ?_⟩
    intro k
    rw [lookupEntry_eq_alookup,
      show (Trie.mk tv cs).children = cs from rfl,
      alookup_eq_of_perm (sortChildren_perm cs).symm hndcs k]
    have := hcorro k
    rw [List.nil_append] at this
    rcases this with ⟨ha, hb⟩ | ⟨c, r, ha, hb, hc⟩
    · rw [ha, hb]
      exact ChildRel.none _
    · rw [ha, hb]
      exact hc
  have hfresh : alookup
      ((sortChildren cs).foldl (walkStep J f) ([], s₁)).2.seen
      (encodePathMapNode
        ⟨selfr, ((sortChildren cs).foldl (walkStep J f) ([], s₁)).1⟩) = none := by
    cases halk : alookup ((sortChildren cs).foldl (walkStep J f) ([], s₁)).2.seen
        (encodePathMapNode
          ⟨selfr, ((sortChildren cs).foldl (walkStep J f) ([], s₁)).1⟩) with
    | none => rfl
    | some o' =>
      exfalso
      have hmem := alookup_mem halk
      have hcls := hsbo _ hmem
      rcases hcls with ⟨v, hSTR, hgv, -⟩ |
        ⟨t', pml₂', hSTR, hwf', hpw', hre', hrs', hnr', htwf', hsz'⟩
      · exact encode_ne_leafText hgv.1 hSTR
      · have hlaSTR := hWo.seenSound _ hmem
        cases hnr' with
        | intro _ _ pml₂ hla₂ hwf₂ hself₂ hch₂ =>
          have htxt :
              encodePathMapNode
                ⟨selfr, ((sortChildren cs).foldl (walkStep J f) ([], s₁)).1⟩
              = encodePathMapNode pml₂ :=
            lineAt_unique hWo.shaped hlaSTR hla₂
          obtain ⟨hs₂, hl₂⟩ := encode_eq_lookup_eq ⟨hndES, hsegES⟩ hwf₂ htxt
          have := matches_size_eq (sizeOf (Trie.mk tv cs) + 1) J
            ((sortChildren cs).foldl (walkStep J f) ([], s₁)).2.lines
            hWo.shaped (Trie.mk tv cs) t' _ pml₂ (by omega) hwf htwf'
            hmatchT ⟨hself₂, hch₂⟩ hs₂ hl₂
          omega
  have hpush : push ((sortChildren cs).foldl (walkStep J f) ([], s₁)).2
      (encodePathMapNode
        ⟨selfr, ((sortChildren cs).foldl (walkStep J f) ([], s₁)).1⟩)
      = (((sortChildren cs).foldl (walkStep J f) ([], s₁)).2.offset,
        ⟨((sortChildren cs).foldl (walkStep J f) ([], s₁)).2.lines
            ++ [encodePathMapNode
              ⟨selfr, ((sortChildren cs).foldl (walkStep J f) ([], s₁)).1⟩ ++ ['\n']],
          ((sortChildren cs).foldl (walkStep J f) ([], s₁)).2.offset
            + (if (encodePathMapNode
                ⟨selfr, ((sortChildren cs).foldl (walkStep J f) ([], s₁)).1⟩).head?
                = some '\x1b' then 0
              else utf8Len (encodePathMapNode
                ⟨selfr, ((sortChildren cs).foldl (walkStep J f) ([], s₁)).1⟩) + 1),
          ((sortChildren cs).foldl (walkStep J f) ([], s₁)).2.seen
            ++ [(encodePathMapNode
              ⟨selfr, ((sortChildren cs).foldl (walkStep J f) ([], s₁)).1⟩,
              ((sortChildren cs).foldl (walkStep J f) ([], s₁)).2.offset)]⟩) := by
    unfold push
    rw [hfresh]
  refine ⟨?_, ?_, ⟨hndES, hsegES⟩, hESkeys⟩
  · rw [hpush]
  · rw [hpush]
    exact hWo.offEq

theorem stringify_spec (J : JsonCodec) (f : Nat) (t₀ : Trie)
    (hwf : TrieWF J t₀) (hdep : depthLeB (f + 1) t₀ = true) :
    ∃ (pre : List Str) (pml : PMLine),
      (walkNode J (f + 1) t₀ initState).2.lines
        = pre ++ [encodePathMapNode pml ++ ['\n']] ∧
      (walkNode J (f + 1) t₀ initState).1 = linesLen pre ∧
      entriesWF pml.entries ∧
      pml.entries.map Prod.fst = (sortChildren t₀.children).map Prod.fst ∧
      WFS (walkNode J (f + 1) t₀ initState).2 ∧
      SeenBelow J (walkNode J (f + 1) t₀ initState).2 (sizeOf t₀ + 1) ∧
      NodeRep J (walkNode J (f + 1) t₀ initState).2.lines
        (walkNode J (f + 1) t₀ initState).1 t₀ := by
  obtain ⟨hWz, hextz, hsbz, hnrz⟩ :=
    walk_spec J (sizeOf t₀ + 1) (f + 1) t₀ initState hwf hdep WFS_init
      (seenBelow_init J _) (by omega)
  obtain ⟨tv, cs⟩ := t₀
  cases tv with
  | some v =>
    have hg : GoodCodecAt J v := by
      cases hwf with
      | intro _ _ h _ _ _ => exact h v rfl
    obtain ⟨hW₁, hext₁, hsb₁, hsr⟩ :=
      pushLeaf_spec (B := sizeOf (Trie.mk (some v) cs))
        (Prod.mk.eta (p := pushLeaf J initState v)).symm WFS_init
        (seenBelow_init J _) hg
    have hwalk : walkNode J (f + 1) (Trie.mk (some v) cs) initState =
        push ((sortChildren cs).foldl (walkStep J f)
            ([], (pushLeaf J initState v).2)).2
          (encodePathMapNode ⟨some (pushLeaf J initState v).1,
            ((sortChildren cs).foldl (walkStep J f)
              ([], (pushLeaf J initState v).2)).1⟩) := rfl
    obtain ⟨hlines, ho, hewf, hkeys⟩ :=
      stringify_push_spec J f (some v) cs initState (pushLeaf J initState v).2
        (some (pushLeaf J initState v).1) hwf hdep hW₁ hext₁ hsb₁ hsr
    rw [hwalk] at hWz hsbz hnrz ⊢
    exact ⟨_, _, hlines, ho, hewf, hkeys, hWz, hsbz, hnrz⟩
  | none =>
    have hwalk : walkNode J (f + 1) (Trie.mk none cs) initState =
        push ((sortChildren cs).foldl (walkStep J f) ([], initState)).2
          (encodePathMapNode ⟨none,
            ((sortChildren cs).foldl (walkStep J f) ([], initState)).1⟩) := rfl
    obtain ⟨hlines, ho, hewf, hkeys⟩ :=
      stringify_push_spec J f none cs initState initState none hwf hdep
        WFS_init ⟨[], (List.append_nil _).symm⟩ (seenBelow_init J _)
        SelfRep.none
    rw [hwalk] at hWz hsbz hnrz ⊢
    exact ⟨_, _, hlines, ho, hewf, hkeys, hWz, hsbz, hnrz⟩

/-! ## The in-memory trie against insertion and lookup -/

theorem alookup_aset_self {α : Type} :
    ∀ (l : List (Str × α)) (k : Str) (v : α), alookup (aset l k v) k = some v := by
  intro l
  induction l with
  | nil => intro k v; simp [aset, alookup]
  | cons e es ih =>
    intro k v
    obtain ⟨k₁, v₁⟩ := e
    by_cases hk : k₁ = k
    · subst hk
      simp [aset, alookup]
    · rw [show aset ((k₁, v₁) :: es) k v = (k₁, v₁) :: aset es k v from by
        simp [aset, hk]]
      rw [alookup, if_neg hk]
      exact ih k v

theorem alookup_aset_ne {α : Type} :
    ∀ (l : List (Str × α)) (k k₂ : Str) (v : α), k₂ ≠ k →
      alookup (aset l k v) k₂ = alookup l k₂ := by
  intro l
  induction l with
  | nil =>
    intro k k₂ v hne
    have hnk : ¬ k = k₂ := fun h => hne h.symm
    simp only [aset, alookup, if_neg hnk]
  | cons e es ih =>
    intro k k₂ v hne
    obtain ⟨k₁, v₁⟩ := e
    have hnk : ¬ k = k₂ := fun h => hne h.symm
    by_cases hk : k₁ = k
    · rw [show aset ((k₁, v₁) :: es) k v = (k, v) :: es from by simp [aset, hk]]
      rw [alookup, alookup, if_neg hnk, if_neg (fun h => hnk (hk.symm.trans h))]
    · rw [show aset ((k₁, v₁) :: es) k v = (k₁, v₁) :: aset es k v from by
        simp [aset, hk]]
      rw [alookup, alookup]
      by_cases hq : k₁ = k₂
      · rw [if_pos hq, if_pos hq]
      · rw [if_neg hq, if_neg hq]
        exact ih k k₂ v hne

theorem trieFind_empty : ∀ ds : List Str,
    trieFindSegs ds (Trie.mk none []) = none := by
  intro ds
  cases ds with
  | nil => rfl
  | cons a l => rfl

theorem trieFind_insert_fresh : ∀ (ds' ds : List Str) (v : JsonValue),
    trieFindSegs ds (insertSegsT ds' (Trie.mk none []) v)
      = if ds' = ds then some v else none := by
  intro ds'
  induction ds' with
  | nil =>
    intro ds v
    cases ds with
    | nil => rfl
    | cons s r =>
      rw [if_neg (by simp)]
      rfl
  | cons seg rest ih =>
    intro ds v
    have hins : insertSegsT (seg :: rest) (Trie.mk none []) v
        = Trie.mk none [(seg, insertSegsT rest (Trie.mk none []) v)] := by
      simp [insertSegsT, alookup]
    rw [hins]
    cases ds with
    | nil =>
      rw [if_neg (by simp)]
      rfl
    | cons s₂ r =>
      rw [show trieFindSegs (s₂ :: r)
          (Trie.mk none [(seg, insertSegsT rest (Trie.mk none []) v)])
          = match alookup [(seg, insertSegsT rest (Trie.mk none []) v)] s₂ with
            | some sub => trieFindSegs r sub
            | none => none from rfl]
      by_cases hs : seg = s₂
      · subst hs
        rw [show alookup [(seg, insertSegsT rest (Trie.mk none []) v)] seg
            = some (insertSegsT rest (Trie.mk none []) v) from by simp [alookup]]
        rw [show (if seg :: rest = seg :: r then some v else none)
            = if rest = r then some v else none from by simp]
        exact ih r v
      · rw [show alookup [(seg, insertSegsT rest (Trie.mk none []) v)] s₂
            = none from by simp [alookup, hs]]
        rw [if_neg (by simp [hs])]

theorem trieFind_insertSegsT : ∀ (ds' ds : List Str) (t : Trie) (v : JsonValue),
    trieFindSegs ds (insertSegsT ds' t v)
      = if ds' = ds then some v else trieFindSegs ds t := by
  intro ds'
  induction ds' with
  | nil =>
    intro ds t v
    obtain ⟨tv, cs⟩ := t
    cases ds with
    | nil => rfl
    | cons s r =>
      rw [if_neg (by simp)]
      rfl
  | cons seg rest ih =>
    intro ds t v
    obtain ⟨tv, cs⟩ := t
    cases halk : alookup cs seg with
    | some sub =>
      have hins : insertSegsT (seg :: rest) (Trie.mk tv cs) v
          = Trie.mk tv (aset cs seg (insertSegsT rest sub v)) := by
        simp [insertSegsT, halk]
      rw [hins]
      cases ds with
      | nil =>
        rw [if_neg (by simp)]
        rfl
      | cons s₂ r =>
        rw [show trieFindSegs (s₂ :: r) (Trie.mk tv (aset cs seg (insertSegsT rest sub v)))
            = match alookup (aset cs seg (insertSegsT rest sub v)) s₂ with
              | some sub₂ => trieFindSegs r sub₂
              | none => none from rfl]
        rw [show trieFindSegs (s₂ :: r) (Trie.mk tv cs)
            = match alookup cs s₂ with
              | some sub₂ => trieFindSegs r sub₂
              | none => none from rfl]
        by_cases hs : seg = s₂
        · subst hs
          rw [alookup_aset_self, halk]
          rw [show (if seg :: rest = seg :: r then some v else trieFindSegs r sub)
              = if rest = r then some v else trieFindSegs r sub from by simp]
          exact ih r sub v
        · rw [alookup_aset_ne cs seg s₂ _ (fun h => hs h.symm)]
          rw [if_neg (by simp [hs])]
    | none =>
      have hins : insertSegsT (seg :: rest) (Trie.mk tv cs) v
          = Trie.mk tv (cs ++ [(seg, insertSegsT rest (Trie.mk none []) v)]) := by
        simp [insertSegsT, halk]
      rw [hins]
      cases ds with
      | nil =>
        rw [if_neg (by simp)]
        rfl
      | cons s₂ r =>
        rw [show trieFindSegs (s₂ :: r)
            (Trie.mk tv (cs ++ [(seg, insertSegsT rest (Trie.mk none []) v)]))
            = match alookup (cs ++ [(seg, insertSegsT rest (Trie.mk none []) v)]) s₂ with
              | some sub₂ => trieFindSegs r sub₂
              | none => none from rfl]
        rw [show trieFindSegs (s₂ :: r) (Trie.mk tv cs)
            = match alookup cs s₂ with
              | some sub₂ => trieFindSegs r sub₂
              | none => none from rfl]
        cases halk₂ : alookup cs s₂ with
        | some sub₂ =>
          rw [alookup_append_left halk₂]
          rw [if_neg (by
            simp only [List.cons.injEq, not_and]
            intro he
            subst he
            rw [halk₂] at halk
            exact absurd halk (by simp))]
        | none =>
          rw [alookup_append_none halk₂]
          by_cases hs : seg = s₂
          · subst hs
            rw [show alookup [(seg, insertSegsT rest (Trie.mk none []) v)] seg
                = some (insertSegsT rest (Trie.mk none []) v) from by simp [alookup]]
            rw [show (if seg :: rest = seg :: r then some v else none)
                = if rest = r then some v else none from by simp]
            exact trieFind_insert_fresh rest r v
          · rw [show alookup [(seg, insertSegsT rest (Trie.mk none []) v)] s₂
                = none from by simp [alookup, hs]]
            rw [if_neg (by simp [hs])]

theorem insertSegs_total : ∀ (ds : List Str) (t : Trie) (v : JsonValue) (t' : Trie),
    insertSegs ds t v = some t' → t' = insertSegsT ds t v := by
  intro ds
  induction ds with
  | nil =>
    intro t v t' h
    obtain ⟨tv, cs⟩ := t
    exact (Option.some.inj h).symm
  | cons seg rest ih =>
    intro t v t' h
    obtain ⟨tv, cs⟩ := t
    cases halk : alookup cs seg with
    | some sub =>
      rw [show insertSegs (seg :: rest) (Trie.mk tv cs) v
          = (insertSegs rest sub v).map (fun u => Trie.mk tv (aset cs seg u))
          from by simp [insertSegs, halk]] at h
      cases hr : insertSegs rest sub v with
      | none => rw [hr] at h; exact absurd h (by simp)
      | some u =>
        rw [hr] at h
        obtain rfl := Option.some.inj h
        rw [show insertSegsT (seg :: rest) (Trie.mk tv cs) v
            = Trie.mk tv (aset cs seg (insertSegsT rest sub v))
            from by simp [insertSegsT, halk]]
        rw [← ih sub v u hr]
    | none =>
      rw [show insertSegs (seg :: rest) (Trie.mk tv cs) v
          = (if jsProtoKey seg then none
             else (insertSegs rest (Trie.mk none []) v).map
               (fun u => Trie.mk tv (cs ++ [(seg, u)])))
          from by simp [insertSegs, halk]] at h
      by_cases hop : jsProtoKey seg = true
      · rw [if_pos hop] at h; exact absurd h (by simp)
      · rw [if_neg hop] at h
        cases hr : insertSegs rest (Trie.mk none []) v with
        | none => rw [hr] at h; exact absurd h (by simp)
        | some u =>
          rw [hr] at h
          obtain rfl := Option.some.inj h
          rw [show insertSegsT (seg :: rest) (Trie.mk tv cs) v
              = Trie.mk tv (cs ++ [(seg, insertSegsT rest (Trie.mk none []) v)])
              from by simp [insertSegsT, halk]]
          rw [← ih (Trie.mk none []) v u hr]

theorem insert_some {t : Trie} {path : Str} {v : JsonValue} {t' : Trie}
    (h : insert t path v = some t') :
    path.head? = some '/' ∧
      ∃ ds, decodedSegs path = some ds ∧ t' = insertSegsT ds t v := by
  unfold insert at h
  split_ifs at h with h1
  · refine ⟨h1, ?_⟩
    cases hm : (splitSlash path).mapM pdecode with
    | none => rw [hm] at h; exact absurd h (by simp)
    | some ds =>
      rw [hm] at h
      exact ⟨ds, hm, insertSegs_total ds t v t' h⟩

theorem insertAll_find : ∀ (pairs : List (Str × JsonValue)) (t₀ t : Trie),
    insertAll t₀ pairs = some t →
    ∀ (path : Str) (ds : List Str), decodedSegs path = some ds →
    trieFindSegs ds t
      = pairs.foldl
          (fun acc pr => if decodedSegs pr.1 = decodedSegs path then some pr.2 else acc)
          (trieFindSegs ds t₀) := by
  intro pairs
  induction pairs with
  | nil =>
    intro t₀ t h path ds hds
    obtain rfl := Option.some.inj h
    rfl
  | cons pr rest ih =>
    intro t₀ t h path ds hds
    rw [show insertAll t₀ (pr :: rest)
        = (insert t₀ pr.1 pr.2).bind (fun t₁ => insertAll t₁ rest) from rfl] at h
    cases hins : insert t₀ pr.1 pr.2 with
    | none => rw [hins] at h; exact absurd h (by simp)
    | some t₁ =>
      rw [hins] at h
      replace h : insertAll t₁ rest = some t := h
      obtain ⟨hhead, ds₁, hds₁, rfl⟩ := insert_some hins
      rw [List.foldl_cons]
      rw [ih _ t h path ds hds]
      congr 1
      rw [hds₁, hds, trieFind_insertSegsT]
      by_cases he : ds₁ = ds
      · rw [if_pos he, if_pos (by rw [he])]
      · rw [if_neg he, if_neg (by simpa using he)]

theorem insertAll_lastVal {pairs : List (Str × JsonValue)} {t : Trie}
    (h : insertAll emptyTrie pairs = some t)
    {path : Str} {ds : List Str} (hds : decodedSegs path = some ds) :
    trieFindSegs ds t = lastVal pairs path := by
  rw [insertAll_find pairs emptyTrie t h path ds hds]
  unfold lastVal
  rw [show emptyTrie = Trie.mk none [] from rfl, trieFind_empty]

/-! ## Well-formedness and shape of the inserted trie -/

theorem aset_keys {α : Type} :
    ∀ {l : List (Str × α)} {k : Str} {w : α}, alookup l k = some w →
      ∀ (v : α), (aset l k v).map Prod.fst = l.map Prod.fst := by
  intro l
  induction l with
  | nil => intro k w h; exact absurd h (by simp [alookup])
  | cons e es ih =>
    intro k w h v
    obtain ⟨k₁, v₁⟩ := e
    by_cases hk : k₁ = k
    · subst hk
      rw [show aset ((k₁, v₁) :: es) k₁ v = (k₁, v) :: es from by simp [aset]]
      simp
    · rw [alookup, if_neg hk] at h
      rw [show aset ((k₁, v₁) :: es) k v = (k₁, v₁) :: aset es k v from by
        simp [aset, hk]]
      simp only [List.map_cons]
      rw [ih h v]

theorem mem_aset {α : Type} :
    ∀ {l : List (Str × α)} {k : Str} {v : α} {x : Str × α},
      x ∈ aset l k v → x = (k, v) ∨ x ∈ l := by
  intro l
  induction l with
  | nil =>
    intro k v x hx
    simp only [aset, List.mem_singleton] at hx
    exact Or.inl hx
  | cons e es ih =>
    intro k v x hx
    obtain ⟨k₁, v₁⟩ := e
    by_cases hk : k₁ = k
    · subst hk
      rw [show aset ((k₁, v₁) :: es) k₁ v = (k₁, v) :: es from by simp [aset]] at hx
      rcases List.mem_cons.mp hx with rfl | hx₂
      · exact Or.inl rfl
      · exact Or.inr (List.mem_cons_of_mem _ hx₂)
    · rw [show aset ((k₁, v₁) :: es) k v = (k₁, v₁) :: aset es k v from by
        simp [aset, hk]] at hx
      rcases List.mem_cons.mp hx with rfl | hx₂
      · exact Or.inr (List.mem_cons_self _ _)
      · rcases ih hx₂ with h | h
        · exact Or.inl h
        · exact Or.inr (List.mem_cons_of_mem _ h)

theorem emptyTrie_wf (J : JsonCodec) : TrieWF J (Trie.mk none []) :=
  TrieWF.intro none [] (fun w h => absurd h (by simp)) List.nodup_nil
    (fun kc h => absurd h (List.not_mem_nil kc))
    (fun kc h => absurd h (List.not_mem_nil kc))

theorem insertSegsT_wf {J : JsonCodec} :
    ∀ (ds : List Str) (t : Trie) (v : JsonValue), TrieWF J t →
      GoodCodecAt J v → (∀ sg ∈ ds, SegOk sg = true) →
      TrieWF J (insertSegsT ds t v) := by
  intro ds
  induction ds with
  | nil =>
    intro t v hwf hg _
    obtain ⟨tv, cs⟩ := t
    refine TrieWF.intro (some v) cs ?_ ?_ ?_ ?_
    · intro w hw
      obtain rfl := Option.some.inj hw
      exact hg
    · cases hwf with | intro _ _ _ h _ _ => exact h
    · cases hwf with | intro _ _ _ _ h _ => exact h
    · cases hwf with | intro _ _ _ _ _ h => exact h
  | cons seg rest ih =>
    intro t v hwf hg hseg
    obtain ⟨tv, cs⟩ := t
    have hvgood : ∀ w, tv = some w → GoodCodecAt J w := by
      cases hwf with | intro _ _ h _ _ _ => exact h
    have hnd : (cs.map Prod.fst).Nodup := by
      cases hwf with | intro _ _ _ h _ _ => exact h
    have hsegcs : ∀ kc ∈ cs, SegOk kc.1 = true := by
      cases hwf with | intro _ _ _ _ h _ => exact h
    have hwfkid : ∀ kc ∈ cs, TrieWF J kc.2 := by
      cases hwf with | intro _ _ _ _ _ h => exact h
    have hsegseg : SegOk seg = true := hseg seg (by simp)
    have hsegrest : ∀ sg ∈ rest, SegOk sg = true :=
      fun sg h => hseg sg (List.mem_cons_of_mem _ h)
    cases halk : alookup cs seg with
    | some sub =>
      rw [show insertSegsT (seg :: rest) (Trie.mk tv cs) v
          = Trie.mk tv (aset cs seg (insertSegsT rest sub v)) from by
        simp [insertSegsT, halk]]
      refine TrieWF.intro tv _ hvgood ?_ ?_ ?_
      · rw [aset_keys halk]
        exact hnd
      · intro kc hkc
        rcases mem_aset hkc with rfl | hkc₂
        · exact hsegseg
        · exact hsegcs kc hkc₂
      · intro kc hkc
        rcases mem_aset hkc with rfl | hkc₂
        · exact ih sub v (hwfkid _ (alookup_mem halk)) hg hsegrest
        · exact hwfkid kc hkc₂
    | none =>
      rw [show insertSegsT (seg :: rest) (Trie.mk tv cs) v
          = Trie.mk tv (cs ++ [(seg, insertSegsT rest (Trie.mk none []) v)]) from by
        simp [insertSegsT, halk]]
      refine TrieWF.intro tv _ hvgood ?_ ?_ ?_
      · rw [List.map_append]
        rw [List.nodup_append]
        refine ⟨hnd, by simp, ?_⟩
        intro a ha hb
        simp only [List.map_cons, List.map_nil, List.mem_singleton] at hb
        subst hb
        exact (alookup_none_iff cs a).mp halk ha
      · intro kc hkc
        rcases List.mem_append.mp hkc with h | h
        · exact hsegcs kc h
        · rw [List.mem_singleton] at h
          subst h
          exact hsegseg
      · intro kc hkc
        rcases List.mem_append.mp hkc with h | h
        · exact hwfkid kc h
        · rw [List.mem_singleton] at h
          subst h
          exact ih (Trie.mk none []) v (emptyTrie_wf J) hg hsegrest

theorem insertAll_wf {J : JsonCodec} :
    ∀ (pairs : List (Str × JsonValue)) (t₀ t : Trie), TrieWF J t₀ →
      (∀ pr ∈ pairs, GoodCodecAt J pr.2) →
      (∀ pr ∈ pairs, ∀ ds₁, decodedSegs pr.1 = some ds₁ →
        ∀ sg ∈ ds₁, SegOk sg = true) →
      insertAll t₀ pairs = some t → TrieWF J t := by
  intro pairs
  induction pairs with
  | nil =>
    intro t₀ t hwf _ _ h
    obtain rfl := Option.some.inj h
    exact hwf
  | cons pr rest ih =>
    intro t₀ t hwf hg hseg h
    rw [show insertAll t₀ (pr :: rest)
        = (insert t₀ pr.1 pr.2).bind (fun t₁ => insertAll t₁ rest) from rfl] at h
    cases hins : insert t₀ pr.1 pr.2 with
    | none => rw [hins] at h; exact absurd h (by simp)
    | some t₁ =>
      rw [hins] at h
      replace h : insertAll t₁ rest = some t := h
      obtain ⟨-, ds₁, hds₁, rfl⟩ := insert_some hins
      exact ih _ t
        (insertSegsT_wf ds₁ t₀ pr.2 hwf (hg pr (by simp))
          (hseg pr (by simp) ds₁ hds₁))
        (fun q hq => hg q (List.mem_cons_of_mem _ hq))
        (fun q hq => hseg q (List.mem_cons_of_mem _ hq)) h

theorem splitSlash_ne_nil : ∀ s : Str, splitSlash s ≠ [] := by
  intro s
  cases s with
  | nil => simp [splitSlash]
  | cons c rest =>
    unfold splitSlash
    split
    · simp
    · split <;> simp

theorem mapM_option_cons {α β : Type} (f : α → Option β) (x : α) (xs : List α) :
    (x :: xs).mapM f
      = match f x, xs.mapM f with
        | some y, some ys => some (y :: ys)
        | _, _ => none := by
  rw [List.mapM_cons]
  cases hf : f x with
  | none => rfl
  | some y =>
    cases hm : xs.mapM f with
    | none => rfl
    | some ys => rfl

theorem decodedSegs_slash {path : Str} (h : path.head? = some '/')
    {ds : List Str} (hds : decodedSegs path = some ds) :
    ∃ s₂ rest, ds = [] :: s₂ :: rest ∧
      (splitSlash (path.drop 1)).mapM pdecode = some (s₂ :: rest) := by
  cases path with
  | nil => exact absurd h (by simp)
  | cons c p =>
    obtain rfl : c = '/' := Option.some.inj h
    unfold decodedSegs at hds
    rw [show splitSlash ('/' :: p) = [] :: splitSlash p from by
      simp [splitSlash]] at hds
    rw [mapM_option_cons] at hds
    cases hm : (splitSlash p).mapM pdecode with
    | none =>
      rw [hm] at hds
      exact absurd hds (by simp [pdecode, pdecodeF])
    | some ds' =>
      rw [hm] at hds
      rw [show pdecode [] = some [] from rfl] at hds
      obtain rfl := Option.some.inj hds
      cases hsp : splitSlash p with
      | nil => exact absurd hsp (splitSlash_ne_nil p)
      | cons a l =>
        rw [hsp, mapM_option_cons] at hm
        cases hpa : pdecode a with
        | none => rw [hpa] at hm; exact absurd hm (by simp)
        | some da =>
          cases hml : l.mapM pdecode with
          | none => rw [hpa, hml] at hm; exact absurd hm (by simp)
          | some dl =>
            rw [hpa, hml] at hm
            obtain rfl := Option.some.inj hm
            exact ⟨da, dl, rfl, by rw [show ('/' :: p).drop 1 = p from rfl, hsp,
              mapM_option_cons, hpa, hml]⟩

theorem aset_ne_nil {α : Type} (l : List (Str × α)) (k : Str) (v : α) :
    aset l k v ≠ [] := by
  cases l with
  | nil => simp [aset]
  | cons e es =>
    obtain ⟨k₁, v₁⟩ := e
    simp only [aset]
    split <;> simp

theorem insertSegsT_root_shape {t : Trie} {v : JsonValue}
    (hs : t = Trie.mk none [] ∨
      ∃ T₀, t = Trie.mk none [([], T₀)] ∧ T₀.children ≠ [])
    (s₂ : Str) (rest : List Str) :
    ∃ T₁, insertSegsT ([] :: s₂ :: rest) t v = Trie.mk none [([], T₁)] ∧
      T₁.children ≠ [] := by
  rcases hs with rfl | ⟨T₀, rfl, hne⟩
  · refine ⟨insertSegsT (s₂ :: rest) (Trie.mk none []) v, ?_, ?_⟩
    · rw [show insertSegsT ([] :: s₂ :: rest) (Trie.mk none []) v
        = Trie.mk none ([] ++ [([], insertSegsT (s₂ :: rest) (Trie.mk none []) v)])
        from by simp [insertSegsT, alookup]]
      rfl
    · rw [show insertSegsT (s₂ :: rest) (Trie.mk none []) v
        = Trie.mk none ([] ++ [(s₂, insertSegsT rest (Trie.mk none []) v)])
        from by simp [insertSegsT, alookup]]
      simp [Trie.children]
  · refine ⟨insertSegsT (s₂ :: rest) T₀ v, ?_, ?_⟩
    · rw [show insertSegsT ([] :: s₂ :: rest) (Trie.mk none [([], T₀)]) v
        = Trie.mk none (aset [([], T₀)] [] (insertSegsT (s₂ :: rest) T₀ v))
        from by simp [insertSegsT, alookup]]
      rw [show aset [([], T₀)] ([] : Str) (insertSegsT (s₂ :: rest) T₀ v)
        = [(([] : Str), insertSegsT (s₂ :: rest) T₀ v)] from by simp [aset]]
    · obtain ⟨v₀, cs₀⟩ := T₀
      cases halk : alookup cs₀ s₂ with
      | some sub =>
        rw [show insertSegsT (s₂ :: rest) (Trie.mk v₀ cs₀) v
            = Trie.mk v₀ (aset cs₀ s₂ (insertSegsT rest sub v)) from by
          simp [insertSegsT, halk]]
        exact fun he => aset_ne_nil cs₀ s₂ _ he
      | none =>
        rw [show insertSegsT (s₂ :: rest) (Trie.mk v₀ cs₀) v
            = Trie.mk v₀ (cs₀ ++ [(s₂, insertSegsT rest (Trie.mk none []) v)])
            from by simp [insertSegsT, halk]]
        simp [Trie.children]

theorem insertAll_keep_shape :
    ∀ (pairs : List (Str × JsonValue)) (t₀ t : Trie),
      (∃ T₀, t₀ = Trie.mk none [([], T₀)] ∧ T₀.children ≠ []) →
      (∀ pr ∈ pairs, pr.1.head? = some '/') →
      insertAll t₀ pairs = some t →
      ∃ T₀, t = Trie.mk none [([], T₀)] ∧ T₀.children ≠ [] := by
  intro pairs
  induction pairs with
  | nil =>
    intro t₀ t hs _ h
    obtain rfl := Option.some.inj h
    exact hs
  | cons pr rest ih =>
    intro t₀ t hs hheads h
    rw [show insertAll t₀ (pr :: rest)
        = (insert t₀ pr.1 pr.2).bind (fun t₁ => insertAll t₁ rest) from rfl] at h
    cases hins : insert t₀ pr.1 pr.2 with
    | none => rw [hins] at h; exact absurd h (by simp)
    | some t₁ =>
      rw [hins] at h
      replace h : insertAll t₁ rest = some t := h
      obtain ⟨hhead, ds₁, hds₁, rfl⟩ := insert_some hins
      obtain ⟨s₂, r₂, rfl, -⟩ := decodedSegs_slash hhead hds₁
      obtain ⟨T₁, he, hne⟩ := insertSegsT_root_shape (Or.inr hs) s₂ r₂
      rw [he] at h
      exact ih _ t ⟨T₁, rfl, hne⟩
        (fun q hq => hheads q (List.mem_cons_of_mem _ hq)) h

theorem insertAll_root {pairs : List (Str × JsonValue)} {t : Trie}
    (hne : pairs ≠ []) (hheads : ∀ pr ∈ pairs, pr.1.head? = some '/')
    (h : insertAll emptyTrie pairs = some t) :
    ∃ T₀, t = Trie.mk none [([], T₀)] ∧ T₀.children ≠ [] := by
  cases pairs with
  | nil => exact absurd rfl hne
  | cons pr rest =>
    rw [show insertAll emptyTrie (pr :: rest)
        = (insert emptyTrie pr.1 pr.2).bind (fun t₁ => insertAll t₁ rest)
        from rfl] at h
    cases hins : insert emptyTrie pr.1 pr.2 with
    | none => rw [hins] at h; exact absurd h (by simp)
    | some t₁ =>
      rw [hins] at h
      replace h : insertAll t₁ rest = some t := h
      obtain ⟨hhead, ds₁, hds₁, rfl⟩ := insert_some hins
      obtain ⟨s₂, r₂, rfl, -⟩ := decodedSegs_slash hhead hds₁
      obtain ⟨T₁, he, hTne⟩ :=
        insertSegsT_root_shape (t := emptyTrie) (Or.inl rfl) s₂ r₂ (v := pr.2)
      rw [he] at h
      exact insertAll_keep_shape rest _ t ⟨T₁, rfl, hTne⟩
        (fun q hq => hheads q (List.mem_cons_of_mem _ hq)) h

theorem encode_ne_nil_of_entries {pml : PMLine} (h : pml.entries ≠ []) :
    encodePathMapNode pml ≠ [] := by
  have hJ : jsOrderEntries pml.entries ≠ [] := by
    intro he
    have := (jsOrderEntries_perm pml.entries).length_eq
    rw [he] at this
    cases hq : pml.entries with
    | nil => exact h hq
    | cons a l => rw [hq] at this; simp at this
  cases hq : jsOrderEntries pml.entries with
  | nil => exact absurd hq hJ
  | cons e es =>
    unfold encodePathMapNode
    rw [hq]
    simp

theorem entriesWF_jsOrder {es : List (Str × Ref)} (h : entriesWF es) :
    entriesWF (jsOrderEntries es) :=
  ⟨(((jsOrderEntries_perm es).map Prod.fst).nodup_iff).mpr h.1,
    fun e he => h.2 e ((jsOrderEntries_perm es).mem_iff.mp he)⟩

/-! ## The reader resolves lines and agrees with the writer trie -/

theorem head?_append_of_ne_nil {l r : Str} (h : l ≠ []) :
    (l ++ r).head? = l.head? := by
  cases l with
  | nil => exact absurd rfl h
  | cons c cs => rfl

theorem getLineOf_node {J : JsonCodec} {ls : List Str} {o : Nat} {pml : PMLine}
    (hsh : linesShaped ls) (hla : LineAt ls o (encodePathMapNode pml))
    (hwfp : entriesWF pml.entries) :
    getLineOf J ls.flatten o
      = Except.ok (LineVal.node ⟨pml.self, jsOrderEntries pml.entries⟩) := by
  obtain ⟨c, hc, hdel⟩ : ∃ c, (encodePathMapNode pml ++ ['\n']).head? = some c ∧
      isPmapDelimiter c = true := by
    cases he : encodePathMapNode pml with
    | nil => exact ⟨'\n', rfl, rfl⟩
    | cons c₀ r =>
      refine ⟨c₀, rfl, @encode_head pml c₀ ?_⟩
      rw [he]
      rfl
  simp only [getLineOf, getUTF8Line_of_lineAt hsh hla, hc, if_pos hdel,
    decode_encode pml hwfp.2 hwfp.1]

theorem getLineOf_leaf {J : JsonCodec} {ls : List Str} {o : Nat} {v : JsonValue}
    (hsh : linesShaped ls) (hla : LineAt ls o (J.enc v)) (hg : GoodCodecAt J v) :
    getLineOf J ls.flatten o = Except.ok (LineVal.json v) := by
  obtain ⟨hhead, hno, hne⟩ := leafTextOk_parts hg.1
  obtain ⟨c, hc⟩ : ∃ c, (J.enc v).head? = some c := by
    cases he : J.enc v with
    | nil => exact absurd he hne
    | cons c₀ r => exact ⟨c₀, rfl⟩
  have hc' : (J.enc v ++ ['\n']).head? = some c := by
    rw [head?_append_of_ne_nil hne, hc]
  have hcond : ¬ (isPmapDelimiter c = true) := by
    rw [(hhead c hc).1]
    simp
  simp only [getLineOf, getUTF8Line_of_lineAt hsh hla, hc', if_neg hcond, hg.2]

theorem matchesPml_decoded {J : JsonCodec} {ls : List Str} {o : Nat} {c : Trie}
    (h : NodeRep J ls o c) :
    ∃ pml₂, LineAt ls o (encodePathMapNode pml₂) ∧ entriesWF pml₂.entries ∧
      entriesWF (jsOrderEntries pml₂.entries) ∧
      MatchesPml J ls ⟨pml₂.self, jsOrderEntries pml₂.entries⟩ c := by
  cases h with
  | intro _ _ pml hla hwf hself hch =>
    refine ⟨pml, hla, hwf, entriesWF_jsOrder hwf, hself, ?_⟩
    intro k
    rw [show lookupEntry (PMLine.mk pml.self (jsOrderEntries pml.entries)).entries k
        = lookupEntry pml.entries k from by
      rw [lookupEntry_eq_alookup, lookupEntry_eq_alookup]
      exact alookup_eq_of_perm (jsOrderEntries_perm pml.entries)
        (((jsOrderEntries_perm pml.entries).map Prod.fst).nodup_iff.mpr hwf.1) k]
    exact hch k

theorem findLoop_agrees (J : JsonCodec) (ls : List Str) (hsh : linesShaped ls) :
    ∀ (raws : List Str) (dsegs : List Str), raws.mapM pdecode = some dsegs →
      (∀ sg ∈ dsegs, jsProtoKey sg = false) →
      (∀ (t : Trie) (pml : PMLine), entriesWF pml.entries →
        MatchesPml J ls pml t →
        findLoop J ls.flatten raws none (some pml)
          = some (Except.ok ((trieFindSegs dsegs t).map LineVal.json))) ∧
      (∀ (v : JsonValue),
        findLoop J ls.flatten raws (some (LineVal.json v)) none
          = some (Except.ok
              ((trieFindSegs dsegs (Trie.mk (some v) [])).map LineVal.json))) := by
  intro raws
  induction raws with
  | nil =>
    intro dsegs hmap hnp
    obtain rfl : dsegs = [] := by
      rw [show ([] : List Str).mapM pdecode = some [] from rfl] at hmap
      exact (Option.some.inj hmap).symm
    constructor
    · intro t pml hwfp hm
      obtain ⟨hself, hch⟩ := hm
      obtain ⟨ps, pes⟩ := pml
      replace hself : SelfRep J ls t.val ps := hself
      rw [show trieFindSegs [] t = t.val from rfl]
      cases ps with
      | none =>
        cases hv : t.val with
        | none => rfl
        | some w => rw [hv] at hself; cases hself
      | some r =>
        cases r with
        | inline =>
          cases hv : t.val with
          | none => rw [hv] at hself; cases hself
          | some w =>
            rw [hv] at hself
            cases hself with
            | inline => rfl
        | off n =>
          cases hv : t.val with
          | none => rw [hv] at hself; cases hself
          | some w =>
            rw [hv] at hself
            cases hself with
            | leaf _ _ hne hg hla =>
              rw [show findLoop J ls.flatten [] none
                    (some ⟨some (Ref.off n), pes⟩)
                  = some (match getLineOf J ls.flatten n with
                     | Except.error e => Except.error e
                     | Except.ok lv => Except.ok (some lv)) from rfl]
              rw [getLineOf_leaf hsh hla hg]
              rfl
    · intro v
      rfl
  | cons raw rest ih =>
    intro dsegs hmap hnp
    rw [mapM_option_cons] at hmap
    cases hpr : pdecode raw with
    | none => rw [hpr] at hmap; exact absurd hmap (by simp)
    | some part =>
      cases hmr : rest.mapM pdecode with
      | none => rw [hpr, hmr] at hmap; exact absurd hmap (by simp)
      | some drest =>
        rw [hpr, hmr] at hmap
        obtain rfl := Option.some.inj hmap
        obtain ⟨ihn, ihl⟩ :=
          ih drest hmr (fun sg hs => hnp sg (List.mem_cons_of_mem _ hs))
        have hnpp : jsProtoKey part = false := hnp part (List.mem_cons_self _ _)
        have hcond : ¬ (jsProtoKey part = true) := by simp [hnpp]
        constructor
        · intro t pml hwfp hm
          obtain ⟨hself, hch⟩ := hm
          obtain ⟨ps, pes⟩ := pml
          replace hch : ∀ k : Str,
              ChildRel J ls (alookup t.children k) (lookupEntry pes k) := hch
          have hrel := hch part
          have hL : findLoop J ls.flatten (raw :: rest) none (some ⟨ps, pes⟩)
              = (match lookupEntry pes part with
                 | none =>
                   if jsProtoKey part then none else some (Except.ok none)
                 | some Ref.inline =>
                   findLoop J ls.flatten rest
                     (some (LineVal.json (JsonValue.bool true))) none
                 | some (Ref.off n) =>
                   match getLineOf J ls.flatten n with
                   | Except.error e => some (Except.error e)
                   | Except.ok (LineVal.node pml₁) =>
                     findLoop J ls.flatten rest none (some pml₁)
                   | Except.ok (LineVal.json w) =>
                     findLoop J ls.flatten rest (some (LineVal.json w)) none)
              := by
            rw [show findLoop J ls.flatten (raw :: rest) none (some ⟨ps, pes⟩)
                = (match pdecode raw with
                   | none => some (Except.error RdErr.uri)
                   | some q =>
                     match lookupEntry pes q with
                     | none =>
                       if jsProtoKey q then none else some (Except.ok none)
                     | some Ref.inline =>
                       findLoop J ls.flatten rest
                         (some (LineVal.json (JsonValue.bool true))) none
                     | some (Ref.off n) =>
                       match getLineOf J ls.flatten n with
                       | Except.error e => some (Except.error e)
                       | Except.ok (LineVal.node pml₁) =>
                         findLoop J ls.flatten rest none (some pml₁)
                       | Except.ok (LineVal.json w) =>
                         findLoop J ls.flatten rest (some (LineVal.json w)) none)
                 from rfl]
            rw [hpr]
          have hR : trieFindSegs (part :: drest) t
              = (match alookup t.children part with
                 | some sub => trieFindSegs drest sub
                 | none => none) := rfl
          rw [hL, hR]
          cases halk : alookup t.children part with
          | none =>
            rw [halk] at hrel
            cases hlk : lookupEntry pes part with
            | none =>
              rw [if_neg hcond]
              rfl
            | some r => rw [hlk] at hrel; cases hrel
          | some c =>
            rw [halk] at hrel
            cases hlk : lookupEntry pes part with
            | none => rw [hlk] at hrel; cases hrel
            | some r =>
              rw [hlk] at hrel
              cases r with
              | inline =>
                cases hrel with
                | inline _ hleaf =>
                  rw [leafOnly_some hleaf]
                  exact ihl (JsonValue.bool true)
              | off n =>
                cases hrel with
                | leaf _ v _ hleaf hne hg hla =>
                  rw [leafOnly_some hleaf]
                  show (match getLineOf J ls.flatten n with
                        | Except.error e => some (Except.error e)
                        | Except.ok (LineVal.node pml₁) =>
                          findLoop J ls.flatten rest none (some pml₁)
                        | Except.ok (LineVal.json w) =>
                          findLoop J ls.flatten rest
                            (some (LineVal.json w)) none)
                      = _
                  rw [getLineOf_leaf hsh hla hg]
                  exact ihl v
                | node _ _ hleaf hnr =>
                  obtain ⟨pml₂, hla₂, hwf₂, hwfj₂, hm₂⟩ := matchesPml_decoded hnr
                  show (match getLineOf J ls.flatten n with
                        | Except.error e => some (Except.error e)
                        | Except.ok (LineVal.node pml₁) =>
                          findLoop J ls.flatten rest none (some pml₁)
                        | Except.ok (LineVal.json w) =>
                          findLoop J ls.flatten rest
                            (some (LineVal.json w)) none)
                      = _
                  rw [getLineOf_node hsh hla₂ hwf₂]
                  exact ihn c ⟨pml₂.self, jsOrderEntries pml₂.entries⟩ hwfj₂ hm₂
        · intro v
          rw [show findLoop J ls.flatten (raw :: rest)
                (some (LineVal.json v)) none
              = (match pdecode raw with
                 | none => some (Except.error RdErr.uri)
                 | some q => some (Except.ok none)) from rfl, hpr]
          rfl

/-- The full write/read pipeline agrees with `lastVal` for one query path. -/
theorem pipeline_find (J : JsonCodec) (pairs : List (Str × JsonValue))
    (t : Trie) (fuel : Nat) (file : Str) (o : Nat) (path : Str) (ds : List Str)
    (hpairs : pairs ≠ [])
    (hheads : ∀ pr ∈ pairs, pr.1.head? = some '/')
    (hgood : ∀ pr ∈ pairs, GoodCodecAt J pr.2)
    (hsegok : ∀ pr ∈ pairs, ∀ ds₁, decodedSegs pr.1 = some ds₁ →
      ∀ sg ∈ ds₁, SegOk sg = true)
    (hins : insertAll emptyTrie pairs = some t)
    (hdep : ∀ T, alookup t.children ([] : Str) = some T →
      depthLeB fuel T = true)
    (hstr : stringify J fuel t = some file)
    (hroot : readerRootOffset file = some o)
    (hpath : path.head? = some '/')
    (hds : decodedSegs path = some ds)
    (hnp : ∀ sg ∈ ds, jsProtoKey sg = false) :
    prefixFind J file o path
      = some (Except.ok ((lastVal pairs path).map LineVal.json)) := by
  obtain ⟨T₀, rfl, hTne⟩ := insertAll_root hpairs hheads hins
  have hwft : TrieWF J (Trie.mk none [([], T₀)]) :=
    insertAll_wf pairs emptyTrie _ (emptyTrie_wf J) hgood hsegok hins
  have hwf : TrieWF J T₀ := by
    cases hwft with
    | intro _ _ _ _ _ h => exact h ([], T₀) (by simp)
  have hdepT : depthLeB fuel T₀ = true := hdep T₀ rfl
  obtain ⟨f, rfl⟩ : ∃ f, fuel = f + 1 := by
    cases fuel with
    | zero =>
      rw [show depthLeB 0 T₀ = false from rfl] at hdepT
      exact absurd hdepT (by simp)
    | succ f => exact ⟨f, rfl⟩
  have hstr' : stringify J (f + 1) (Trie.mk none [([], T₀)])
      = some ((walkNode J (f + 1) T₀ initState).2.lines.flatten) := rfl
  have hfile : (walkNode J (f + 1) T₀ initState).2.lines.flatten = file :=
    Option.some.inj (hstr'.symm.trans hstr)
  subst hfile
  obtain ⟨pre, pml, hlines, hoff, hewf, hkeys, hW, hsb, hnr⟩ :=
    stringify_spec J f T₀ hwf hdepT
  have hplen : pml.entries.length = T₀.children.length := by
    have h1 := congrArg List.length hkeys
    rw [List.length_map, List.length_map] at h1
    rw [h1, (sortChildren_perm T₀.children).length_eq]
  have hpne : pml.entries ≠ [] := by
    intro he
    rw [he] at hplen
    cases hc : T₀.children with
    | nil => exact hTne hc
    | cons a l => rw [hc] at hplen; simp at hplen
  have hshp : linesShaped pre := fun l hl =>
    hW.shaped l (by rw [hlines]; exact List.mem_append_left _ hl)
  have hnonl : ∀ c ∈ encodePathMapNode pml, c ≠ '\n' :=
    encode_no_newline hewf.2
  have hrne : encodePathMapNode pml ≠ [] := encode_ne_nil_of_entries hpne
  have hlls := lastLineStart_concat hshp hnonl hrne
  rw [show readerRootOffset (walkNode J (f + 1) T₀ initState).2.lines.flatten
      = lastLineStart
        (utf8Bytes (walkNode J (f + 1) T₀ initState).2.lines.flatten)
      from rfl, hlines, hlls] at hroot
  by_cases hpre : pre = []
  · rw [if_pos hpre] at hroot
    exact absurd hroot (by simp)
  · rw [if_neg hpre] at hroot
    obtain rfl : linesLen pre = o := Option.some.inj hroot
    obtain ⟨s₂, r₂, rfl, hmraw⟩ := decodedSegs_slash hpath hds
    have hnro : NodeRep J (walkNode J (f + 1) T₀ initState).2.lines
        (linesLen pre) T₀ := by
      rw [← hoff]
      exact hnr
    obtain ⟨pml₂, hla₂, hwf₂, hwfj₂, hm₂⟩ := matchesPml_decoded hnro
    have hgl := getLineOf_node (J := J) hW.shaped hla₂ hwf₂
    have hloop := (findLoop_agrees J (walkNode J (f + 1) T₀ initState).2.lines
        hW.shaped (splitSlash (path.drop 1)) (s₂ :: r₂) hmraw
        (fun sg hs => hnp sg (List.mem_cons_of_mem _ hs))).1 T₀
        ⟨pml₂.self, jsOrderEntries pml₂.entries⟩ hwfj₂ hm₂
    have hlv : trieFindSegs (s₂ :: r₂) T₀ = lastVal pairs path :=
      (show trieFindSegs ([] :: s₂ :: r₂) (Trie.mk none [([], T₀)])
          = trieFindSegs (s₂ :: r₂) T₀ from rfl).symm.trans
        (insertAll_lastVal hins hds)
    unfold prefixFind
    rw [if_pos hpath, hgl, ← hlv]
    exact hloop

/-! ## Classification of emitted lines for the invariant claims -/

theorem stringifyState_spec (J : JsonCodec) (fuel : Nat) (t : Trie)
    (n : Nat) (s : WState) (hwf : TrieWF J t)
    (hdep : ∀ T, alookup t.children ([] : Str) = some T →
      depthLeB fuel T = true)
    (hss : stringifyState J fuel t = some (n, s)) :
    ∃ B, WFS s ∧ SeenBelow J s B := by
  unfold stringifyState at hss
  cases halk : alookup t.children ([] : Str) with
  | none => rw [halk] at hss; exact absurd hss (by simp)
  | some T₀ =>
    rw [halk] at hss
    have hpair : walkNode J fuel T₀ initState = (n, s) := Option.some.inj hss
    have hwfT : TrieWF J T₀ := by
      obtain ⟨tv, cs⟩ := t
      cases hwf with
      | intro _ _ _ _ _ h => exact h (([] : Str), T₀) (alookup_mem halk)
    have hdepT := hdep T₀ halk
    obtain ⟨f, rfl⟩ : ∃ f, fuel = f + 1 := by
      cases fuel with
      | zero =>
        rw [show depthLeB 0 T₀ = false from rfl] at hdepT
        exact absurd hdepT (by simp)
      | succ f => exact ⟨f, rfl⟩
    obtain ⟨pre, pml, hlines, hoff, hewf, hkeys, hW, hsb, hnr⟩ :=
      stringify_spec J f T₀ hwfT hdepT
    refine ⟨sizeOf T₀ + 1, ?_, ?_⟩
    · rw [show s = (walkNode J (f + 1) T₀ initState).2
        from (congrArg Prod.snd hpair).symm]
      exact hW
    · rw [show s = (walkNode J (f + 1) T₀ initState).2
        from (congrArg Prod.snd hpair).symm]
      exact hsb

theorem stringify_node_line_classified (J : JsonCodec) (fuel : Nat) (t : Trie)
    (n : Nat) (s : WState) (hwf : TrieWF J t)
    (hdep : ∀ T, alookup t.children ([] : Str) = some T →
      depthLeB fuel T = true)
    (hss : stringifyState J fuel t = some (n, s)) :
    ∀ l ∈ s.lines, ∀ pml, decodePathMapNode l = Except.ok pml →
      ∃ pml₀ : PMLine, entriesWF pml₀.entries ∧
        List.Pairwise (fun a b => u16Le a.1 b.1 = true) pml₀.entries ∧
        (∀ e ∈ pml₀.entries, RefOk s.lines e.2) ∧
        (∀ r, pml₀.self = some r → RefOk s.lines r) ∧
        pml = ⟨pml₀.self, jsOrderEntries pml₀.entries⟩ := by
  obtain ⟨B, hW, hsb⟩ := stringifyState_spec J fuel t n s hwf hdep hss
  intro l hl pml hdec
  obtain ⟨txt, o, hseen, rfl⟩ := hW.linesSeen l hl
  rcases hsb (txt, o) hseen with ⟨v, htv, hgv, hvne⟩ |
    ⟨t', pml₀, htv, hewf₀, hpw, hre, hrs, hnr₀, hwf₀, hsz⟩
  · exfalso
    obtain ⟨hhead, hno, hne⟩ := leafTextOk_parts hgv.1
    have hdn : decodePathMapNode (txt ++ ['\n'])
        = Except.error DecErr.malformed := by
      apply decode_bad_head
      intro c hc
      rw [show txt = J.enc v from htv, head?_append_of_ne_nil hne] at hc
      exact (hhead c hc).1
    rw [hdn] at hdec
    exact Except.noConfusion hdec
  · refine ⟨pml₀, hewf₀, hpw, hre, hrs, ?_⟩
    have hde := decode_encode pml₀ hewf₀.2 hewf₀.1
    rw [show txt = encodePathMapNode pml₀ from htv] at hdec
    exact Except.ok.inj (hdec.symm.trans hde)

theorem trieWF_leaf {J : JsonCodec} {v : JsonValue} (h : GoodCodecAt J v) :
    TrieWF J (Trie.mk (some v) []) :=
  TrieWF.intro _ _ (fun w hw => by obtain rfl := Option.some.inj hw; exact h)
    (by simp) (fun kc hk => absurd hk (List.not_mem_nil kc))
    (fun kc hk => absurd hk (List.not_mem_nil kc))

theorem trieWF_node1 {J : JsonCodec} {k : Str} {c : Trie}
    (hk : SegOk k = true) (hc : TrieWF J c) : TrieWF J (Trie.mk none [(k, c)]) :=
  TrieWF.intro _ _ (fun w hw => Option.noConfusion hw) (by simp)
    (fun kc hkc => by rw [List.mem_singleton] at hkc; subst hkc; exact hk)
    (fun kc hkc => by rw [List.mem_singleton] at hkc; subst hkc; exact hc)

theorem trieWF_node2 {J : JsonCodec} {k₁ k₂ : Str} {c₁ c₂ : Trie}
    (hne : k₁ ≠ k₂) (hk₁ : SegOk k₁ = true) (hk₂ : SegOk k₂ = true)
    (hc₁ : TrieWF J c₁) (hc₂ : TrieWF J c₂) :
    TrieWF J (Trie.mk none [(k₁, c₁), (k₂, c₂)]) :=
  TrieWF.intro _ _ (fun w hw => Option.noConfusion hw) (by simp [hne])
    (fun kc hkc => by
      rcases List.mem_cons.mp hkc with rfl | hkc₂
      · exact hk₁
      · rw [List.mem_singleton] at hkc₂; subst hkc₂; exact hk₂)
    (fun kc hkc => by
      rcases List.mem_cons.mp hkc with rfl | hkc₂
      · exact hc₁
      · rw [List.mem_singleton] at hkc₂; subst hkc₂; exact hc₂)

theorem hsegok_of_check {pairs : List (Str × JsonValue)}
    (h : pairs.all (fun pr =>
      match decodedSegs pr.1 with
      | some ds₁ => ds₁.all SegOk
      | none => true) = true) :
    ∀ pr ∈ pairs, ∀ ds₁, decodedSegs pr.1 = some ds₁ →
      ∀ sg ∈ ds₁, SegOk sg = true := by
  intro pr hpr ds₁ hds₁ sg hsg
  rw [List.all_eq_true] at h
  have h2 := h pr hpr
  rw [hds₁] at h2
  rw [List.all_eq_true] at h2
  exact h2 sg hsg

/-! ## Claims C1, C2, C3, C5, C6 -/

/-- C1, corrected: the round trip insert-all / stringify / construct reader /
find returns the last payload inserted for every inserted path, PROVIDED the
payloads are codec-conformant, every decoded path segment is scanner-safe (no
embedded newline, no trailing backslash), the tries involved are within the
walk fuel, and the reader constructor terminates (cf. C4: it diverges when
the output is a single line).  The last proviso is why the claim as frozen is
false: see the counterexample, a one-pair input whose reader never
constructs. -/
theorem writer_reader_roundtrip_inserted (J : JsonCodec)
    (pairs : List (Str × JsonValue)) (t : Trie) (fuel : Nat) (file : Str)
    (o : Nat) (path : Str) (ds : List Str) (v : JsonValue)
    (hpairs : pairs ≠ [])
    (hheads : ∀ pr ∈ pairs, pr.1.head? = some '/')
    (hgood : ∀ pr ∈ pairs, GoodCodecAt J pr.2)
    (hsegok : ∀ pr ∈ pairs, ∀ ds₁, decodedSegs pr.1 = some ds₁ →
      ∀ sg ∈ ds₁, SegOk sg = true)
    (hins : insertAll emptyTrie pairs = some t)
    (hdep : ∀ T, alookup t.children ([] : Str) = some T →
      depthLeB fuel T = true)
    (hstr : stringify J fuel t = some file)
    (hroot : readerRootOffset file = some o)
    (hpath : path.head? = some '/')
    (hds : decodedSegs path = some ds)
    (hnp : ∀ sg ∈ ds, jsProtoKey sg = false)
    (hv : lastVal pairs path = some v) :
    prefixFind J file o path
      = some (Except.ok (some (LineVal.json v))) := by
  rw [pipeline_find J pairs t fuel file o path ds hpairs hheads hgood hsegok
    hins hdep hstr hroot hpath hds hnp, hv]
  rfl

theorem writer_reader_roundtrip_inserted_witness :
    prefixFind simpleCodec
      ['\"', 'f', '\"', '\n', '/', 'f', 'o', 'o', ':', '\n'] 4
      ['/', 'f', 'o', 'o']
      = some (Except.ok (some (LineVal.json (JsonValue.str ['f'])))) :=
  writer_reader_roundtrip_inserted simpleCodec
    [(['/', 'f', 'o', 'o'], JsonValue.str ['f'])]
    (Trie.mk none [(([] : Str), Trie.mk none
      [(['f', 'o', 'o'], Trie.mk (some (JsonValue.str ['f'])) [])])])
    3 ['\"', 'f', '\"', '\n', '/', 'f', 'o', 'o', ':', '\n'] 4
    ['/', 'f', 'o', 'o'] [[], ['f', 'o', 'o']] (JsonValue.str ['f'])
    (List.cons_ne_nil _ _)
    (by intro pr hpr; rw [List.mem_singleton] at hpr; subst hpr; rfl)
    (by intro pr hpr; rw [List.mem_singleton] at hpr; subst hpr
        exact ⟨rfl, rfl⟩)
    (hsegok_of_check rfl)
    rfl
    (fun T hT => by obtain rfl := Option.some.inj hT; rfl)
    rfl rfl rfl rfl (by decide) rfl

/-- C1 counterexample: the frozen claim quantifies over every pair set with
`/`-paths and JSON payloads; for the single pair `("/x", true)` the writer
emits the single line `/x!\n`, and the reader constructor's backward scan
diverges on it (`readerRootOffset` is `none`, cf. C4), so `find` never
returns the inserted payload. -/
theorem roundtrip_reader_unconstructible_for_true :
    insertAll emptyTrie [(['/', 'x'], JsonValue.bool true)]
      = some (Trie.mk none [(([] : Str),
          Trie.mk none [(['x'], Trie.mk (some (JsonValue.bool true)) [])])]) ∧
    stringify simpleCodec 2
      (Trie.mk none [(([] : Str),
        Trie.mk none [(['x'], Trie.mk (some (JsonValue.bool true)) [])])])
      = some ['/', 'x', '!', '\n'] ∧
    readerRootOffset ['/', 'x', '!', '\n'] = none :=
  ⟨rfl, rfl, rfl⟩

/-- C2, corrected: under the same provisos as C1 (conformant payloads,
scanner-safe decoded segments, enough fuel, constructible reader), a query
path that was never inserted resolves to `absent` (`Except.ok none`).
Without the scanner-safety proviso the claim as frozen is false: a payload
path whose segment embeds a newline splits the emitted node line, and the
reader then fails with a JSON error instead of returning absent — see the
counterexample. -/
theorem writer_reader_absent_uninserted (J : JsonCodec)
    (pairs : List (Str × JsonValue)) (t : Trie) (fuel : Nat) (file : Str)
    (o : Nat) (path : Str) (ds : List Str)
    (hpairs : pairs ≠ [])
    (hheads : ∀ pr ∈ pairs, pr.1.head? = some '/')
    (hgood : ∀ pr ∈ pairs, GoodCodecAt J pr.2)
    (hsegok : ∀ pr ∈ pairs, ∀ ds₁, decodedSegs pr.1 = some ds₁ →
      ∀ sg ∈ ds₁, SegOk sg = true)
    (hins : insertAll emptyTrie pairs = some t)
    (hdep : ∀ T, alookup t.children ([] : Str) = some T →
      depthLeB fuel T = true)
    (hstr : stringify J fuel t = some file)
    (hroot : readerRootOffset file = some o)
    (hpath : path.head? = some '/')
    (hds : decodedSegs path = some ds)
    (hnp : ∀ sg ∈ ds, jsProtoKey sg = false)
    (hv : lastVal pairs path = none) :
    prefixFind J file o path = some (Except.ok none) := by
  rw [pipeline_find J pairs t fuel file o path ds hpairs hheads hgood hsegok
    hins hdep hstr hroot hpath hds hnp, hv]
  rfl

theorem writer_reader_absent_uninserted_witness :
    prefixFind simpleCodec
      ['\"', 'f', '\"', '\n', '/', 'f', 'o', 'o', ':', '\n'] 4 ['/']
      = some (Except.ok none) :=
  writer_reader_absent_uninserted simpleCodec
    [(['/', 'f', 'o', 'o'], JsonValue.str ['f'])]
    (Trie.mk none [(([] : Str), Trie.mk none
      [(['f', 'o', 'o'], Trie.mk (some (JsonValue.str ['f'])) [])])])
    3 ['\"', 'f', '\"', '\n', '/', 'f', 'o', 'o', ':', '\n'] 4
    ['/'] [[], []]
    (List.cons_ne_nil _ _)
    (by intro pr hpr; rw [List.mem_singleton] at hpr; subst hpr; rfl)
    (by intro pr hpr; rw [List.mem_singleton] at hpr; subst hpr
        exact ⟨rfl, rfl⟩)
    (hsegok_of_check rfl)
    rfl
    (fun T hT => by obtain rfl := Option.some.inj hT; rfl)
    rfl rfl rfl rfl (by decide) rfl

/-- C2 counterexample: inserting the single pair `("/a\nb", 1)` and querying
the never-inserted path `/x` on the resulting (constructible) reader does not
return absent — the newline inside the only segment split the node line, the
root line of the file is the tail `b:\n`, and `find` fails with a JSON parse
error. -/
theorem uninserted_query_errors_on_corrupted_file :
    insertAll emptyTrie [(['/', 'a', '\n', 'b'], JsonValue.num 1)]
      = some (Trie.mk none [(([] : Str),
          Trie.mk none [(['a', '\n', 'b'], Trie.mk (some (JsonValue.num 1)) [])])]) ∧
    stringify simpleCodec 3
      (Trie.mk none [(([] : Str),
        Trie.mk none [(['a', '\n', 'b'], Trie.mk (some (JsonValue.num 1)) [])])])
      = some ['1', '\n', '/', 'a', '\n', 'b', ':', '\n'] ∧
    readerRootOffset ['1', '\n', '/', 'a', '\n', 'b', ':', '\n'] = some 5 ∧
    prefixFind simpleCodec ['1', '\n', '/', 'a', '\n', 'b', ':', '\n'] 5
      ['/', 'x'] = some (Except.error RdErr.jsonBad) :=
  ⟨rfl, rfl, rfl, rfl⟩

/-- C3, corrected: for tries whose stored segments are scanner-safe
(`TrieWF`: no embedded newline, no trailing backslash — every trie the
writer can serialize faithfully), no emitted line of the writer's output is
the JSON encoding of `true`: a `true` payload is carried inline as the `!`
marker of its parent node line, leaf lines hold only non-`true` conformant
payloads (so their text cannot decode to `true`), and node lines cannot
equal a leaf text at all.  The categorical claim over every trie state is
false: segments are not newline-escaped, so a segment whose text embeds
`\ntrue\n` makes the physical line `true` appear in the output — see the
counterexample. -/
theorem stringify_no_true_leaf_line (J : JsonCodec) (fuel : Nat) (t : Trie)
    (n : Nat) (s : WState) (hwf : TrieWF J t)
    (hdep : ∀ T, alookup t.children ([] : Str) = some T →
      depthLeB fuel T = true)
    (hss : stringifyState J fuel t = some (n, s))
    (hgt : GoodCodecAt J (JsonValue.bool true)) :
    ∀ l ∈ s.lines, l ≠ J.enc (JsonValue.bool true) ++ ['\n'] := by
  obtain ⟨B, hW, hsb⟩ := stringifyState_spec J fuel t n s hwf hdep hss
  intro l hl he
  obtain ⟨txt, o, hseen, rfl⟩ := hW.linesSeen l hl
  have htxt : txt = J.enc (JsonValue.bool true) := List.append_cancel_right he
  rcases hsb (txt, o) hseen with ⟨v, htv, hgv, hvne⟩ |
    ⟨t', pml₀, htv, hewf₀, hpw, hre, hrs, hnr₀, hwf₀, hsz⟩
  · apply hvne
    have hee : J.enc v = J.enc (JsonValue.bool true) :=
      (show txt = J.enc v from htv).symm.trans htxt
    have hvv : some v = some (JsonValue.bool true) := by
      rw [← hgv.2, hee, hgt.2]
    exact Option.some.inj hvv
  · exact encode_ne_leafText hgt.1
      ((show txt = encodePathMapNode pml₀ from htv).symm.trans htxt)

theorem stringify_no_true_leaf_line_witness :
    (['/', 'x', '!', '\n'] : Str)
      ≠ simpleCodec.enc (JsonValue.bool true) ++ ['\n'] :=
  stringify_no_true_leaf_line simpleCodec 2
    (Trie.mk none [(([] : Str),
      Trie.mk none [(['x'], Trie.mk (some (JsonValue.bool true)) [])])])
    0 ⟨[['/', 'x', '!', '\n']], 4, [(['/', 'x', '!'], 0)]⟩
    (trieWF_node1 rfl (trieWF_node1 rfl (trieWF_leaf ⟨rfl, rfl⟩)))
    (fun T hT => by obtain rfl := Option.some.inj hT; rfl)
    rfl ⟨rfl, rfl⟩ ['/', 'x', '!', '\n'] (List.mem_singleton.mpr rfl)

/-- C3 counterexample: the frozen claim quantifies over every trie state.
Inserting the single pair `("/\ntrue\nx", 1)` (a path whose one segment
embeds newlines around the word `true`) produces the output
`1\n/\ntrue\nx:\n`, whose physical lines — what a reader of the bytes sees —
include the line `true`, the JSON encoding of `true`. -/
theorem stringify_true_physical_line_on_newline_segment :
    insertAll emptyTrie
      [(['/', '\n', 't', 'r', 'u', 'e', '\n', 'x'], JsonValue.num 1)]
      = some (Trie.mk none [(([] : Str), Trie.mk none
          [(['\n', 't', 'r', 'u', 'e', '\n', 'x'],
            Trie.mk (some (JsonValue.num 1)) [])])]) ∧
    stringify simpleCodec 3
      (Trie.mk none [(([] : Str), Trie.mk none
        [(['\n', 't', 'r', 'u', 'e', '\n', 'x'],
          Trie.mk (some (JsonValue.num 1)) [])])])
      = some ['1', '\n', '/', '\n', 't', 'r', 'u', 'e', '\n', 'x', ':', '\n'] ∧
    simpleCodec.enc (JsonValue.bool true)
      ∈ splitNl ['1', '\n', '/', '\n', 't', 'r', 'u', 'e', '\n', 'x', ':', '\n'] :=
  ⟨rfl, rfl, by decide⟩

/-- C5: confirmed — every reference stored in any node line of the writer's
output (the self slot and every child entry) points at the first byte of
some emitted line, with offsets counted in UTF-8 bytes (`LineAt` inside
`RefOk` says exactly: the offset is the byte length of the preceding
lines). -/
theorem stringify_refs_point_to_line_starts (J : JsonCodec) (fuel : Nat)
    (t : Trie) (n : Nat) (s : WState) (hwf : TrieWF J t)
    (hdep : ∀ T, alookup t.children ([] : Str) = some T →
      depthLeB fuel T = true)
    (hss : stringifyState J fuel t = some (n, s)) :
    ∀ l ∈ s.lines, ∀ pml : PMLine, decodePathMapNode l = Except.ok pml →
      (∀ r, pml.self = some r → RefOk s.lines r) ∧
      ∀ e ∈ pml.entries, RefOk s.lines e.2 := by
  intro l hl pml hdec
  obtain ⟨pml₀, hewf₀, hpw, hre, hrs, rfl⟩ :=
    stringify_node_line_classified J fuel t n s hwf hdep hss l hl pml hdec
  constructor
  · intro r hr
    exact hrs r hr
  · intro e he
    exact hre e ((jsOrderEntries_perm pml₀.entries).mem_iff.mp he)

theorem stringify_refs_point_to_line_starts_witness :
    RefOk [['\"', 'f', '\"', '\n'], ['/', 'f', 'o', 'o', ':', '\n']]
      (Ref.off 0) :=
  (stringify_refs_point_to_line_starts simpleCodec 3
    (Trie.mk none [(([] : Str), Trie.mk none
      [(['f', 'o', 'o'], Trie.mk (some (JsonValue.str ['f'])) [])])])
    4 ⟨[['\"', 'f', '\"', '\n'], ['/', 'f', 'o', 'o', ':', '\n']], 10,
       [(['\"', 'f', '\"'], 0), (['/', 'f', 'o', 'o', ':'], 4)]⟩
    (trieWF_node1 rfl (trieWF_node1 rfl (trieWF_leaf ⟨rfl, rfl⟩)))
    (fun T hT => by obtain rfl := Option.some.inj hT; rfl)
    rfl ['/', 'f', 'o', 'o', ':', '\n']
    (List.mem_cons_of_mem _ (List.mem_singleton.mpr rfl))
    ⟨none, [(['f', 'o', 'o'], Ref.off 0)]⟩ rfl).2
    (['f', 'o', 'o'], Ref.off 0) (List.mem_singleton.mpr rfl)

/-- C6, corrected: the child fields of an emitted node line appear in
JavaScript object key enumeration order — array-index-like segments first in
ascending NUMERIC order, then the remaining segments in the writer's sorted
order, which compares UTF-16 code units — not in ascending UTF-8 byte order
as the claim states.  Formally: the entries of any decoded node line are
`jsOrderEntries` of a list sorted by `u16Le`.  The counterexample shows the
segments `9` and `10` emitted in the order `9`, `10`, which descends in byte
order (`bytesLexLe "10" "9"` holds, `bytesLexLe "9" "10"` fails). -/
theorem stringify_children_js_object_order (J : JsonCodec) (fuel : Nat)
    (t : Trie) (n : Nat) (s : WState) (hwf : TrieWF J t)
    (hdep : ∀ T, alookup t.children ([] : Str) = some T →
      depthLeB fuel T = true)
    (hss : stringifyState J fuel t = some (n, s)) :
    ∀ l ∈ s.lines, ∀ pml : PMLine, decodePathMapNode l = Except.ok pml →
      ∃ es, List.Pairwise (fun a b => u16Le a.1 b.1 = true) es ∧
        pml.entries = jsOrderEntries es := by
  intro l hl pml hdec
  obtain ⟨pml₀, hewf₀, hpw, hre, hrs, rfl⟩ :=
    stringify_node_line_classified J fuel t n s hwf hdep hss l hl pml hdec
  exact ⟨pml₀.entries, hpw, rfl⟩

theorem stringify_children_js_object_order_witness :
    ∃ es, List.Pairwise (fun a b => u16Le a.1 b.1 = true) es ∧
      ([(['9'], Ref.off 2), (['1', '0'], Ref.off 0)] : List (Str × Ref))
        = jsOrderEntries es :=
  stringify_children_js_object_order simpleCodec 3
    (Trie.mk none [(([] : Str), Trie.mk none
      [(['1', '0'], Trie.mk (some (JsonValue.num 1)) []),
       (['9'], Trie.mk (some (JsonValue.num 2)) [])])])
    4 ⟨[['1', '\n'], ['2', '\n'],
        ['/', '9', ':', '2', '/', '1', '0', ':', '\n']], 13,
       [(['1'], 0), (['2'], 2),
        (['/', '9', ':', '2', '/', '1', '0', ':'], 4)]⟩
    (trieWF_node1 rfl (trieWF_node2 (by decide) rfl rfl
      (trieWF_leaf ⟨rfl, rfl⟩) (trieWF_leaf ⟨rfl, rfl⟩)))
    (fun T hT => by obtain rfl := Option.some.inj hT; rfl)
    rfl ['/', '9', ':', '2', '/', '1', '0', ':', '\n']
    (List.mem_cons_of_mem _ (List.mem_cons_of_mem _
      (List.mem_singleton.mpr rfl)))
    ⟨none, [(['9'], Ref.off 2), (['1', '0'], Ref.off 0)]⟩ rfl

/-- C6 counterexample: the writer's own output for the two paths `/10` and
`/9` emits the root node line `/9:2/10:` whose fields appear as `9` then
`10`; ascending UTF-8 byte order would put `10` first, so the emitted order
is not byte-lexicographic. -/
theorem stringify_children_not_byte_lex_ordered :
    insertAll emptyTrie
      [(['/', '1', '0'], JsonValue.num 1), (['/', '9'], JsonValue.num 2)]
      = some (Trie.mk none [(([] : Str), Trie.mk none
          [(['1', '0'], Trie.mk (some (JsonValue.num 1)) []),
           (['9'], Trie.mk (some (JsonValue.num 2)) [])])]) ∧
    stringifyState simpleCodec 3
      (Trie.mk none [(([] : Str), Trie.mk none
        [(['1', '0'], Trie.mk (some (JsonValue.num 1)) []),
         (['9'], Trie.mk (some (JsonValue.num 2)) [])])])
      = some (4, ⟨[['1', '\n'], ['2', '\n'],
          ['/', '9', ':', '2', '/', '1', '0', ':', '\n']], 13,
         [(['1'], 0), (['2'], 2),
          (['/', '9', ':', '2', '/', '1', '0', ':'], 4)]⟩) ∧
    decodePathMapNode ['/', '9', ':', '2', '/', '1', '0', ':', '\n']
      = Except.ok ⟨none, [(['9'], Ref.off 2), (['1', '0'], Ref.off 0)]⟩ ∧
    bytesLexLe ['1', '0'] ['9'] = true ∧
    bytesLexLe ['9'] ['1', '0'] = false :=
  ⟨rfl, rfl, rfl, rfl, rfl⟩

end PathMap
